import Mathlib

/-!
OpenToonz input core: track model, guideline scoring, input manager.

A shallow embedding of

* `toonz/sources/include/tools/track.h` (`TTrackPoint`, `TTrack`, `point`,
  `binarySearch`, `interpolationLinear`, `interpolationSpline`),
* `toonz/sources/tnztools/assistant.cpp` (`TGuideline::calcTrackWeight`,
  `TGuideline::findBest`, `TAssistant::movePoint`, `onDataChanged`, `onFixData`),
* `toonz/sources/tnztools/inputmanager.cpp` (`paintRollbackTo`, `paintApply`,
  `paintTracks`, `reset`, `getTrack`, `addTrackPoint`, `trackEvent`, `touchTracks`,
  `processTracks`, `finishTracks`, `findModifier`, `insertModifier`, `removeModifier`,
  `clearModifiers`).

Conventions.

* A C++ `double` is an element of a linearly ordered field `K`; every definition is
  generic in `K`, so it runs on `ℚ` and can be read on `ℝ`.  Rounding is not modelled.
* `TConsts::epsilon` (declared in `tcommon.h`) is the parameter `eps`.
* C++ `int` indices and counters are `Nat` where the code keeps them non-negative
  (vector indices) and `Int` otherwise; all sizes are assumed to fit an `int`.
* A `std::vector` is a `List`.
-/

set_option autoImplicit false

namespace OpenToonz

/-! ## Definitions -/

/-- Two-dimensional point with `double` coordinates (`TPointD`). -/
structure TPointD (K : Type) where
  x : K
  y : K
  deriving DecidableEq, Repr

/-- One sample of a track (`TTrackPoint`, track.h:59-88). -/
structure TTrackPoint (K : Type) where
  position : TPointD K
  pressure : K
  tilt : TPointD K
  originalIndex : K
  time : K
  length : K
  final : Bool
  deriving DecidableEq, Repr

section Track

variable {K : Type} [LinearOrderedField K]

/-- Modelled from the spec: the fixed positive constant `TConsts::epsilon` of `tcommon.h`
(not part of the sources at hand).  It is only used to instantiate the parameter `eps`
in concrete scenarios; every general theorem holds for each positive `eps`. -/
def TConsts.epsilon : K := 1 / 100000000

/-- Default-constructed point `TPointD()`. -/
def TPointD.zero : TPointD K := ⟨0, 0⟩

/-- Sum of two points (`operator+` of `TPointD`). -/
def TPointD.add (p q : TPointD K) : TPointD K := ⟨p.x + q.x, p.y + q.y⟩

/-- Point scaled by a number (`operator*` of `TPointD` with a `double`). -/
def TPointD.smul (p : TPointD K) (k : K) : TPointD K := ⟨p.x * k, p.y * k⟩

/-- Default-constructed track point: the default arguments of the constructor
(track.h:71-87). -/
def TTrackPoint.blank : TTrackPoint K :=
  { position := TPointD.zero, pressure := 1 / 2, tilt := TPointD.zero,
    originalIndex := 0, time := 0, length := 0, final := false }

/-- Template `interpolationLinear` on numbers: `p0*(1.0 - l) + p1*l` (track.h:329-331). -/
def interpolationLinear (p0 p1 l : K) : K := p0 * (1 - l) + p1 * l

/-- Template `interpolationLinear` on points: `p0*(1.0 - l) + p1*l` (track.h:329-331). -/
def TPointD.interpolationLinear (p0 p1 : TPointD K) (l : K) : TPointD K :=
  (p0.smul (1 - l)).add (p1.smul l)

/-- Static `TTrack::interpolationLinear` on track points (track.h:343-353).  The
constructor call of the last branch leaves `final` at its default `false`. -/
def TTrackPoint.interpolationLinear (eps : K) (p0 p1 : TTrackPoint K) (l : K) :
    TTrackPoint K :=
  if l ≤ eps then p0
  else if l ≥ 1 - eps then p1
  else
    { position := TPointD.interpolationLinear p0.position p1.position l
      pressure := OpenToonz.interpolationLinear p0.pressure p1.pressure l
      tilt := TPointD.interpolationLinear p0.tilt p1.tilt l
      originalIndex := OpenToonz.interpolationLinear p0.originalIndex p1.originalIndex l
      time := OpenToonz.interpolationLinear p0.time p1.time l
      length := OpenToonz.interpolationLinear p0.length p1.length l
      final := false }

/-- Saturating index `clampIndex` on a point vector of the given size:
`min(max(index, 0), size - 1)` (track.h:204-205). -/
def clampIndex (size : Nat) (index : Int) : Int :=
  min (max index 0) ((size : Int) - 1)

/-- Saturating access `TTrack::point` on the point vector (track.h:222-223): the blank
point `m_none` for an empty vector, else the point at the clamped index. -/
def pointAt (pts : List (TTrackPoint K)) (index : Int) : TTrackPoint K :=
  if pts.isEmpty then TTrackPoint.blank
  else pts.getD (clampIndex pts.length index).toNat TTrackPoint.blank

/-- The `while(true)` loop of `TTrack::binarySearch` (track.h:280-286) on the frame
`(a, b, aa, bb)`.  The first argument bounds the number of passes; `binarySearch` starts
it with the vector size, which is never exhausted (`binarySearchLoop_exit`).  The result
is the frame `(a, aa, bb)` the code reads after the loop. -/
def binarySearchLoop (eps : K) (field : TTrackPoint K → K) (pts : List (TTrackPoint K))
    (value : K) : Nat → Nat → Nat → K → K → Nat × K × K
  | 0, a, _, aa, bb => (a, aa, bb)
  | fuel + 1, a, b, aa, bb =>
    let c := (a + b) / 2
    if a = c then (a, aa, bb)
    else
      let cc := field (pts.getD c TTrackPoint.blank)
      if cc - value > eps / 2 then binarySearchLoop eps field pts value fuel a c aa cc
      else binarySearchLoop eps field pts value fuel c b cc bb

/-- Frame `(a, aa, bb)` on which `binarySearch` evaluates its final expression
(track.h:274-286), for a value that passed neither early return. -/
def binarySearchFrame (eps : K) (field : TTrackPoint K → K) (pts : List (TTrackPoint K))
    (value : K) : Nat × K × K :=
  binarySearchLoop eps field pts value pts.length 0 (pts.length - 1)
    (field (pts.getD 0 TTrackPoint.blank))
    (field (pts.getD (pts.length - 1) TTrackPoint.blank))

/-- Template `TTrack::binarySearch<Field>` (track.h:270-288); `0.5*TConsts::epsilon`
is written `eps / 2`. -/
def binarySearch (eps : K) (field : TTrackPoint K → K) (pts : List (TTrackPoint K))
    (value : K) : K :=
  if pts.isEmpty then 0
  else if value - field (pts.getD 0 TTrackPoint.blank) ≤ eps / 2 then 0
  else if field (pts.getD (pts.length - 1) TTrackPoint.blank) - value ≤ eps / 2 then
    ((pts.length - 1 : Nat) : K)
  else
    let fr := binarySearchFrame eps field pts value
    if fr.2.2 - fr.2.1 ≥ eps / 2 then (fr.1 : K) + (value - fr.2.1) / (fr.2.2 - fr.2.1)
    else (fr.1 : K)

/-- Member `indexByOriginalIndex` (track.h:291-292) on the point vector. -/
def indexByOriginalIndex (eps : K) (pts : List (TTrackPoint K)) (originalIndex : K) : K :=
  binarySearch eps TTrackPoint.originalIndex pts originalIndex

/-- Member `indexByTime` (track.h:293-294) on the point vector. -/
def indexByTime (eps : K) (pts : List (TTrackPoint K)) (time : K) : K :=
  binarySearch eps TTrackPoint.time pts time

/-- Member `indexByLength` (track.h:295-296) on the point vector. -/
def indexByLength (eps : K) (pts : List (TTrackPoint K)) (length : K) : K :=
  binarySearch eps TTrackPoint.length pts length

end Track

/-- Track point with the given time, every other member at its default. -/
def timePoint (t : ℚ) : TTrackPoint ℚ :=
  { (TTrackPoint.blank : TTrackPoint ℚ) with time := t }

/-- Scenario "binary-search monotone index": five points at times 0, 1, 2, 4, 8. -/
def scenario1 : List (TTrackPoint ℚ) :=
  [timePoint 0, timePoint 1, timePoint 2, timePoint 4, timePoint 8]

section TrackMore

variable {K : Type} [LinearOrderedField K]

/-- Divisor of the final division of `binarySearch` (track.h:287) when that division is
executed, `none` on every path that returns without dividing. -/
def binarySearchDivisor (eps : K) (field : TTrackPoint K → K) (pts : List (TTrackPoint K))
    (value : K) : Option K :=
  if pts.isEmpty then none
  else if value - field (pts.getD 0 TTrackPoint.blank) ≤ eps / 2 then none
  else if field (pts.getD (pts.length - 1) TTrackPoint.blank) - value ≤ eps / 2 then none
  else
    let fr := binarySearchFrame eps field pts value
    if fr.2.2 - fr.2.1 ≥ eps / 2 then some (fr.2.2 - fr.2.1) else none

/-- Consecutive values of the field differ by more than `eps / 2` along the index. -/
def SpacedField (eps : K) (field : TTrackPoint K → K) (pts : List (TTrackPoint K)) : Prop :=
  ∀ j, j + 1 < pts.length →
    eps / 2 < field (pts.getD (j + 1) TTrackPoint.blank) - field (pts.getD j TTrackPoint.blank)

/-- Field value at a fractional index as the specification words it: the linear
interpolation of the field between the points `floor r` and `ceil r` with fraction
`r - floor r`, using the saturating access `point` and the template
`interpolationLinear` of the source. -/
def lerpFieldAt [FloorRing K] (field : TTrackPoint K → K) (pts : List (TTrackPoint K))
    (r : K) : K :=
  interpolationLinear (field (pointAt pts ⌊r⌋)) (field (pointAt pts ⌈r⌉)) (r - (⌊r⌋ : K))

end TrackMore

/-- Track point at position `(x, y)` with the given original index, time and length;
pressure, tilt and finality at their defaults. -/
def samplePoint (x y idx t len : ℚ) : TTrackPoint ℚ :=
  { position := ⟨x, y⟩, pressure := 1 / 2, tilt := TPointD.zero,
    originalIndex := idx, time := t, length := len, final := false }

/-- Three samples one unit apart: original indices, times and lengths 0, 1, 2. -/
def unitTrack : List (TTrackPoint ℚ) :=
  [samplePoint 0 0 0 0 0, samplePoint 1 0 1 1 1, samplePoint 2 0 2 2 2]

/-- Two samples taken at the same instant and place (as `touchTracks` produces them). -/
def dupTrack : List (TTrackPoint ℚ) :=
  [samplePoint 0 0 0 0 0, samplePoint 0 0 1 0 0]

/-- Three samples at times `0`, `10 + eps/4` and `10 + 11*eps/4` for
`eps = TConsts.epsilon`. -/
def slipTrack : List (TTrackPoint ℚ) :=
  [samplePoint 0 0 0 0 0,
   samplePoint 1 0 1 (10 + TConsts.epsilon / 4) 1,
   samplePoint 2 0 2 (10 + 11 * TConsts.epsilon / 4) 2]

/-- Four samples at times `0`, `10 + eps/8`, `10 + eps/4` and `10 + 3*eps` for
`eps = TConsts.epsilon`: two consecutive samples lie within `eps/2` above 10. -/
def clusterTrack : List (TTrackPoint ℚ) :=
  [samplePoint 0 0 0 0 0,
   samplePoint 1 0 1 (10 + TConsts.epsilon / 8) 1,
   samplePoint 2 0 2 (10 + TConsts.epsilon / 4) 2,
   samplePoint 3 0 3 (10 + 3 * TConsts.epsilon) 3]

/-- Scenario "linear interpolation", first point: position (0,0), time 0, length 0. -/
def scenario2P0 : TTrackPoint ℚ := samplePoint 0 0 0 0 0

/-- Scenario "linear interpolation", second point: position (10,0), time 2, length 10. -/
def scenario2P1 : TTrackPoint ℚ := samplePoint 10 0 1 2 10

/-! ### Guidelines (assistant.h, assistant.cpp) -/

/-- Affine map of the plane (`TAffine`).  Modelled from the spec: `tgeometry.h` is not
part of the sources at hand; the six coefficients and the action on a point are the
usual ones of a 2x3 matrix. -/
structure TAffine (K : Type) where
  a11 : K
  a12 : K
  a13 : K
  a21 : K
  a22 : K
  a23 : K

/-- Numeric helpers that `calcTrackWeight` calls and that are declared outside the
sources at hand: the distance `tdistance` of two points and the weighting function
`logNormalDistribuitionUnscaled(x, x0, w)`. -/
structure Metrics (K : Type) where
  tdistance : TPointD K → TPointD K → K
  logNormalDistribuitionUnscaled : K → K → K → K

/-- Guideline (`TGuideline`, assistant.h:58-71): the virtual `transformPoint` is the only
member that scoring uses. -/
structure TGuideline (K : Type) where
  transformPoint : TTrackPoint K → TTrackPoint K

/-- Running sums of the loop of `calcTrackWeight` (assistant.cpp:48-52), with the flag
`outLongEnough`. -/
structure WeightSums (K : Type) where
  sumWeight : K
  sumLength : K
  sumDeviation : K
  prev : TPointD K
  longEnough : Bool

section Guideline

variable {K : Type} [LinearOrderedField K]

/-- The identity map `TAffine()`. -/
def TAffine.identity : TAffine K := ⟨1, 0, 0, 0, 1, 0⟩

/-- Action of an affine map on a point (`TAffine::operator*`). -/
def TAffine.apply (a : TAffine K) (p : TPointD K) : TPointD K :=
  ⟨a.a11 * p.x + a.a12 * p.y + a.a13, a.a21 * p.x + a.a22 * p.y + a.a23⟩

/-- Base class guideline: `transformPoint` returns its argument (assistant.h:60-61). -/
def TGuideline.base : TGuideline K := ⟨fun point => point⟩

/-- The constant `snapLenght = 20.0` of `calcTrackWeight` (assistant.cpp:44). -/
def snapLenght : K := 20

/-- The constant `snapScale = 1.0` of `calcTrackWeight` (assistant.cpp:45). -/
def snapScale : K := 1

/-- The constant `maxLength = 2.0*snapLenght*snapScale` of `calcTrackWeight`
(assistant.cpp:46). -/
def maxLength : K := 2 * snapLenght * snapScale

/-- Body of the `for` loop of `calcTrackWeight` up to `prev = p` (assistant.cpp:54-68)
for the track point `tp`. -/
def calcTrackWeightStep (m : Metrics K) (eps : K) (g : TGuideline K) (toScreen : TAffine K)
    (s : WeightSums K) (tp : TTrackPoint K) : WeightSums K :=
  let p := toScreen.apply tp.position
  let length := m.tdistance p s.prev
  let sumLength := s.sumLength + length
  let midStepLength := sumLength - (1 / 2) * length
  if midStepLength > eps then
    let weight := length * m.logNormalDistribuitionUnscaled midStepLength snapLenght snapScale
    let ntp := g.transformPoint tp
    let deviation := m.tdistance (toScreen.apply ntp.position) p
    { sumWeight := s.sumWeight + weight, sumLength := sumLength,
      sumDeviation := s.sumDeviation + weight * deviation, prev := p,
      longEnough := s.longEnough }
  else
    { sumWeight := s.sumWeight, sumLength := sumLength, sumDeviation := s.sumDeviation,
      prev := p, longEnough := s.longEnough }

/-- The `for` loop of `calcTrackWeight` (assistant.cpp:53-72) over the points still to
visit: `track[i]` for `i` from the current index to `size - 1`, left early by the
`break` once `sumLength >= maxLength`. -/
def calcTrackWeightLoop (m : Metrics K) (eps : K) (g : TGuideline K) (toScreen : TAffine K) :
    List (TTrackPoint K) → WeightSums K → WeightSums K
  | [], s => s
  | tp :: rest, s =>
    let s1 := calcTrackWeightStep m eps g toScreen s tp
    if s1.sumLength ≥ maxLength then { s1 with longEnough := true }
    else calcTrackWeightLoop m eps g toScreen rest s1

/-- Sums and flag at the end of the loop of `calcTrackWeight` (assistant.cpp:48-72) for
a track with at least two points. -/
def calcTrackWeightSums (m : Metrics K) (eps : K) (g : TGuideline K)
    (points : List (TTrackPoint K)) (toScreen : TAffine K) : WeightSums K :=
  calcTrackWeightLoop m eps g toScreen points
    { sumWeight := 0, sumLength := 0, sumDeviation := 0,
      prev := toScreen.apply (pointAt points 0).position, longEnough := false }

/-- Method `TGuideline::calcTrackWeight` (assistant.cpp:38-76) on the point vector of
the track: the returned weight (`⊤` is `+infinity`) and the value left in
`outLongEnough`. -/
def calcTrackWeight (m : Metrics K) (eps : K) (g : TGuideline K)
    (points : List (TTrackPoint K)) (toScreen : TAffine K) : WithTop K × Bool :=
  if points.length < 2 then (⊤, false)
  else
    let s := calcTrackWeightSums m eps g points toScreen
    (if s.sumWeight > eps then ((s.sumDeviation / s.sumWeight : K) : WithTop K) else ⊤,
     s.longEnough)

/-- State of the loop of `findBest`: `outLongEnough`, `bestWeight`, `best`. -/
structure BestState (K : Type) where
  longEnough : Bool
  bestWeight : WithTop K
  best : Option (TGuideline K)

/-- Body of the loop of `findBest` (assistant.cpp:86-88) for the guideline `g`. -/
def findBestStep (m : Metrics K) (eps : K) (points : List (TTrackPoint K))
    (toScreen : TAffine K) (s : BestState K) (g : TGuideline K) : BestState K :=
  let r := calcTrackWeight m eps g points toScreen
  if s.best.isNone ∨ r.1 < s.bestWeight then
    { longEnough := r.2, bestWeight := r.1, best := some g }
  else { longEnough := r.2, bestWeight := s.bestWeight, best := s.best }

/-- Static `TGuideline::findBest` (assistant.cpp:80-91): the guideline returned (`none`
is the null pointer) and the value left in `outLongEnough`. -/
def findBest (m : Metrics K) (eps : K) (guidelines : List (TGuideline K))
    (points : List (TTrackPoint K)) (toScreen : TAffine K) : Option (TGuideline K) × Bool :=
  let s := guidelines.foldl (findBestStep m eps points toScreen)
    { longEnough := true, bestWeight := ((0 : K) : WithTop K), best := none }
  (s.best, s.longEnough)

/-- Running screen-space arc length after each point that follows a point at screen
position `prev` with arc length `len`. -/
def arcLengthsFrom (m : Metrics K) (toScreen : TAffine K) :
    TPointD K → K → List (TTrackPoint K) → List K
  | _, _, [] => []
  | prev, len, tp :: rest =>
    (len + m.tdistance (toScreen.apply tp.position) prev)
      :: arcLengthsFrom m toScreen (toScreen.apply tp.position)
          (len + m.tdistance (toScreen.apply tp.position) prev) rest

/-- Cumulative screen-space arc length of a track at each of its points: 0 at the first
point, then the sum of the distances between successive screen positions. -/
def screenArcLengths (m : Metrics K) (toScreen : TAffine K) :
    List (TTrackPoint K) → List K
  | [] => []
  | p0 :: rest => 0 :: arcLengthsFrom m toScreen (toScreen.apply p0.position) 0 rest

end Guideline

/-- Modelled from the spec: the numeric helpers over the reals.  `tdistance` is the
Euclidean distance of `tgeometry.h`; the weighting function is the log-normal density
with median `x0` and shape `w` without its normalising constant.  Neither declaration is
part of the sources at hand. -/
noncomputable def realMetrics : Metrics ℝ :=
  { tdistance := fun p q => Real.sqrt ((p.x - q.x) ^ 2 + (p.y - q.y) ^ 2)
    logNormalDistribuitionUnscaled := fun x x0 w =>
      Real.exp (-(1 / 2) * (Real.log (x / x0) / w) ^ 2) / x }

/-- Point `(i, 0.01*sin i)` of the scenario "guideline scoring", every other member at
its default. -/
noncomputable def scenario4Point (i : Nat) : TTrackPoint ℝ :=
  { position := ⟨(i : ℝ), Real.sin (i : ℝ) / 100⟩, pressure := 1 / 2, tilt := TPointD.zero,
    originalIndex := (i : ℝ), time := 0, length := 0, final := false }

/-- The points `scenario4Point i`, `scenario4Point (i + 1)`, ... (`n` of them). -/
noncomputable def scenario4From : Nat → Nat → List (TTrackPoint ℝ)
  | 0, _ => []
  | n + 1, i => scenario4Point i :: scenario4From n (i + 1)

/-- Scenario "guideline scoring": the 20 points `(i, 0.01*sin i)` for `i = 0..19`. -/
noncomputable def scenario4 : List (TTrackPoint ℝ) := scenario4From 20 0

/-! ### Input manager (inputmanager.cpp)

Objects that the C++ code shares by pointer are held by value: a track lives in the
list that holds it, and the tracks of one list are distinct objects.  What the modifiers
do during one pass of `paintTracks` (an arbitrary virtual call) is an input of the model,
`ModifierPass`. -/

/-- Manager handler attached to an output track (`TInputManager::TrackHandler`):
`saves[k]` is the size of the track when save point `k` was created. -/
structure TrackHandler where
  saves : List Int
  deriving DecidableEq, Repr

/-- Modelled from the spec: constructor `TrackHandler(track, keysCount)` of
`inputmanager.h` (not part of the sources at hand), "keyed to the current save stack
depth": one entry, zero, for each of the `keysCount` save points. -/
def TrackHandler.create (keysCount : Nat) : TrackHandler := ⟨List.replicate keysCount 0⟩

/-- Content of the member `TTrack::handler` as `paintTracks` tells it apart: the null
pointer, a handler for which `dynamic_cast<TrackHandler*>` fails, or a manager handler. -/
inductive TTrackHandlerP where
  | null
  | foreign
  | manager (h : TrackHandler)
  deriving DecidableEq, Repr

/-- Track (`TTrack`, track.h:153-374): identity, capability flags, the creation tick of
its key history, the time offset of its modifier, and the mutable members `handler`,
`pointsRemoved`, `pointsAdded` and `m_points`. -/
structure TTrack (K : Type) where
  id : Int
  deviceId : Int
  touchId : Int
  ticks : Int
  hasPressure : Bool
  hasTilt : Bool
  timeOffset : K
  handler : TTrackHandlerP
  pointsRemoved : Int
  pointsAdded : Int
  points : List (TTrackPoint K)

/-- Save point (`TInputSavePoint`): the flag `available`, and the creation number that
tells the objects apart. -/
structure TInputSavePoint where
  id : Nat
  available : Bool
  deriving DecidableEq, Repr

/-- Call that the manager makes on the drawing tool, or `setToolBusy` on the tool
handle of the application.  The last two are made by `trackEvent` only. -/
inductive ToolCall (K : Type) where
  | paintTracks (tracks : List (TTrack K))
  | paintPush
  | paintPop (count : Int)
  | paintCancel
  | paintApply (count : Int)
  | setToolBusy (busy : Bool)
  | preLeftButtonDown
  | setViewer

/-- Answers of the drawing tool (`TTool`), each a function of the calls received so far:
the result of `paintPush()` and of `paintApply(count)`. -/
structure TTool (K : Type) where
  paintPush : List (ToolCall K) → Bool
  paintApply : List (ToolCall K) → Int → Int

/-- Input manager (`TInputManager`): the modifier chain (by identity), the track lists
`m_tracks`, the hover lists `m_hovers`, the stack `m_savePoints`, `m_savePointsSent`; and
for the model the calls made so far, the save points already taken off the stack, and
the number of save points created. -/
structure TInputManager (K : Type) where
  modifiers : List Nat
  tracks : List (List (TTrack K))
  hovers : List (List (TPointD K))
  savePoints : List TInputSavePoint
  savePointsSent : Int
  calls : List (ToolCall K)
  discarded : List TInputSavePoint
  created : Nat

/-- What the modifiers do in one pass of the loop of `paintTracks`: the lists they write
to `m_tracks[1..n]`, `isFree()` of each save point of the stack (by position) and of the
fresh save point, as the manager reads them in that pass. -/
structure ModifierPass (K : Type) where
  levels : List (List (TTrack K))
  stackFree : Nat → Bool
  newFree : Bool

section Manager

variable {K : Type}

/-- Member `TTrack::size` (track.h:225-226). -/
def TTrack.size (t : TTrack K) : Int := (t.points.length : Int)

/-- Member `TTrack::finished` (track.h:233-234): non-empty with a final last point. -/
def TTrack.finished (t : TTrack K) : Bool :=
  match t.points.getLast? with
  | none => false
  | some p => p.final

/-- The list `m_tracks.back()`, called `subTracks` in `paintTracks`. -/
def TInputManager.subTracks (m : TInputManager K) : List (TTrack K) :=
  m.tracks.getLastD []

/-- Assignment through the reference `subTracks = m_tracks.back()`. -/
def TInputManager.setSubTracks (m : TInputManager K) (l : List (TTrack K)) :
    TInputManager K :=
  { m with tracks := m.tracks.set (m.tracks.length - 1) l }

/-- Loop body of `paintRollbackTo` for one track (inputmanager.cpp:114-120).  A read of
`saves` past its end (undefined in C++) gives 0. -/
def rollbackTrack (saveIndex : Int) (track : TTrack K) : TTrack K :=
  match track.handler with
  | TTrackHandlerP.manager h =>
    let saves := h.saves.take (saveIndex + 1).toNat
    let cnt := saves.getD saveIndex.toNat 0
    { track with
      handler := TTrackHandlerP.manager ⟨saves⟩
      pointsRemoved := 0
      pointsAdded := track.size - cnt }
  | _ => track

/-- Marks the save points from position `level` on unavailable and erases them from the
stack (inputmanager.cpp:122-124 and 163-165); they are kept in `discarded`. -/
def TInputManager.dropSavePoints (m : TInputManager K) (level : Int) : TInputManager K :=
  { m with
    savePoints := m.savePoints.take level.toNat
    discarded := m.discarded
      ++ (m.savePoints.drop level.toNat).map (fun s => { s with available := false }) }

/-- Method `TInputManager::paintRollbackTo` (inputmanager.cpp:98-125). -/
def paintRollbackTo (saveIndex : Int) (m : TInputManager K) : TInputManager K :=
  if saveIndex ≥ (m.savePoints.length : Int) then m
  else
    let level := saveIndex + 1
    let m1 : TInputManager K :=
      if level ≤ m.savePointsSent then
        { m with
          calls :=
            (if level < m.savePointsSent then
              m.calls ++ [ToolCall.paintPop (m.savePointsSent - level)]
            else m.calls) ++ [ToolCall.paintCancel]
          savePointsSent := level }
      else m
    let m2 := m1.setSubTracks (m1.subTracks.map (rollbackTrack saveIndex))
    m2.dropSavePoints level

/-- Loop body of `paintApply` for one track (inputmanager.cpp:154-161). -/
def applyTrack (resend : Bool) (savePointsSent level : Int) (track : TTrack K) : TTrack K :=
  match track.handler with
  | TTrackHandlerP.manager h =>
    let t1 : TTrack K :=
      if resend then
        { track with
          pointsRemoved := 0
          pointsAdded := track.size - h.saves.getD savePointsSent.toNat 0 }
      else track
    { t1 with handler := TTrackHandlerP.manager ⟨h.saves.take level.toNat⟩ }
  | _ => track

/-- Method `TInputManager::paintApply` (inputmanager.cpp:128-166). -/
def paintApply (tool : TTool K) (count : Int) (m : TInputManager K) : TInputManager K :=
  if count ≤ 0 then m
  else
    let level := (m.savePoints.length : Int) - count
    let m1 : TInputManager K :=
      if level < m.savePointsSent then
        let applied := tool.paintApply m.calls (m.savePointsSent - level)
        let applied := max 0 (min (m.savePointsSent - level) applied)
        { m with
          calls := m.calls ++ [ToolCall.paintApply (m.savePointsSent - level)]
          savePointsSent := m.savePointsSent - applied }
      else m
    let resend : Bool :=
      if level < m.savePointsSent ∧ m1.savePointsSent = level then false else true
    let m2 : TInputManager K :=
      if level < m1.savePointsSent then
        { m1 with
          calls := m1.calls ++ [ToolCall.paintPop (m1.savePointsSent - level)]
          savePointsSent := level }
      else m1
    let m3 := m2.setSubTracks (m2.subTracks.map (applyTrack resend m2.savePointsSent level))
    m3.dropSavePoints level

/-- The `while` loop that lowers `rollbackIndex` for one track
(inputmanager.cpp:201-202); `size` is the size of the save-point stack. -/
def rollbackScan (size : Nat) (saves : List Int) (count : Int) : Nat → Nat
  | 0 => 0
  | k + 1 =>
    if k + 1 ≥ size ∨ saves.getD (k + 1) 0 > count then rollbackScan size saves count k
    else k + 1

/-- Loop body of the rollback search of `paintTracks` for one track
(inputmanager.cpp:197-203). -/
def rollbackIndexStep (size : Nat) (rollbackIndex : Nat) (track : TTrack K) : Nat :=
  if track.pointsRemoved > 0 then
    match track.handler with
    | TTrackHandlerP.manager h =>
      rollbackScan size h.saves (track.size - track.pointsAdded) rollbackIndex
    | _ => rollbackIndex
  else rollbackIndex

/-- The `while` loop that counts the free save points at the top of a stack of the given
size (inputmanager.cpp:208-210). -/
def applyCount (free : Nat → Bool) : Nat → Nat
  | 0 => 0
  | size + 1 => if free size then applyCount free size + 1 else 0

/-- The `for` loop that runs the modifiers (inputmanager.cpp:182-185): `m_tracks[i+1]`
is cleared and filled by modifier `i`. -/
def runModifiers (pass : ModifierPass K) (m : TInputManager K) : TInputManager K :=
  { m with
    tracks := (List.range m.modifiers.length).foldl
      (fun ts i => ts.set (i + 1) (pass.levels.getD i [])) m.tracks }

/-- The loop that creates the missing handlers (inputmanager.cpp:189-191). -/
def createHandlers (m : TInputManager K) : TInputManager K :=
  m.setSubTracks (m.subTracks.map (fun track =>
    match track.handler with
    | TTrackHandlerP.null =>
      { track with handler := TTrackHandlerP.manager (TrackHandler.create m.savePoints.length) }
    | _ => track))

/-- The rollback and apply steps of `paintTracks` (inputmanager.cpp:193-212). -/
def rollbackAndApply (tool : TTool K) (pass : ModifierPass K) (m : TInputManager K) :
    TInputManager K :=
  if m.savePoints.isEmpty then m
  else
    let rollbackIndex :=
      m.subTracks.foldl (rollbackIndexStep m.savePoints.length) m.savePoints.length
    let m1 := paintRollbackTo (rollbackIndex : Int) m
    paintApply tool (applyCount pass.stackFree m1.savePoints.length : Nat) m1

/-- The step "send to tool" of `paintTracks` (inputmanager.cpp:214-221): the call of
`tool->paintTracks`, then the reset of both counters of every output track. -/
def sendToTool (m : TInputManager K) : TInputManager K :=
  let m1 : TInputManager K :=
    if m.savePointsSent = (m.savePoints.length : Int) ∧ ¬ m.subTracks.isEmpty then
      { m with calls := m.calls ++ [ToolCall.paintTracks m.subTracks] }
    else m
  m1.setSubTracks (m1.subTracks.map (fun track =>
    { track with pointsRemoved := 0, pointsAdded := 0 }))

/-- The step "create save point" of `paintTracks` (inputmanager.cpp:235-240). -/
def pushSavePoint (tool : TTool K) (newSavePoint : TInputSavePoint) (m : TInputManager K) :
    TInputManager K :=
  let m1 : TInputManager K :=
    { m with
      calls := m.calls ++ [ToolCall.paintPush]
      savePointsSent := if tool.paintPush m.calls then m.savePointsSent + 1
        else m.savePointsSent
      savePoints := m.savePoints ++ [newSavePoint] }
  m1.setSubTracks (m1.subTracks.map (fun track =>
    match track.handler with
    | TTrackHandlerP.manager h =>
      { track with handler := TTrackHandlerP.manager ⟨h.saves ++ [track.size]⟩ }
    | _ => track))

/-- The step "is paint finished?" of `paintTracks` when the fresh save point is free
(inputmanager.cpp:225-231). -/
def finishPaint (tool : TTool K) (allFinished : Bool) (newSavePoint : TInputSavePoint)
    (m : TInputManager K) : TInputManager K :=
  let m1 : TInputManager K :=
    { m with discarded := m.discarded ++ [{ newSavePoint with available := false }] }
  if allFinished then
    let m2 := paintApply tool (m1.savePoints.length : Int) m1
    { m2 with
      tracks := m2.tracks.map (fun _ => [])
      calls := m2.calls ++ [ToolCall.setToolBusy false] }
  else m1

/-- One pass of the `while(true)` loop of `paintTracks` (inputmanager.cpp:179-241):
the state after the pass, and whether the loop was left by `break`. -/
def paintTracksPass (tool : TTool K) (allFinished : Bool) (pass : ModifierPass K)
    (m : TInputManager K) : TInputManager K × Bool :=
  let newSavePoint : TInputSavePoint := { id := m.created, available := true }
  let m0 : TInputManager K := { m with created := m.created + 1 }
  let m1 := runModifiers pass m0
  let m2 := createHandlers m1
  let m3 := rollbackAndApply tool pass m2
  let m4 := sendToTool m3
  if pass.newFree then (finishPaint tool allFinished newSavePoint m4, true)
  else (pushSavePoint tool newSavePoint m4, false)

/-- The `while(true)` loop of `paintTracks` run against the passes the modifiers perform,
in order.  `none`: the modifiers still retain the fresh save point after the last listed
pass, so the loop has not been left yet (`paintTracksLoop_returns_iff`). -/
def paintTracksLoop (tool : TTool K) (allFinished : Bool) :
    List (ModifierPass K) → TInputManager K → Option (TInputManager K)
  | [], _ => none
  | pass :: rest, m =>
    let r := paintTracksPass tool allFinished pass m
    if r.2 then some r.1 else paintTracksLoop tool allFinished rest r.1

/-- Method `TInputManager::paintTracks` (inputmanager.cpp:169-242): `allFinished` is
computed once from the raw list `m_tracks.front()`, then the loop runs. -/
def paintTracks (tool : TTool K) (passes : List (ModifierPass K)) (m : TInputManager K) :
    Option (TInputManager K) :=
  paintTracksLoop tool ((m.tracks.headD []).all (fun track => track.finished)) passes m

end Manager

/-- Raw track with the given points and counters, no handler, identity fields zero. -/
def rawTrack (points : List (TTrackPoint ℚ)) (added removed : Int) : TTrack ℚ :=
  { id := 0, deviceId := 0, touchId := 0, ticks := 0, hasPressure := false,
    hasTilt := false, timeOffset := 0, handler := TTrackHandlerP.null,
    pointsRemoved := removed, pointsAdded := added, points := points }

/-- Tool that accepts every `paintPush` and applies every requested checkpoint. -/
def obligingTool : TTool ℚ :=
  { paintPush := fun _ => true, paintApply := fun _ count => count }

/-- Manager without modifiers whose raw list holds one open track of three points, all
three not yet delivered. -/
def oneTrackManager : TInputManager ℚ :=
  { modifiers := [], tracks := [[rawTrack unitTrack 3 0]], hovers := [[]],
    savePoints := [], savePointsSent := 0, calls := [], discarded := [], created := 0 }

/-- Pass in which no modifier writes a list and the fresh save point is free. -/
def freePass : ModifierPass ℚ :=
  { levels := [], stackFree := fun _ => true, newFree := true }

/-- Pass in which no modifier writes a list and the fresh save point is retained, the
save points of the stack being free. -/
def holdPass : ModifierPass ℚ :=
  { levels := [], stackFree := fun _ => true, newFree := false }

section ManagerReset

variable {K : Type}

/-- Method `TInputManager::reset` (inputmanager.cpp:377-391). -/
def reset (m : TInputManager K) : TInputManager K :=
  { m with
    savePointsSent := 0
    discarded := m.discarded ++ m.savePoints.map (fun s => { s with available := false })
    savePoints := []
    tracks := m.tracks.map (fun _ => []) }

/-- Slot `TInputManager::onToolSwitched` (inputmanager.cpp:420-422). -/
def onToolSwitched (m : TInputManager K) : TInputManager K := reset m

/-- The relation `0 ≤ m_savePointsSent ≤ m_savePoints.size()` between the number of
checkpoints the tool holds and the stack of the manager. -/
def SentWithinStack (m : TInputManager K) : Prop :=
  0 ≤ m.savePointsSent ∧ m.savePointsSent ≤ (m.savePoints.length : Int)

/-- Every output track that carries a manager handler has one `saves` entry for each
save point of the stack. -/
def SavesMatchStack (m : TInputManager K) : Prop :=
  ∀ track ∈ m.subTracks, ∀ h, track.handler = TTrackHandlerP.manager h →
    h.saves.length = m.savePoints.length

/-- Update of one output track in the step "create save point" of `paintTracks`
(inputmanager.cpp:238-240). -/
def pushTrack (track : TTrack K) : TTrack K :=
  match track.handler with
  | TTrackHandlerP.manager h =>
    { track with handler := TTrackHandlerP.manager ⟨h.saves ++ [track.size]⟩ }
  | _ => track

/-- Number of `tool->paintTracks` calls among the given calls. -/
def countPaintTracks : List (ToolCall K) → Nat
  | [] => 0
  | ToolCall.paintTracks _ :: rest => countPaintTracks rest + 1
  | _ :: rest => countPaintTracks rest

end ManagerReset

/-- Tool that refuses every `paintPush` and answers `-3` to every `paintApply`. -/
def refusingTool : TTool ℚ :=
  { paintPush := fun _ => false, paintApply := fun _ _ => -3 }

/-- Raw track of one final point, carrying a manager handler with the given `saves`. -/
def finishedTrack (saves : List Int) : TTrack ℚ :=
  { id := 1, deviceId := 0, touchId := 0, ticks := 0, hasPressure := false,
    hasTilt := false, timeOffset := 0,
    handler := TTrackHandlerP.manager ⟨saves⟩,
    pointsRemoved := 0, pointsAdded := 0,
    points := [{ (TTrackPoint.blank : TTrackPoint ℚ) with final := true }] }

/-- Manager without modifiers whose raw list holds one finished track; two save points
are on the stack and the tool holds one checkpoint (the second push was refused). -/
def stackedManager : TInputManager ℚ :=
  { modifiers := [], tracks := [[finishedTrack [0, 1]]], hovers := [[]],
    savePoints := [⟨0, true⟩, ⟨1, true⟩], savePointsSent := 1, calls := [],
    discarded := [], created := 2 }

/-- State of one pass of the loop of `paintTracks` after its rollback and apply steps
(inputmanager.cpp:181-212), just before the step "send to tool". -/
def passAfterApply {K : Type} (tool : TTool K) (pass : ModifierPass K)
    (m : TInputManager K) : TInputManager K :=
  rollbackAndApply tool pass
    (createHandlers (runModifiers pass { m with created := m.created + 1 }))

/-! ### Raw tracks and events (inputmanager.cpp:245-333, 464-496) -/

/-- Answers of the host while the manager handles an event, each a function of the calls
made so far: `isActive()` (a viewer is set and the current tool is enabled,
inputmanager.cpp:399-403) and the result of `tool->preLeftButtonDown()`. -/
structure ToolHost (K : Type) where
  isActive : List (ToolCall K) → Bool
  preLeftButtonDown : List (ToolCall K) → Bool

section RawTracks

variable {K : Type} [LinearOrderedField K]

/-- Static `TInputManager::trackCompare` (inputmanager.cpp:245-256). -/
def trackCompare (track : TTrack K) (deviceId touchId : Int) : Int :=
  if track.deviceId < deviceId then -1
  else if deviceId < track.deviceId then 1
  else if track.touchId < touchId then -1
  else if touchId < track.touchId then 1
  else 0

/-- Modelled from the spec: the constructor `TTrack(deviceId, touchId, keyHistory,
buttonHistory, hasPressure, hasTilt)` of `track.cpp` (not part of the sources at hand):
a track without points, without handler and modifier, both counters zero; `id` is the
next value of the static counter and `ticks` the tick of its history holders. -/
def TTrack.create (id deviceId touchId ticks : Int) (hasPressure hasTilt : Bool) :
    TTrack K :=
  { id := id, deviceId := deviceId, touchId := touchId, ticks := ticks,
    hasPressure := hasPressure, hasTilt := hasTilt, timeOffset := 0,
    handler := TTrackHandlerP.null, pointsRemoved := 0, pointsAdded := 0, points := [] }

/-- Default-constructed track, the value of a read past the end of a track list. -/
def TTrack.blank : TTrack K := TTrack.create 0 0 0 0 false false

/-- Method `TInputManager::createTrack` (inputmanager.cpp:259-276) on the raw list: the
new track is inserted at position `index`. -/
def createTrack (index : Nat) (id deviceId touchId ticks : Int) (hasPressure hasTilt : Bool)
    (origTracks : List (TTrack K)) : List (TTrack K) :=
  origTracks.take index
    ++ TTrack.create id deviceId touchId ticks hasPressure hasTilt :: origTracks.drop index

/-- The `while(true)` loop of `getTrack` (inputmanager.cpp:303-310) on the frame
`(a, b)`: `(true, c)` when it returns the track at `c`, `(false, b)` when it is left by
`break`.  The first argument bounds the number of passes; `getTrackIndex` starts it with
the size of the list. -/
def getTrackLoop (origTracks : List (TTrack K)) (deviceId touchId : Int) :
    Nat → Nat → Nat → Bool × Nat
  | 0, _, b => (false, b)
  | fuel + 1, a, b =>
    let c := (a + b) / 2
    if a = c then (false, b)
    else
      let cmp := trackCompare (origTracks.getD c TTrack.blank) deviceId touchId
      if cmp < 0 then getTrackLoop origTracks deviceId touchId fuel a c
      else if cmp > 0 then getTrackLoop origTracks deviceId touchId fuel c b
      else (true, c)

/-- The search of `getTrack` (inputmanager.cpp:287-311): `(true, i)` when the track at
position `i` is returned, `(false, i)` when a track is to be created at position `i`. -/
def getTrackIndex (origTracks : List (TTrack K)) (deviceId touchId : Int) : Bool × Nat :=
  if origTracks.isEmpty then (false, 0)
  else
    let cmp := trackCompare (origTracks.getD 0 TTrack.blank) deviceId touchId
    if cmp = 0 then (true, 0)
    else if cmp < 0 then (false, 0)
    else
      let b := origTracks.length - 1
      let cmp := trackCompare (origTracks.getD b TTrack.blank) deviceId touchId
      if cmp = 0 then (true, b)
      else if cmp > 0 then (false, b + 1)
      else getTrackLoop origTracks deviceId touchId origTracks.length 0 b

/-- Method `TInputManager::getTrack` (inputmanager.cpp:279-312) on the raw list: the
position of the returned track and the list afterwards.  `id` is the identifier a new
track would get. -/
def getTrackIn (id deviceId touchId ticks : Int) (hasPressure hasTilt : Bool)
    (origTracks : List (TTrack K)) : Nat × List (TTrack K) :=
  let r := getTrackIndex origTracks deviceId touchId
  if r.1 then (r.2, origTracks)
  else (r.2, createTrack r.2 id deviceId touchId ticks hasPressure hasTilt origTracks)

/-- Method `TInputManager::getTrack` on the manager: the raw list is `m_tracks.front()`. -/
def getTrack (id deviceId touchId ticks : Int) (hasPressure hasTilt : Bool)
    (m : TInputManager K) : Nat × TInputManager K :=
  let r := getTrackIn id deviceId touchId ticks hasPressure hasTilt (m.tracks.headD [])
  (r.1, { m with tracks := m.tracks.set 0 r.2 })

/-- Modelled from the spec: `TTrack::push_back` of `track.cpp` (not part of the sources
at hand): "append `p`; computes the new cumulative length as
`length(prev) + distance(prev.pos, p.pos)`; increments `pointsAdded`"; the first point
gets length 0. -/
def TTrack.push_back (mt : Metrics K) (t : TTrack K) (p : TTrackPoint K) : TTrack K :=
  { t with
    points := t.points ++
      [{ p with
         length := match t.points.getLast? with
           | none => 0
           | some prev => prev.length + mt.tdistance prev.position p.position }]
    pointsAdded := t.pointsAdded + 1 }

/-- Method `TInputManager::addTrackPoint` (inputmanager.cpp:315-333) on the track:
`push_back` of the new point, then `++track->pointsAdded`. -/
def addTrackPoint (mt : Metrics K) (track : TTrack K) (position : TPointD K) (pressure : K)
    (tilt : TPointD K) (time : K) (final : Bool) : TTrack K :=
  let t1 := track.push_back mt
    { position := position, pressure := pressure, tilt := tilt,
      originalIndex := ((track.size : Int) : K), time := time, length := 0, final := final }
  { t1 with pointsAdded := t1.pointsAdded + 1 }

/-- Method `TInputManager::addTrackPoint` (inputmanager.cpp:315-333) with the
`TTrack::push_back` it calls, declared in track.h:247 and defined outside the sources
at hand, as the parameter `push_back`: `push_back` of the new point, then
`++track->pointsAdded`. -/
def addTrackPointWith (push_back : TTrack K → TTrackPoint K → TTrack K) (track : TTrack K)
    (position : TPointD K) (pressure : K) (tilt : TPointD K) (time : K) (final : Bool) :
    TTrack K :=
  let t1 := push_back track
    { position := position, pressure := pressure, tilt := tilt,
      originalIndex := ((track.size : Int) : K), time := time, length := 0, final := final }
  { t1 with pointsAdded := t1.pointsAdded + 1 }

/-- A `push_back` that appends the point with its cumulative length, as
`TTrack.push_back` does, and leaves `pointsAdded` to its caller. -/
def appendWithLength (mt : Metrics K) (t : TTrack K) (p : TTrackPoint K) : TTrack K :=
  { t.push_back mt p with pointsAdded := t.pointsAdded }

/-- Method `TInputManager::trackEvent` (inputmanager.cpp:464-496).  `step` is the
constant `TToolTimer::step`, `id` the identifier a new track would get; an absent
`pressure` or `tilt` is the null pointer. -/
def trackEvent (host : ToolHost K) (mt : Metrics K) (step : K) (id deviceId touchId : Int)
    (position : TPointD K) (pressure : Option K) (tilt : Option (TPointD K)) (final : Bool)
    (ticks : Int) (m : TInputManager K) : TInputManager K :=
  let m1 : TInputManager K :=
    if host.isActive m.calls ∧ (m.tracks.headD []).isEmpty then
      { m with
        calls :=
          if host.preLeftButtonDown m.calls then
            m.calls ++ [ToolCall.preLeftButtonDown] ++ [ToolCall.setViewer]
          else m.calls ++ [ToolCall.preLeftButtonDown] }
    else m
  if host.isActive m1.calls then
    let m2 : TInputManager K :=
      if (m1.tracks.headD []).isEmpty then
        { m1 with calls := m1.calls ++ [ToolCall.setToolBusy true] }
      else m1
    let r := getTrack id deviceId touchId ticks pressure.isSome tilt.isSome m2
    let track := (r.2.tracks.headD []).getD r.1 TTrack.blank
    if track.finished then r.2
    else
      let time := ((ticks - track.ticks : Int) : K) * step - track.timeOffset
      { r.2 with
        tracks := r.2.tracks.set 0 ((r.2.tracks.headD []).set r.1
          (addTrackPoint mt track position (pressure.getD 1) (tilt.getD TPointD.zero)
            time final)) }
  else m1

/-- Raw list in the order the search of `getTrack` relies on: strictly descending in
the key `(deviceId, touchId)`, compared first by device, then by touch. -/
def DescendingIds (tracks : List (TTrack K)) : Prop :=
  tracks.Pairwise (fun t u =>
    u.deviceId < t.deviceId ∨ (u.deviceId = t.deviceId ∧ u.touchId < t.touchId))

end RawTracks

/-! ### Assistants (assistant.h, assistant.cpp) -/

/-- Visual type of an assistant point (`TAssistantPoint::Type`, assistant.h:80-84). -/
inductive TAssistantPointType where
  | Circle
  | CircleFill
  | CircleCross
  deriving DecidableEq, Repr

/-- Control handle of an assistant (`TAssistantPoint`, assistant.h:78-93). -/
structure TAssistantPoint (K : Type) where
  type : TAssistantPointType
  position : TPointD K
  selected : Bool
  radius : K
  deriving DecidableEq, Repr

/-- Assistant (`TAssistant`, assistant.h:166-252): the member `m_points`, the only one
that `movePoint` and `setPointSelection` touch. -/
structure TAssistant (K : Type) where
  points : List (TAssistantPoint K)

section Assistant

variable {K : Type}

/-- Assignment to one member of the element `v[index]` of a vector: the element at the
position is replaced by its image, a position past the end changes nothing. -/
def updateAt {α : Type} (f : α → α) : Nat → List α → List α
  | _, [] => []
  | 0, x :: xs => f x :: xs
  | n + 1, x :: xs => x :: updateAt f n xs

/-- Member `TAssistant::pointsCount` (assistant.h:185-186). -/
def TAssistant.pointsCount (a : TAssistant K) : Int := (a.points.length : Int)

/-- Virtual `TAssistant::onMovePoint` of the base class (assistant.cpp:246-248):
`m_points[index].position = position`. -/
def TAssistant.onMovePoint (a : TAssistant K) (index : Int) (position : TPointD K) :
    TAssistant K :=
  { a with points := updateAt (fun p => { p with position := position }) index.toNat a.points }

/-- Method `TAssistant::movePoint` (assistant.cpp:189-191) with the virtual
`onMovePoint` it dispatches to. -/
def TAssistant.movePointWith (onMovePoint : TAssistant K → Int → TPointD K → TAssistant K)
    (a : TAssistant K) (index : Int) (position : TPointD K) : TAssistant K :=
  if index ≥ 0 ∧ index < (a.points.length : Int) then onMovePoint a index position else a

/-- Method `TAssistant::movePoint` on the base assistant. -/
def TAssistant.movePoint (a : TAssistant K) (index : Int) (position : TPointD K) :
    TAssistant K :=
  TAssistant.movePointWith TAssistant.onMovePoint a index position

/-- Method `TAssistant::setPointSelection` (assistant.cpp:195-199). -/
def TAssistant.setPointSelection (a : TAssistant K) (index : Int) (selected : Bool) :
    TAssistant K :=
  if index ≥ 0 ∧ index < a.pointsCount then
    { a with points := updateAt (fun p => { p with selected := selected }) index.toNat a.points }
  else a

end Assistant

/-- Assistant with three handles at (0,0), (1,0), (2,0), the middle one selected. -/
def threePointAssistant : TAssistant ℚ :=
  ⟨[⟨TAssistantPointType.CircleCross, ⟨0, 0⟩, false, 10⟩,
    ⟨TAssistantPointType.Circle, ⟨1, 0⟩, true, 10⟩,
    ⟨TAssistantPointType.CircleFill, ⟨2, 0⟩, false, 5⟩]⟩

/-- Concrete numeric helpers over `ℚ` for evaluating events: the taxicab distance and a
constant weighting function. -/
def gridMetrics : Metrics ℚ :=
  { tdistance := fun a b => |a.x - b.x| + |a.y - b.y|,
    logNormalDistribuitionUnscaled := fun _ _ _ => 1 }

/-- Host in which the manager is active and `preLeftButtonDown` answers `true`. -/
def activeHost : ToolHost ℚ :=
  { isActive := fun _ => true, preLeftButtonDown := fun _ => true }

/-- Host in which the manager is not active. -/
def idleHost : ToolHost ℚ :=
  { isActive := fun _ => false, preLeftButtonDown := fun _ => true }

/-- Manager without modifiers and without tracks, as `reset` leaves it. -/
def freshManager : TInputManager ℚ :=
  { modifiers := [], tracks := [[]], hovers := [[]], savePoints := [],
    savePointsSent := 0, calls := [], discarded := [], created := 0 }

/-- Raw list of two tracks in descending order of ids: an open empty track of device 1
and the finished track of device 0. -/
def rawPair : List (TTrack ℚ) :=
  [TTrack.create 2 1 0 0 false false, finishedTrack [0, 1]]

/-- Manager without modifiers whose raw list is `rawPair`. -/
def pairManager : TInputManager ℚ :=
  { modifiers := [], tracks := [rawPair], hovers := [[]], savePoints := [],
    savePointsSent := 0, calls := [], discarded := [], created := 0 }

/-! ### Point access and spline interpolation (track.h:222-236, 333-372) -/

section TrackAccess

variable {K : Type} [LinearOrderedField K]

/-- Member `TTrack::point` (track.h:222-223). -/
def TTrack.point (t : TTrack K) (index : Int) : TTrackPoint K := pointAt t.points index

/-- Member `TTrack::front` (track.h:229-230): `point(0)`. -/
def TTrack.front (t : TTrack K) : TTrackPoint K := t.point 0

/-- Member `TTrack::back` (track.h:231-232): `point(size() - 1)`. -/
def TTrack.back (t : TTrack K) : TTrackPoint K := t.point (t.size - 1)

/-- Member `TTrack::operator[]` (track.h:235-236): `point(index)`. -/
def TTrack.get (t : TTrack K) (index : Int) : TTrackPoint K := t.point index

end TrackAccess

/-- The variant map `data()` of the meta-object of an assistant as far as the base class
reads and writes it: the fields `enabled` and `magnetism`, and under `points` the list
of the stored positions (fields `x`, `y` of each entry).  `TVariant` is declared outside
the sources at hand; a read of an entry that the list lacks gives the blank variant,
whose `getDouble()` is 0. -/
structure TAssistantData (K : Type) where
  enabled : Bool
  magnetism : K
  points : List (TPointD K)
  deriving DecidableEq, Repr

/-- The property group `m_properties` of the base class: the values held by the
properties `enabled` and `magnetism` that the constructor adds (assistant.cpp:141-142). -/
structure TPropertyGroup (K : Type) where
  enabled : Bool
  magnetism : K
  deriving DecidableEq, Repr

/-- The assistant together with its meta-object: the handles `m_points`, the variant
data `data()` and the property group `m_properties`. -/
structure TAssistantObject (K : Type) where
  assistant : TAssistant K
  data : TAssistantData K
  properties : TPropertyGroup K

/-- Place of a changed variant inside `data()` as `onDataChanged` tells the cases apart
(assistant.cpp:207-220): `data()` itself, the list under `points`, a value inside the
entry `index` of that list, a value inside the field `enabled` or `magnetism`, or a
value anywhere else. -/
inductive TVariantPath where
  | data
  | points
  | point (index : Int)
  | enabled
  | magnetism
  | other
  deriving DecidableEq, Repr

section AssistantData

variable {K : Type} [LinearOrderedField K]

/-- Member `TAssistant::getEnabled` (assistant.h:196-197). -/
def TAssistantObject.getEnabled (o : TAssistantObject K) : Bool := o.data.enabled

/-- Member `TAssistant::getMagnetism` (assistant.h:201-202). -/
def TAssistantObject.getMagnetism (o : TAssistantObject K) : K := o.data.magnetism

/-- Member `TAssistant::setMagnetism` (assistant.h:203-204). -/
def TAssistantObject.setMagnetism (o : TAssistantObject K) (x : K) : TAssistantObject K :=
  if o.getMagnetism ≠ x then { o with data := { o.data with magnetism := x } } else o

/-- The loop of `onAllDataChanged` (assistant.cpp:227-232): handle `i` takes the
position stored in entry `i` of the list, `(0, 0)` where the list has no such entry. -/
def loadPositions : List (TAssistantPoint K) → List (TPointD K) → List (TAssistantPoint K)
  | [], _ => []
  | p :: ps, [] => { p with position := TPointD.zero } :: loadPositions ps []
  | p :: ps, d :: ds => { p with position := d } :: loadPositions ps ds

/-- The loop of `onFixData` (assistant.cpp:255-259): entry `i` of the list takes the
position of handle `i`; entries past the last handle stay. -/
def storePositions : List (TAssistantPoint K) → List (TPointD K) → List (TPointD K)
  | [], ds => ds
  | p :: ps, [] => p.position :: storePositions ps []
  | p :: ps, _ :: ds => p.position :: storePositions ps ds

/-- Method `TAssistant::updateProperty` (assistant.cpp:275-292) for the field at `path`
with the value `data()` holds there.  `setValue old v` is what the `TDoubleProperty`
holds after `setValue(v)` when it held `old` (`tproperty.h` is not part of the sources
at hand).  A name without a property changes nothing. -/
def TAssistantObject.updateProperty (setValue : K → K → K) (path : TVariantPath)
    (o : TAssistantObject K) : TAssistantObject K :=
  match path with
  | TVariantPath.enabled =>
    { o with properties := { o.properties with enabled := o.data.enabled } }
  | TVariantPath.magnetism =>
    { o with properties :=
        { o.properties with magnetism := setValue o.properties.magnetism o.data.magnetism } }
  | _ => o

/-- Method `TAssistant::updateProperties` (assistant.cpp:265-271): every field of the
map except `points`. -/
def TAssistantObject.updateProperties (setValue : K → K → K) (o : TAssistantObject K) :
    TAssistantObject K :=
  (o.updateProperty setValue TVariantPath.enabled).updateProperty setValue
    TVariantPath.magnetism

/-- Method `TAssistant::onAllDataChanged` (assistant.cpp:225-236) with the virtual
`onFixPoints` that `fixPoints` dispatches to. -/
def TAssistantObject.onAllDataChangedWith (setValue : K → K → K)
    (onFixPoints : TAssistant K → TAssistant K) (o : TAssistantObject K) :
    TAssistantObject K :=
  let o1 : TAssistantObject K :=
    { o with assistant := ⟨loadPositions o.assistant.points o.data.points⟩ }
  let o2 : TAssistantObject K := { o1 with assistant := onFixPoints o1.assistant }
  o2.updateProperties setValue

/-- Method `TAssistant::onAllDataChanged` on the base assistant, whose `onFixPoints`
does nothing (assistant.cpp:240-242). -/
def TAssistantObject.onAllDataChanged (setValue : K → K → K) (o : TAssistantObject K) :
    TAssistantObject K :=
  o.onAllDataChangedWith setValue (fun a => a)

/-- Method `TAssistant::onDataChanged` (assistant.cpp:203-221) on the base assistant,
for a changed value at `path`. -/
def TAssistantObject.onDataChanged (setValue : K → K → K) (path : TVariantPath)
    (o : TAssistantObject K) : TAssistantObject K :=
  match path with
  | TVariantPath.data => o.onAllDataChanged setValue
  | TVariantPath.points => o.onAllDataChanged setValue
  | TVariantPath.point index =>
    { o with assistant :=
        o.assistant.movePoint index (o.data.points.getD index.toNat TPointD.zero) }
  | TVariantPath.enabled => o.updateProperty setValue TVariantPath.enabled
  | TVariantPath.magnetism => o.updateProperty setValue TVariantPath.magnetism
  | TVariantPath.other => o

/-- Method `TAssistant::onFixData` (assistant.cpp:252-261). -/
def TAssistantObject.onFixData (o : TAssistantObject K) : TAssistantObject K :=
  let o1 : TAssistantObject K :=
    { o with data := { o.data with points := storePositions o.assistant.points o.data.points } }
  o1.setMagnetism (max 0 (min 1 o1.getMagnetism))

end AssistantData

/-- A `TDoubleProperty` that crops the value it is given into `[0, 1]`. -/
def cropValue : ℚ → ℚ → ℚ := fun _ v => max 0 (min 1 v)

/-- Assistant with three handles whose data holds `enabled = true`, `magnetism = 1.7`
and the positions (1,2), (3,4); the properties hold the defaults. -/
def storedAssistant : TAssistantObject ℚ :=
  { assistant := threePointAssistant,
    data := { enabled := true, magnetism := 17 / 10, points := [⟨1, 2⟩, ⟨3, 4⟩] },
    properties := { enabled := true, magnetism := 1 } }

section ManagerRollback

variable {K : Type}

/-- The constructor `TInputManager::TInputManager` (inputmanager.cpp:84-95): one track
list, one hover list, no modifier, no save point, `m_savePointsSent = 0`. -/
def TInputManager.create : TInputManager K :=
  { modifiers := [], tracks := [[]], hovers := [[]], savePoints := [],
    savePointsSent := 0, calls := [], discarded := [], created := 0 }

/-- The value of `rollbackIndex` that `paintTracks` passes to `paintRollbackTo`
(inputmanager.cpp:195-204). -/
def rollbackIndex (m : TInputManager K) : Nat :=
  m.subTracks.foldl (rollbackIndexStep m.savePoints.length) m.savePoints.length

/-- Save index `k` suits the tracks of the list: `saves[k] ≤ size − pointsAdded` for
every track with `pointsRemoved > 0` that carries a manager handler. -/
def SuitsRollback (k : Nat) (tracks : List (TTrack K)) : Prop :=
  ∀ t ∈ tracks, ∀ h, t.pointsRemoved > 0 → t.handler = TTrackHandlerP.manager h →
    h.saves.getD k 0 ≤ t.size - t.pointsAdded

/-- The `saves` vector of every output track that carries a manager handler is
non-decreasing. -/
def SavesMonotone (m : TInputManager K) : Prop :=
  ∀ t ∈ m.subTracks, ∀ h, t.handler = TTrackHandlerP.manager h →
    h.saves.Pairwise (fun a b => a ≤ b)

/-- State `m'` differs from `m` in the save points by a discard only: the stack of `m'`
is the stack of `m` without its last entries, each of which is in `discarded` with
`available = false`. -/
def Discards (m m' : TInputManager K) : Prop :=
  ∃ removed : List TInputSavePoint,
    m.savePoints = m'.savePoints ++ removed ∧
    m'.discarded = m.discarded ++ removed.map (fun s => { s with available := false })

end ManagerRollback

/-- Manager without modifiers, two save points of which the tool holds both, and one
open output track of five points whose handler has the saves `[2, 4]`; one point was
removed and two added since the last delivery. -/
def rolledManager : TInputManager ℚ :=
  { modifiers := [],
    tracks := [[{ id := 1, deviceId := 0, touchId := 0, ticks := 0, hasPressure := false,
                  hasTilt := false, timeOffset := 0,
                  handler := TTrackHandlerP.manager ⟨[2, 4]⟩,
                  pointsRemoved := 1, pointsAdded := 2,
                  points := [samplePoint 0 0 0 0 0, samplePoint 1 0 1 1 1,
                    samplePoint 2 0 2 2 2, samplePoint 3 0 3 3 3, samplePoint 4 0 4 4 4] }]],
    hovers := [[]], savePoints := [⟨0, true⟩, ⟨1, true⟩], savePointsSent := 2, calls := [],
    discarded := [], created := 2 }

/-! ### Scoring as sums over steps (assistant.cpp:38-76) -/

/-- One step of the scoring of a track: the screen-space length `ℓ` of the step, the
running arc length `L` after the step, and the screen-space distance `d` between the
point and its projection on the guideline. -/
structure WeightStep (K : Type) where
  length : K
  arc : K
  deviation : K
  deriving DecidableEq, Repr

section WeightSteps

variable {K : Type} [LinearOrderedField K]

/-- The steps of the points that follow a point at screen position `prev` with running
arc length `len`: each step measures the screen distance to the previous point, adds it
to the running arc length, and measures the screen distance between the point and its
image under `transformPoint`. -/
def weightSteps (m : Metrics K) (g : TGuideline K) (toScreen : TAffine K) :
    TPointD K → K → List (TTrackPoint K) → List (WeightStep K)
  | _, _, [] => []
  | prev, len, tp :: rest =>
    { length := m.tdistance (toScreen.apply tp.position) prev
      arc := len + m.tdistance (toScreen.apply tp.position) prev
      deviation :=
        m.tdistance (toScreen.apply (g.transformPoint tp).position)
          (toScreen.apply tp.position) }
      :: weightSteps m g toScreen (toScreen.apply tp.position)
          (len + m.tdistance (toScreen.apply tp.position) prev) rest

/-- The steps of a track, one for each point; the first is measured from the first
point itself, with running arc length 0 before it. -/
def trackWeightSteps (m : Metrics K) (g : TGuideline K) (toScreen : TAffine K)
    (points : List (TTrackPoint K)) : List (WeightStep K) :=
  weightSteps m g toScreen (toScreen.apply (pointAt points 0).position) 0 points

/-- Weight of a step: `w = ℓ · f(L − ℓ/2)` with `f` the unscaled log-normal density for
`snapLenght` and `snapScale`. -/
def WeightStep.weight (m : Metrics K) (s : WeightStep K) : K :=
  s.length * m.logNormalDistribuitionUnscaled (s.arc - (1 / 2) * s.length) snapLenght
    snapScale

/-- The steps up to and including the first one whose running arc length reaches
`maxLength`; all steps when none does. -/
def visitedSteps : List (WeightStep K) → List (WeightStep K)
  | [] => []
  | s :: rest => if s.arc ≥ maxLength then [s] else s :: visitedSteps rest

/-- The visited steps whose midpoint arc length `L − ℓ/2` exceeds `eps`. -/
def contributingSteps (eps : K) (steps : List (WeightStep K)) : List (WeightStep K) :=
  (visitedSteps steps).filter (fun s => decide (s.arc - (1 / 2) * s.length > eps))

/-- Sum of the weights of the given steps. -/
def weightSum (m : Metrics K) (steps : List (WeightStep K)) : K :=
  (steps.map (fun s => s.weight m)).sum

/-- Sum of the products weight times deviation of the given steps. -/
def deviationSum (m : Metrics K) (steps : List (WeightStep K)) : K :=
  (steps.map (fun s => s.weight m * s.deviation)).sum

/-- The weight of a track as the specification words it: the sums range over exactly
the steps whose running arc length satisfies `L ≤ 2·snapLength·snapScale`; the result is
`Σ w·d / Σ w`, or `+infinity` when `Σ w ≤ eps`. -/
def specTrackWeight (m : Metrics K) (eps : K) (g : TGuideline K)
    (points : List (TTrackPoint K)) (toScreen : TAffine K) : WithTop K :=
  let steps := (trackWeightSteps m g toScreen points).filter
    (fun s => decide (s.arc ≤ maxLength))
  if weightSum m steps ≤ eps then ⊤
  else ((deviationSum m steps / weightSum m steps : K) : WithTop K)

end WeightSteps

/-- Track of two points, from (0,0) to (50,0), every other member at its default. -/
noncomputable def longStepTrack : List (TTrackPoint ℝ) :=
  [TTrackPoint.blank, { (TTrackPoint.blank : TTrackPoint ℝ) with position := ⟨50, 0⟩ }]

/-- Guideline that projects every point onto the x axis. -/
def axisGuideline : TGuideline ℚ :=
  ⟨fun point => { point with position := ⟨point.position.x, 0⟩ }⟩

/-- Track of three points (0,1), (30,1), (50,2) in screen units. -/
def gridTrack : List (TTrackPoint ℚ) :=
  [samplePoint 0 1 0 0 0, samplePoint 30 1 1 1 30, samplePoint 50 2 2 2 51]

/-! ### Track and modifier life cycle (inputmanager.cpp:336-374, 425-461) -/

section Lifecycle

variable {K : Type} [LinearOrderedField K]

/-- Loop body of `touchTracks` (inputmanager.cpp:338-341) for one raw track. -/
def touchTrack (mt : Metrics K) (finish : Bool) (track : TTrack K) : TTrack K :=
  if track.finished = false ∧ track.size > 0 then
    addTrackPoint mt track track.back.position track.back.pressure track.back.tilt
      track.back.time finish
  else track

/-- Method `TInputManager::touchTracks` (inputmanager.cpp:336-343) on the raw list
`m_tracks.front()`. -/
def touchTracks (mt : Metrics K) (finish : Bool) (m : TInputManager K) : TInputManager K :=
  { m with tracks := m.tracks.set 0 ((m.tracks.headD []).map (touchTrack mt finish)) }

/-- Method `TInputManager::processTracks` (inputmanager.cpp:361-363); `passes` is what
the modifiers do in the passes of `paintTracks`. -/
def processTracks (host : ToolHost K) (tool : TTool K) (passes : List (ModifierPass K))
    (m : TInputManager K) : Option (TInputManager K) :=
  if host.isActive m.calls then paintTracks tool passes m else some m

/-- Method `TInputManager::finishTracks` (inputmanager.cpp:366-374). -/
def finishTracks (host : ToolHost K) (tool : TTool K) (mt : Metrics K)
    (passes : List (ModifierPass K)) (m : TInputManager K) : Option (TInputManager K) :=
  if host.isActive m.calls then processTracks host tool passes (touchTracks mt true m)
  else some (reset m)

/-- The loop of `findModifier` (inputmanager.cpp:416-418) from position `i` on. -/
def findModifierFrom (modifier : Nat) : List Nat → Int → Int
  | [], _ => -1
  | x :: rest, i => if x = modifier then i else findModifierFrom modifier rest (i + 1)

/-- Method `TInputManager::findModifier` (inputmanager.cpp:415-420): the first position
of the modifier in the chain, `-1` when it is not there. -/
def findModifier (modifier : Nat) (m : TInputManager K) : Int :=
  findModifierFrom modifier m.modifiers 0

/-- Insertion `v.insert(v.begin() + index, x)` into a vector. -/
def insertAt {α : Type} (index : Nat) (x : α) (v : List α) : List α :=
  v.take index ++ x :: v.drop index

/-- Method `TInputManager::insertModifier` (inputmanager.cpp:425-433).  `none`: the
`paintTracks` loop inside `finishTracks` has not been left after the listed passes.  The
calls `setManager` and `activate` on the modifier touch no member of the manager. -/
def insertModifier (host : ToolHost K) (tool : TTool K) (mt : Metrics K)
    (passes : List (ModifierPass K)) (index : Int) (modifier : Nat) (m : TInputManager K) :
    Option (TInputManager K) :=
  if findModifier modifier m ≥ 0 then some m
  else
    (finishTracks host tool mt passes m).map (fun m1 =>
      { m1 with
        modifiers := insertAt index.toNat modifier m1.modifiers
        tracks := insertAt (index + 1).toNat [] m1.tracks
        hovers := insertAt (index + 1).toNat [] m1.hovers })

/-- Method `TInputManager::removeModifier` (inputmanager.cpp:436-445). -/
def removeModifier (host : ToolHost K) (tool : TTool K) (mt : Metrics K)
    (passes : List (ModifierPass K)) (index : Int) (m : TInputManager K) :
    Option (TInputManager K) :=
  if index ≥ 0 ∧ index < (m.modifiers.length : Int) then
    (finishTracks host tool mt passes m).map (fun m1 =>
      { m1 with
        modifiers := m1.modifiers.eraseIdx index.toNat
        tracks := m1.tracks.eraseIdx (index + 1).toNat
        hovers := m1.hovers.eraseIdx (index + 1).toNat })
  else some m

/-- The `while` loop of `clearModifiers` (inputmanager.cpp:449-451).  The first argument
bounds the number of passes; `clearModifiers` starts it with the number of modifiers.
`scripts` lists, for each call of `removeModifier`, the passes of its `paintTracks`. -/
def clearModifiersLoop (host : ToolHost K) (tool : TTool K) (mt : Metrics K) :
    Nat → List (List (ModifierPass K)) → TInputManager K → Option (TInputManager K)
  | 0, _, m => if m.modifiers.length > 0 then none else some m
  | fuel + 1, scripts, m =>
    if m.modifiers.length > 0 then
      match removeModifier host tool mt (scripts.headD [])
          ((m.modifiers.length : Int) - 1) m with
      | none => none
      | some m1 => clearModifiersLoop host tool mt fuel scripts.tail m1
    else some m

/-- Method `TInputManager::clearModifiers` (inputmanager.cpp:448-452). -/
def clearModifiers (host : ToolHost K) (tool : TTool K) (mt : Metrics K)
    (scripts : List (List (ModifierPass K))) (m : TInputManager K) :
    Option (TInputManager K) :=
  clearModifiersLoop host tool mt m.modifiers.length scripts m

/-- The manager holds one track list and one hover list more than it has modifiers. -/
def ListsMatchModifiers (m : TInputManager K) : Prop :=
  m.tracks.length = m.modifiers.length + 1 ∧ m.hovers.length = m.modifiers.length + 1

end Lifecycle

/-- Manager without modifiers whose raw list holds an empty track, the open track of
three points and a finished track. -/
def mixedManager : TInputManager ℚ :=
  { modifiers := [],
    tracks := [[rawTrack [] 0 0, rawTrack unitTrack 0 0, finishedTrack []]],
    hovers := [[]], savePoints := [], savePointsSent := 0, calls := [], discarded := [],
    created := 0 }

section ManagerDelta

variable {K : Type}

/-- What the manager relies on when it recomputes a delta from `saves`: the entries of
every manager handler are sizes (non-negative); a track from which points were removed
(`pointsRemoved > 0`) has `pointsAdded ≥ 0` and still holds the points of the earliest
save point of the stack (`saves[0] ≤ size − pointsAdded`); a track without removed
points is at least as long as every entry of its `saves`. -/
def SavesWithinTracks (m : TInputManager K) : Prop :=
  ∀ t ∈ m.subTracks, ∀ h, t.handler = TTrackHandlerP.manager h →
    (∀ x ∈ h.saves, 0 ≤ x) ∧
    (t.pointsRemoved > 0 → 0 ≤ t.pointsAdded ∧ h.saves.getD 0 0 ≤ t.size - t.pointsAdded) ∧
    (¬ t.pointsRemoved > 0 → ∀ x ∈ h.saves, x ≤ t.size)

end ManagerDelta

/-- Pass in which no modifier writes a list and every save point is retained. -/
def keepPass : ModifierPass ℚ :=
  { levels := [], stackFree := fun _ => false, newFree := false }

/-- Manager without modifiers with one save point, held by the tool, and one open
output track of three points whose handler has the saves `[5]`: the track had five
points when the save point was created, three were removed since and one added. -/
def shrunkManager : TInputManager ℚ :=
  { modifiers := [],
    tracks := [[{ id := 1, deviceId := 0, touchId := 0, ticks := 0, hasPressure := false,
                  hasTilt := false, timeOffset := 0,
                  handler := TTrackHandlerP.manager ⟨[5]⟩,
                  pointsRemoved := 3, pointsAdded := 1,
                  points := [samplePoint 0 0 0 0 0, samplePoint 1 0 1 1 1,
                    samplePoint 2 0 2 2 2] }]],
    hovers := [[]], savePoints := [⟨0, true⟩], savePointsSent := 1, calls := [],
    discarded := [], created := 1 }

theorem binarySearchLoop_spec {K : Type} [LinearOrderedField K] (eps : K)
    (field : TTrackPoint K → K)
    (pts : List (TTrackPoint K)) (value : K) :
    ∀ (fuel a b : Nat) (aa bb : K), b - a ≤ fuel → a < b →
      aa = field (pts.getD a TTrackPoint.blank) →
      bb = field (pts.getD b TTrackPoint.blank) →
      aa - value ≤ eps / 2 → eps / 2 < bb - value →
      (a = 0 → eps / 2 < value - aa) →
      let r := binarySearchLoop eps field pts value fuel a b aa bb
      a ≤ r.1 ∧ r.1 + 1 ≤ b ∧
      r.2.1 = field (pts.getD r.1 TTrackPoint.blank) ∧
      r.2.2 = field (pts.getD (r.1 + 1) TTrackPoint.blank) ∧
      r.2.1 - value ≤ eps / 2 ∧ eps / 2 < r.2.2 - value ∧
      (r.1 = 0 → eps / 2 < value - r.2.1) := by
  intro fuel
  induction fuel with
  | zero =>
    intro a b aa bb hf hab
    omega
  | succ n ih =>
    intro a b aa bb hf hab haa hbb hlo hhi h0
    simp only [binarySearchLoop]
    by_cases hc : a = (a + b) / 2
    · rw [if_pos hc]
      have hb : b = a + 1 := by omega
      subst hb
      exact ⟨le_refl _, le_refl _, haa, hbb, hlo, hhi, h0⟩
    · rw [if_neg hc]
      have hac : a < (a + b) / 2 := by omega
      have hcb : (a + b) / 2 < b := by omega
      by_cases hcc : field (pts.getD ((a + b) / 2) TTrackPoint.blank) - value > eps / 2
      · rw [if_pos hcc]
        have h := ih a ((a + b) / 2) aa _ (by omega) hac haa rfl hlo hcc h0
        obtain ⟨h1, h2, h3⟩ := h
        exact ⟨h1, by omega, h3⟩
      · rw [if_neg hcc]
        have h := ih ((a + b) / 2) b _ bb (by omega) hcb rfl hbb (not_lt.mp hcc) hhi
          (fun h => by omega)
        obtain ⟨h1, h2, h3⟩ := h
        exact ⟨by omega, h2, h3⟩

theorem binarySearchFrame_spec {K : Type} [LinearOrderedField K] (eps : K) (heps : 0 < eps)
    (field : TTrackPoint K → K) (pts : List (TTrackPoint K)) (value : K)
    (h1 : ¬ value - field (pts.getD 0 TTrackPoint.blank) ≤ eps / 2)
    (h2 : ¬ field (pts.getD (pts.length - 1) TTrackPoint.blank) - value ≤ eps / 2) :
    (binarySearchFrame eps field pts value).1 + 1 ≤ pts.length - 1 ∧
    (binarySearchFrame eps field pts value).2.1 =
      field (pts.getD (binarySearchFrame eps field pts value).1 TTrackPoint.blank) ∧
    (binarySearchFrame eps field pts value).2.2 =
      field (pts.getD ((binarySearchFrame eps field pts value).1 + 1) TTrackPoint.blank) ∧
    (binarySearchFrame eps field pts value).2.1 - value ≤ eps / 2 ∧
    eps / 2 < (binarySearchFrame eps field pts value).2.2 - value ∧
    ((binarySearchFrame eps field pts value).1 = 0 →
      eps / 2 < value - (binarySearchFrame eps field pts value).2.1) := by
  have h1 := not_le.mp h1
  have h2 := not_le.mp h2
  have hpos : 0 < pts.length - 1 := by
    rcases Nat.eq_zero_or_pos (pts.length - 1) with h | h
    · rw [h] at h2
      linarith
    · exact h
  have h := binarySearchLoop_spec eps field pts value pts.length 0 (pts.length - 1) _ _
    (by omega) hpos rfl rfl (by linarith) h2 (fun _ => h1)
  exact h.2

theorem binarySearch_interior {K : Type} [LinearOrderedField K] (eps : K)
    (field : TTrackPoint K → K) (pts : List (TTrackPoint K)) (value : K)
    (hne : pts ≠ [])
    (h1 : ¬ value - field (pts.getD 0 TTrackPoint.blank) ≤ eps / 2)
    (h2 : ¬ field (pts.getD (pts.length - 1) TTrackPoint.blank) - value ≤ eps / 2) :
    binarySearch eps field pts value =
      if (binarySearchFrame eps field pts value).2.2
          - (binarySearchFrame eps field pts value).2.1 ≥ eps / 2 then
        ((binarySearchFrame eps field pts value).1 : K)
          + (value - (binarySearchFrame eps field pts value).2.1)
            / ((binarySearchFrame eps field pts value).2.2
                - (binarySearchFrame eps field pts value).2.1)
      else ((binarySearchFrame eps field pts value).1 : K) := by
  have he : pts.isEmpty = false := by
    cases pts with
    | nil => exact absurd rfl hne
    | cons p ps => rfl
  simp only [binarySearch, he, if_neg h1, if_neg h2]
  simp

theorem binarySearch_bounds {K : Type} [LinearOrderedField K] (eps : K) (heps : 0 < eps)
    (field : TTrackPoint K → K) (pts : List (TTrackPoint K)) (value : K) (hne : pts ≠ []) :
    0 ≤ binarySearch eps field pts value ∧
      binarySearch eps field pts value ≤ ((pts.length - 1 : Nat) : K) := by
  by_cases h1 : value - field (pts.getD 0 TTrackPoint.blank) ≤ eps / 2
  · have he : pts.isEmpty = false := by
      cases pts with
      | nil => exact absurd rfl hne
      | cons p ps => rfl
    simp only [binarySearch, he, if_pos h1]
    simp
  by_cases h2 : field (pts.getD (pts.length - 1) TTrackPoint.blank) - value ≤ eps / 2
  · have he : pts.isEmpty = false := by
      cases pts with
      | nil => exact absurd rfl hne
      | cons p ps => rfl
    simp only [binarySearch, he, if_neg h1, if_pos h2]
    simp
  rw [binarySearch_interior eps field pts value hne h1 h2]
  obtain ⟨ha, -, -, hlo, hhi, h0⟩ := binarySearchFrame_spec eps heps field pts value h1 h2
  generalize binarySearchFrame eps field pts value = fr at *
  obtain ⟨a, aa, bb⟩ := fr
  simp only at ha hlo hhi h0 ⊢
  have hcast : ((a : K) + 1) ≤ ((pts.length - 1 : Nat) : K) := by
    have : ((a + 1 : Nat) : K) ≤ ((pts.length - 1 : Nat) : K) := Nat.cast_le.mpr ha
    simpa using this
  have hann : (0 : K) ≤ (a : K) := Nat.cast_nonneg a
  by_cases hd : bb - aa ≥ eps / 2
  · rw [if_pos hd]
    have hdpos : 0 < bb - aa := by linarith
    have hlt : (value - aa) / (bb - aa) < 1 := by
      rw [div_lt_one hdpos]; linarith
    have hge : -1 ≤ (value - aa) / (bb - aa) := by
      rw [le_div_iff₀ hdpos]; linarith
    constructor
    · rcases Nat.eq_zero_or_pos a with hz | hp
      · have h := h0 hz
        have : 0 ≤ (value - aa) / (bb - aa) := div_nonneg (by linarith) hdpos.le
        linarith
      · have : (1 : K) ≤ (a : K) := by exact_mod_cast hp
        linarith
    · linarith
  · rw [if_neg hd]
    exact ⟨hann, by linarith⟩

theorem isEmpty_eq_false_of_ne_nil {α : Type} (l : List α) (h : l ≠ []) :
    l.isEmpty = false := by
  cases l with
  | nil => exact absurd rfl h
  | cons p ps => rfl

theorem spacedField_lt {K : Type} [LinearOrderedField K] (eps : K) (heps : 0 < eps)
    (field : TTrackPoint K → K) (pts : List (TTrackPoint K))
    (hs : SpacedField eps field pts) :
    ∀ k j, j < k → k < pts.length →
      eps / 2 < field (pts.getD k TTrackPoint.blank) - field (pts.getD j TTrackPoint.blank) := by
  intro k
  induction k with
  | zero => intro j hj; omega
  | succ n ih =>
    intro j hj hk
    have hstep := hs n hk
    rcases Nat.lt_succ_iff_lt_or_eq.mp hj with h | h
    · have := ih j h (by omega)
      linarith
    · subst h
      exact hstep

theorem binarySearch_at_sample {K : Type} [LinearOrderedField K] (eps : K) (heps : 0 < eps)
    (field : TTrackPoint K → K) (pts : List (TTrackPoint K))
    (hs : SpacedField eps field pts) (i : Nat) (hi : i < pts.length) :
    binarySearch eps field pts (field (pts.getD i TTrackPoint.blank)) = (i : K) := by
  have hne : pts ≠ [] := by
    intro h; rw [h] at hi; simp at hi
  have he := isEmpty_eq_false_of_ne_nil pts hne
  have hlt := spacedField_lt eps heps field pts hs
  rcases Nat.eq_zero_or_pos i with hz | hp
  · subst hz
    simp only [binarySearch, he, Bool.false_eq_true, if_false]
    rw [if_pos (by linarith)]
    simp
  have h1 : ¬ field (pts.getD i TTrackPoint.blank) - field (pts.getD 0 TTrackPoint.blank)
      ≤ eps / 2 := not_le.mpr (hlt i 0 hp hi)
  rcases Nat.lt_or_ge i (pts.length - 1) with hlast | hlast
  · have h2 : ¬ field (pts.getD (pts.length - 1) TTrackPoint.blank)
        - field (pts.getD i TTrackPoint.blank) ≤ eps / 2 :=
      not_le.mpr (hlt (pts.length - 1) i hlast (by omega))
    rw [binarySearch_interior eps field pts _ hne h1 h2]
    obtain ⟨ha, haa, hbb, hlo, hhi, -⟩ := binarySearchFrame_spec eps heps field pts _ h1 h2
    generalize binarySearchFrame eps field pts (field (pts.getD i TTrackPoint.blank)) = fr at *
    obtain ⟨a, aa, bb⟩ := fr
    simp only at ha haa hbb hlo hhi ⊢
    have hai : a ≤ i := by
      by_contra hcon
      have := hlt a i (by omega) (by omega)
      rw [← haa] at this
      linarith
    have hia : i < a + 1 := by
      by_contra hcon
      rcases Nat.lt_or_ge (a + 1) i with h | h
      · have := hlt i (a + 1) h hi
        rw [← hbb] at this
        linarith
      · have : a + 1 = i := by omega
        rw [this] at hbb
        rw [hbb] at hhi
        linarith
    have hae : a = i := by omega
    subst hae
    have hgap := hs a (by omega)
    rw [← haa, ← hbb] at hgap
    rw [if_pos (by linarith), ← haa]
    simp
  · have hil : i = pts.length - 1 := by omega
    simp only [binarySearch, he, Bool.false_eq_true, if_false]
    rw [if_neg h1, ← hil, if_pos (by linarith)]

theorem binarySearchLoop_exit {K : Type} [LinearOrderedField K] (eps : K)
    (field : TTrackPoint K → K) (pts : List (TTrackPoint K)) (value : K) :
    ∀ (fuel a b : Nat) (aa bb : K), a ≤ b → b - a ≤ fuel →
      binarySearchLoop eps field pts value (fuel + 1) a b aa bb
        = binarySearchLoop eps field pts value fuel a b aa bb := by
  intro fuel
  induction fuel with
  | zero =>
    intro a b aa bb hab hf
    have hc : a = (a + b) / 2 := by omega
    simp only [binarySearchLoop]
    rw [if_pos hc]
  | succ n ih =>
    intro a b aa bb hab hf
    rw [binarySearchLoop]
    conv_rhs => rw [binarySearchLoop]
    by_cases hc : a = (a + b) / 2
    · simp only [if_pos hc]
    · simp only [if_neg hc]
      by_cases hcc : field (pts.getD ((a + b) / 2) TTrackPoint.blank) - value > eps / 2
      · simp only [if_pos hcc]
        exact ih a ((a + b) / 2) aa _ (by omega) (by omega)
      · simp only [if_neg hcc]
        exact ih ((a + b) / 2) b _ bb (by omega) (by omega)

/-- C1 (as amended): on a track whose indexed field grows by more than `eps / 2` from
each point to the next, `indexByOriginalIndex`, `indexByTime` and `indexByLength` map the
field value of point `i` to exactly `i`, for every valid index `i`. -/
theorem indexByField_sample_spaced {K : Type} [LinearOrderedField K] (eps : K)
    (heps : 0 < eps) (pts : List (TTrackPoint K)) (i : Nat) (hi : i < pts.length) :
    (SpacedField eps TTrackPoint.originalIndex pts →
      indexByOriginalIndex eps pts (pts.getD i TTrackPoint.blank).originalIndex = (i : K)) ∧
    (SpacedField eps TTrackPoint.time pts →
      indexByTime eps pts (pts.getD i TTrackPoint.blank).time = (i : K)) ∧
    (SpacedField eps TTrackPoint.length pts →
      indexByLength eps pts (pts.getD i TTrackPoint.blank).length = (i : K)) :=
  ⟨fun hs => binarySearch_at_sample eps heps TTrackPoint.originalIndex pts hs i hi,
   fun hs => binarySearch_at_sample eps heps TTrackPoint.time pts hs i hi,
   fun hs => binarySearch_at_sample eps heps TTrackPoint.length pts hs i hi⟩

theorem spacedField_unitTrack (field : TTrackPoint ℚ → ℚ)
    (h0 : field (samplePoint 0 0 0 0 0) = 0) (h1 : field (samplePoint 1 0 1 1 1) = 1)
    (h2 : field (samplePoint 2 0 2 2 2) = 2) :
    SpacedField TConsts.epsilon field unitTrack := by
  intro j hj
  have hj2 : j + 1 < 3 := hj
  have : j = 0 ∨ j = 1 := by omega
  rcases this with h | h <;> subst h <;>
    norm_num [unitTrack, List.getD, h0, h1, h2, TConsts.epsilon]

/-- Witness of C1 (as amended): the three-point track with original indices, times and
lengths 0, 1, 2 is spaced in all three fields, and each lookup of point 1 returns 1. -/
theorem indexByField_sample_spaced_witness :
    (0 : ℚ) < TConsts.epsilon ∧ 1 < unitTrack.length ∧
    indexByOriginalIndex TConsts.epsilon unitTrack
      (unitTrack.getD 1 TTrackPoint.blank).originalIndex = ((1 : Nat) : ℚ) ∧
    indexByTime TConsts.epsilon unitTrack (unitTrack.getD 1 TTrackPoint.blank).time
      = ((1 : Nat) : ℚ) ∧
    indexByLength TConsts.epsilon unitTrack (unitTrack.getD 1 TTrackPoint.blank).length
      = ((1 : Nat) : ℚ) :=
  have h := indexByField_sample_spaced (TConsts.epsilon : ℚ) (by norm_num [TConsts.epsilon])
    unitTrack 1 (by decide)
  ⟨by norm_num [TConsts.epsilon], by decide,
   h.1 (spacedField_unitTrack _ rfl rfl rfl),
   h.2.1 (spacedField_unitTrack _ rfl rfl rfl),
   h.2.2 (spacedField_unitTrack _ rfl rfl rfl)⟩

/-- C1 (as stated) fails: on the two-point track whose points share the time 0 (and the
length 0), index 1 is valid but `indexByTime` and `indexByLength` of its field value
return 0, which is not within epsilon of 1. -/
theorem indexByField_sample_duplicate :
    dupTrack ≠ [] ∧ 1 < dupTrack.length ∧
    indexByTime TConsts.epsilon dupTrack (dupTrack.getD 1 TTrackPoint.blank).time = 0 ∧
    ¬ |indexByTime TConsts.epsilon dupTrack (dupTrack.getD 1 TTrackPoint.blank).time - 1|
        ≤ TConsts.epsilon ∧
    ¬ |indexByLength TConsts.epsilon dupTrack (dupTrack.getD 1 TTrackPoint.blank).length - 1|
        ≤ TConsts.epsilon := by
  refine ⟨by decide, by decide, ?_, ?_, ?_⟩ <;>
    norm_num [indexByTime, indexByLength, binarySearch, dupTrack, samplePoint, TConsts.epsilon]

/-- C2 evaluated at its failing input: on the track with times `0`, `10 + eps/4`,
`10 + 11*eps/4` (non-decreasing) and the value `10` (between the first and last time)
the search ends on the pair `(1, 2)` with `aa = 10 + eps/4 > 10`, returns
`1 + (10 - aa)/(bb - aa) = 9/10`, and interpolating the time between points 0 and 1 with
fraction `9/10` gives a value more than epsilon (indeed more than `9/10`) away from 10. -/
theorem indexByTime_slip_interpolation :
    (binarySearchFrame TConsts.epsilon TTrackPoint.time slipTrack 10).1 = 1 ∧
    indexByTime TConsts.epsilon slipTrack 10 = 9 / 10 ∧
    lerpFieldAt TTrackPoint.time slipTrack (indexByTime TConsts.epsilon slipTrack 10)
      = 9 + 9 * TConsts.epsilon / 40 ∧
    ¬ |lerpFieldAt TTrackPoint.time slipTrack (indexByTime TConsts.epsilon slipTrack 10) - 10|
        ≤ TConsts.epsilon := by
  have hfr : binarySearchFrame TConsts.epsilon TTrackPoint.time slipTrack 10
      = (1, 10 + TConsts.epsilon / 4, 10 + 11 * TConsts.epsilon / 4) := by
    norm_num [binarySearchFrame, binarySearchLoop, slipTrack, samplePoint, TConsts.epsilon]
  have hr : indexByTime TConsts.epsilon slipTrack 10 = 9 / 10 := by
    rw [indexByTime, binarySearch, hfr]
    norm_num [slipTrack, samplePoint, TConsts.epsilon]
  have hfl : ⌊(9 / 10 : ℚ)⌋ = 0 := by
    rw [Int.floor_eq_iff]; norm_num
  have hce : ⌈(9 / 10 : ℚ)⌉ = 1 := by
    rw [Int.ceil_eq_iff]; norm_num
  have hl : lerpFieldAt TTrackPoint.time slipTrack (9 / 10)
      = 9 + 9 * TConsts.epsilon / 40 := by
    rw [lerpFieldAt, hfl, hce]
    norm_num [pointAt, clampIndex, slipTrack, samplePoint, interpolationLinear,
      TConsts.epsilon]
  refine ⟨by rw [hfr], hr, by rw [hr, hl], ?_⟩
  rw [hr, hl]
  norm_num [TConsts.epsilon, abs_le]

theorem binarySearch_clamp_low {K : Type} [LinearOrderedField K] (eps : K)
    (field : TTrackPoint K → K) (pts : List (TTrackPoint K)) (value : K) (hne : pts ≠ [])
    (h : value ≤ field (pts.getD 0 TTrackPoint.blank) + eps / 2) :
    binarySearch eps field pts value = 0 := by
  have he := isEmpty_eq_false_of_ne_nil pts hne
  simp only [binarySearch, he, Bool.false_eq_true, if_false]
  rw [if_pos (by linarith)]

theorem binarySearch_clamp_high {K : Type} [LinearOrderedField K] (eps : K)
    (field : TTrackPoint K → K) (pts : List (TTrackPoint K)) (value : K) (hne : pts ≠ [])
    (h0 : field (pts.getD 0 TTrackPoint.blank) + eps / 2 < value)
    (h : value ≥ field (pts.getD (pts.length - 1) TTrackPoint.blank) - eps / 2) :
    binarySearch eps field pts value = ((pts.length - 1 : Nat) : K) := by
  have he := isEmpty_eq_false_of_ne_nil pts hne
  simp only [binarySearch, he, Bool.false_eq_true, if_false]
  rw [if_neg (by linarith), if_pos (by linarith)]

theorem binarySearch_interior_bracket {K : Type} [LinearOrderedField K] (eps : K)
    (heps : 0 < eps) (field : TTrackPoint K → K) (pts : List (TTrackPoint K)) (v : K)
    (hne : pts ≠ [])
    (h0 : field (pts.getD 0 TTrackPoint.blank) + eps / 2 < v)
    (h1 : v < field (pts.getD (pts.length - 1) TTrackPoint.blank) - eps / 2) :
    ∃ a : Nat, a + 1 < pts.length ∧
      field (pts.getD a TTrackPoint.blank) - v ≤ eps / 2 ∧
      eps / 2 < field (pts.getD (a + 1) TTrackPoint.blank) - v ∧
      (field (pts.getD a TTrackPoint.blank) ≤ v →
        binarySearch eps field pts v = (a : K)
          + (v - field (pts.getD a TTrackPoint.blank))
            / (field (pts.getD (a + 1) TTrackPoint.blank)
                - field (pts.getD a TTrackPoint.blank)) ∧
        (a : K) ≤ binarySearch eps field pts v ∧
        binarySearch eps field pts v < (a : K) + 1) := by
  have hn1 : ¬ v - field (pts.getD 0 TTrackPoint.blank) ≤ eps / 2 := by
    intro h; linarith
  have hn2 : ¬ field (pts.getD (pts.length - 1) TTrackPoint.blank) - v ≤ eps / 2 := by
    intro h; linarith
  have hbs := binarySearch_interior eps field pts v hne hn1 hn2
  obtain ⟨ha, haa, hbb, hlo, hhi, -⟩ := binarySearchFrame_spec eps heps field pts v hn1 hn2
  generalize binarySearchFrame eps field pts v = fr at *
  obtain ⟨a, aa, bb⟩ := fr
  simp only at ha haa hbb hlo hhi hbs
  have hlen : 0 < pts.length := List.length_pos.mpr hne
  refine ⟨a, by omega, by rw [← haa]; exact hlo, by rw [← hbb]; exact hhi, ?_⟩
  intro hle
  rw [← haa] at hle
  have hd : bb - aa ≥ eps / 2 := by linarith
  have hdpos : 0 < bb - aa := by linarith
  rw [if_pos hd] at hbs
  rw [← haa, ← hbb, hbs]
  have hnn : 0 ≤ (v - aa) / (bb - aa) := div_nonneg (by linarith) hdpos.le
  have hlt : (v - aa) / (bb - aa) < 1 := by
    rw [div_lt_one hdpos]; linarith
  exact ⟨rfl, by linarith, by linarith⟩

/-- C3 (as amended): `binarySearch` (hence every `indexByField`) clamps at both ends: on
a non-empty track it returns 0 for `v ≤ field[0] + eps/2` and `size - 1` for
`v ≥ field[size-1] - eps/2` (with `v > field[0] + eps/2`); for any other `v` the search
ends on an adjacent pair `(a, a+1)` with `field[a] - v ≤ eps/2 < field[a+1] - v`, and
when `field[a] ≤ v` the result is `a + (v - field[a])/(field[a+1] - field[a])`, inside
`[a, a+1)`.  On the times `[0, 1, 2, 4, 8]`, `indexByTime` maps 3 to 2.5, 0 to 0, 8 to 4
and 10 to 4. -/
theorem binarySearch_clamps :
    (∀ (K : Type) [LinearOrderedField K] (eps : K), 0 < eps →
      ∀ (field : TTrackPoint K → K) (pts : List (TTrackPoint K)) (v : K), pts ≠ [] →
        (v ≤ field (pts.getD 0 TTrackPoint.blank) + eps / 2 →
          binarySearch eps field pts v = 0) ∧
        (field (pts.getD 0 TTrackPoint.blank) + eps / 2 < v →
          v ≥ field (pts.getD (pts.length - 1) TTrackPoint.blank) - eps / 2 →
          binarySearch eps field pts v = ((pts.length - 1 : Nat) : K)) ∧
        (field (pts.getD 0 TTrackPoint.blank) + eps / 2 < v →
          v < field (pts.getD (pts.length - 1) TTrackPoint.blank) - eps / 2 →
          ∃ a : Nat, a + 1 < pts.length ∧
            field (pts.getD a TTrackPoint.blank) - v ≤ eps / 2 ∧
            eps / 2 < field (pts.getD (a + 1) TTrackPoint.blank) - v ∧
            (field (pts.getD a TTrackPoint.blank) ≤ v →
              binarySearch eps field pts v = (a : K)
                + (v - field (pts.getD a TTrackPoint.blank))
                  / (field (pts.getD (a + 1) TTrackPoint.blank)
                      - field (pts.getD a TTrackPoint.blank)) ∧
              (a : K) ≤ binarySearch eps field pts v ∧
              binarySearch eps field pts v < (a : K) + 1))) ∧
    (indexByTime TConsts.epsilon scenario1 3 = 5 / 2 ∧
      indexByTime TConsts.epsilon scenario1 0 = 0 ∧
      indexByTime TConsts.epsilon scenario1 8 = 4 ∧
      indexByTime TConsts.epsilon scenario1 10 = 4) := by
  refine ⟨?_, ?_⟩
  · intro K _ eps heps field pts v hne
    exact ⟨binarySearch_clamp_low eps field pts v hne,
      binarySearch_clamp_high eps field pts v hne,
      binarySearch_interior_bracket eps heps field pts v hne⟩
  · refine ⟨?_, ?_, ?_, ?_⟩ <;>
      norm_num [indexByTime, binarySearch, binarySearchFrame, binarySearchLoop, scenario1,
        timePoint, TConsts.epsilon, TTrackPoint.blank]

/-- Witness of C3 (as amended): on the times `[0, 1, 2, 4, 8]` the value 3 is interior,
so the search ends on an adjacent pair that encloses it up to `eps/2`. -/
theorem binarySearch_clamps_witness :
    (0 : ℚ) < TConsts.epsilon ∧ scenario1 ≠ [] ∧
    TTrackPoint.time (scenario1.getD 0 TTrackPoint.blank) + TConsts.epsilon / 2 < 3 ∧
    3 < TTrackPoint.time (scenario1.getD (scenario1.length - 1) TTrackPoint.blank)
      - TConsts.epsilon / 2 ∧
    ∃ a : Nat, a + 1 < scenario1.length ∧
      TTrackPoint.time (scenario1.getD a TTrackPoint.blank) - 3 ≤ TConsts.epsilon / 2 ∧
      TConsts.epsilon / 2 < TTrackPoint.time (scenario1.getD (a + 1) TTrackPoint.blank) - 3 ∧
      (TTrackPoint.time (scenario1.getD a TTrackPoint.blank) ≤ 3 →
        binarySearch TConsts.epsilon TTrackPoint.time scenario1 3 = (a : ℚ)
          + (3 - TTrackPoint.time (scenario1.getD a TTrackPoint.blank))
            / (TTrackPoint.time (scenario1.getD (a + 1) TTrackPoint.blank)
                - TTrackPoint.time (scenario1.getD a TTrackPoint.blank)) ∧
        (a : ℚ) ≤ binarySearch TConsts.epsilon TTrackPoint.time scenario1 3 ∧
        binarySearch TConsts.epsilon TTrackPoint.time scenario1 3 < (a : ℚ) + 1) :=
  have he : (0 : ℚ) < TConsts.epsilon := by norm_num [TConsts.epsilon]
  have hne : scenario1 ≠ [] := by decide
  have h0 : TTrackPoint.time (scenario1.getD 0 TTrackPoint.blank) + TConsts.epsilon / 2
      < (3 : ℚ) := by
    norm_num [scenario1, timePoint, TConsts.epsilon]
  have h1 : (3 : ℚ) < TTrackPoint.time
      (scenario1.getD (scenario1.length - 1) TTrackPoint.blank) - TConsts.epsilon / 2 := by
    norm_num [scenario1, timePoint, TConsts.epsilon]
  ⟨he, hne, h0, h1,
    (binarySearch_clamps.1 ℚ TConsts.epsilon he TTrackPoint.time scenario1 3 hne).2.2 h0 h1⟩

/-- C3 (as stated) fails for an interior value: on the times
`[0, 10 + eps/8, 10 + eps/4, 10 + 3*eps]` the value 10 is interior and the search ends
on the pair `(2, 3)`, but the result `21/11` lies inside no pair `[a, a+1]` that
brackets 10, neither exactly nor up to the tolerance `eps/2`. -/
theorem indexByTime_cluster_outside :
    (TTrackPoint.time (clusterTrack.getD 0 TTrackPoint.blank) + TConsts.epsilon / 2 < 10 ∧
      10 < TTrackPoint.time (clusterTrack.getD 3 TTrackPoint.blank) - TConsts.epsilon / 2) ∧
    (binarySearchFrame TConsts.epsilon TTrackPoint.time clusterTrack 10).1 = 2 ∧
    indexByTime TConsts.epsilon clusterTrack 10 = 21 / 11 ∧
    ¬ ∃ a : Nat,
      ((TTrackPoint.time (clusterTrack.getD a TTrackPoint.blank) ≤ 10 ∧
          10 < TTrackPoint.time (clusterTrack.getD (a + 1) TTrackPoint.blank)) ∨
        (TTrackPoint.time (clusterTrack.getD a TTrackPoint.blank) - 10 ≤ TConsts.epsilon / 2 ∧
          TConsts.epsilon / 2
            < TTrackPoint.time (clusterTrack.getD (a + 1) TTrackPoint.blank) - 10)) ∧
      (a : ℚ) ≤ indexByTime TConsts.epsilon clusterTrack 10 ∧
      indexByTime TConsts.epsilon clusterTrack 10 ≤ (a : ℚ) + 1 := by
  have hfr : binarySearchFrame TConsts.epsilon TTrackPoint.time clusterTrack 10
      = (2, 10 + TConsts.epsilon / 4, 10 + 3 * TConsts.epsilon) := by
    norm_num [binarySearchFrame, binarySearchLoop, clusterTrack, samplePoint,
      TConsts.epsilon]
  have hr : indexByTime TConsts.epsilon clusterTrack 10 = 21 / 11 := by
    rw [indexByTime, binarySearch, hfr]
    norm_num [clusterTrack, samplePoint, TConsts.epsilon]
  refine ⟨?_, by rw [hfr], hr, ?_⟩
  · norm_num [clusterTrack, samplePoint, TConsts.epsilon]
  · rintro ⟨a, hbr, hlo, hhi⟩
    rw [hr] at hlo hhi
    have ha1 : a ≤ 1 := by
      by_contra hcon
      have : (2 : ℚ) ≤ (a : ℚ) := by exact_mod_cast (by omega : 2 ≤ a)
      linarith
    have ha0 : 1 ≤ a := by
      by_contra hcon
      have : a = 0 := by omega
      subst this
      norm_num at hhi
    have ha : a = 1 := by omega
    subst ha
    norm_num [clusterTrack, samplePoint, TConsts.epsilon] at hbr

theorem binarySearchLoop_more_fuel {K : Type} [LinearOrderedField K] (eps : K)
    (field : TTrackPoint K → K) (pts : List (TTrackPoint K)) (value : K)
    (a b : Nat) (aa bb : K) (hab : a ≤ b) (fuel : Nat) (hf : b - a ≤ fuel) :
    ∀ extra : Nat, binarySearchLoop eps field pts value (fuel + extra) a b aa bb
      = binarySearchLoop eps field pts value fuel a b aa bb := by
  intro extra
  induction extra with
  | zero => rfl
  | succ n ih =>
    rw [← Nat.add_assoc, binarySearchLoop_exit eps field pts value (fuel + n) a b aa bb hab
      (by omega), ih]

theorem binarySearchDivisor_ne_zero {K : Type} [LinearOrderedField K] (eps : K)
    (heps : 0 < eps) (field : TTrackPoint K → K) (pts : List (TTrackPoint K)) (value : K)
    (d : K) (h : binarySearchDivisor eps field pts value = some d) : d ≠ 0 := by
  unfold binarySearchDivisor at h
  split_ifs at h with h1 h2 h3
  by_cases h4 : (binarySearchFrame eps field pts value).2.2
      - (binarySearchFrame eps field pts value).2.1 ≥ eps / 2
  · rw [if_pos h4] at h
    simp only [Option.some.injEq] at h
    rw [← h]
    intro hz
    rw [hz] at h4
    linarith
  · rw [if_neg h4] at h
    exact absurd h (by simp)

/-- C4: for every track, whatever the order of its field values, and every value,
`binarySearch` (hence every `indexByField`) returns 0 on an empty track and a number in
`[0, size - 1]` on a non-empty one; its search loop ends within `size` passes (more
passes leave the frame unchanged), and the final division, whenever executed, has a
non-zero divisor. -/
theorem binarySearch_range {K : Type} [LinearOrderedField K] (eps : K) (heps : 0 < eps)
    (field : TTrackPoint K → K) (pts : List (TTrackPoint K)) (value : K) :
    (pts = [] → binarySearch eps field pts value = 0) ∧
    (pts ≠ [] → 0 ≤ binarySearch eps field pts value ∧
      binarySearch eps field pts value ≤ ((pts.length - 1 : Nat) : K)) ∧
    (∀ extra : Nat,
      binarySearchLoop eps field pts value (pts.length + extra) 0 (pts.length - 1)
        (field (pts.getD 0 TTrackPoint.blank))
        (field (pts.getD (pts.length - 1) TTrackPoint.blank))
      = binarySearchFrame eps field pts value) ∧
    (∀ d, binarySearchDivisor eps field pts value = some d → d ≠ 0) := by
  refine ⟨?_, binarySearch_bounds eps heps field pts value, ?_,
    fun d => binarySearchDivisor_ne_zero eps heps field pts value d⟩
  · intro h
    simp [binarySearch, h]
  · intro extra
    exact binarySearchLoop_more_fuel eps field pts value 0 (pts.length - 1) _ _
      (Nat.zero_le _) pts.length (by omega) extra

/-- Witness of C4: on the five-point track with times `[0, 1, 2, 4, 8]` and the value 3
the result of `indexByTime` lies in `[0, 4]`. -/
theorem binarySearch_range_witness :
    (0 : ℚ) < TConsts.epsilon ∧
    (0 ≤ binarySearch TConsts.epsilon TTrackPoint.time scenario1 3 ∧
      binarySearch TConsts.epsilon TTrackPoint.time scenario1 3
        ≤ ((scenario1.length - 1 : Nat) : ℚ)) :=
  ⟨by norm_num [TConsts.epsilon],
   (binarySearch_range (TConsts.epsilon : ℚ) (by norm_num [TConsts.epsilon])
      TTrackPoint.time scenario1 3).2.1 (by decide)⟩

/-- C5: with `eps < 1/2`, the static `interpolationLinear` on track points returns `p0`
itself (final flag included) for `l ≤ eps`, `p1` itself for `l ≥ 1 - eps`, and otherwise
the point whose position, pressure, tilt, original index, time and length are each
`(1 - l)*p0 + l*p1`, with `final = false`. -/
theorem interpolationLinear_cases {K : Type} [LinearOrderedField K] (eps : K)
    (heps : eps < 1 / 2) (p0 p1 : TTrackPoint K) (l : K) :
    (l ≤ eps → TTrackPoint.interpolationLinear eps p0 p1 l = p0) ∧
    (l ≥ 1 - eps → TTrackPoint.interpolationLinear eps p0 p1 l = p1) ∧
    (eps < l → l < 1 - eps →
      TTrackPoint.interpolationLinear eps p0 p1 l =
        { position := ⟨(1 - l) * p0.position.x + l * p1.position.x,
                       (1 - l) * p0.position.y + l * p1.position.y⟩
          pressure := (1 - l) * p0.pressure + l * p1.pressure
          tilt := ⟨(1 - l) * p0.tilt.x + l * p1.tilt.x, (1 - l) * p0.tilt.y + l * p1.tilt.y⟩
          originalIndex := (1 - l) * p0.originalIndex + l * p1.originalIndex
          time := (1 - l) * p0.time + l * p1.time
          length := (1 - l) * p0.length + l * p1.length
          final := false }) := by
  refine ⟨?_, ?_, ?_⟩
  · intro h
    simp [TTrackPoint.interpolationLinear, h]
  · intro h
    have h1 : ¬ l ≤ eps := by
      intro hle
      linarith
    simp [TTrackPoint.interpolationLinear, h1, h]
  · intro h1 h2
    have h1n : ¬ l ≤ eps := not_le.mpr h1
    have h2n : ¬ l ≥ 1 - eps := not_le.mpr h2
    simp only [TTrackPoint.interpolationLinear, if_neg h1n, if_neg h2n,
      TPointD.interpolationLinear, OpenToonz.interpolationLinear, TPointD.add, TPointD.smul]
    simp only [mul_comm]

/-- Witness of C5: the scenario "linear interpolation".  Between the points
(position (0,0), time 0, length 0) and (position (10,0), time 2, length 10) the fraction
`0.5` gives position (5,0), time 1 and length 5, with `final = false`. -/
theorem interpolationLinear_cases_witness :
    (TConsts.epsilon : ℚ) < 1 / 2 ∧
    (TTrackPoint.interpolationLinear TConsts.epsilon scenario2P0 scenario2P1 (1 / 2)).position
      = ⟨5, 0⟩ ∧
    (TTrackPoint.interpolationLinear TConsts.epsilon scenario2P0 scenario2P1 (1 / 2)).time = 1 ∧
    (TTrackPoint.interpolationLinear TConsts.epsilon scenario2P0 scenario2P1 (1 / 2)).length
      = 5 ∧
    (TTrackPoint.interpolationLinear TConsts.epsilon scenario2P0 scenario2P1 (1 / 2)).final
      = false := by
  have h := (interpolationLinear_cases (TConsts.epsilon : ℚ) (by norm_num [TConsts.epsilon])
    scenario2P0 scenario2P1 (1 / 2)).2.2 (by norm_num [TConsts.epsilon])
    (by norm_num [TConsts.epsilon])
  rw [h]
  refine ⟨by norm_num [TConsts.epsilon], ?_, ?_, ?_, rfl⟩ <;>
    norm_num [scenario2P0, scenario2P1, samplePoint]

theorem findBestStep_some {K : Type} [LinearOrderedField K] (m : Metrics K) (eps : K)
    (points : List (TTrackPoint K)) (toScreen : TAffine K) (le : Bool) (bw : WithTop K)
    (b g : TGuideline K) :
    findBestStep m eps points toScreen ⟨le, bw, some b⟩ g =
      if (calcTrackWeight m eps g points toScreen).1 < bw then
        ⟨(calcTrackWeight m eps g points toScreen).2,
         (calcTrackWeight m eps g points toScreen).1, some g⟩
      else ⟨(calcTrackWeight m eps g points toScreen).2, bw, some b⟩ := by
  simp [findBestStep]

theorem findBestStep_none {K : Type} [LinearOrderedField K] (m : Metrics K) (eps : K)
    (points : List (TTrackPoint K)) (toScreen : TAffine K) (le : Bool) (bw : WithTop K)
    (g : TGuideline K) :
    findBestStep m eps points toScreen ⟨le, bw, none⟩ g =
      ⟨(calcTrackWeight m eps g points toScreen).2,
       (calcTrackWeight m eps g points toScreen).1, some g⟩ := by
  simp [findBestStep]

theorem findBest_foldl_some {K : Type} [LinearOrderedField K] (m : Metrics K) (eps : K)
    (points : List (TTrackPoint K)) (toScreen : TAffine K) :
    ∀ (G : List (TGuideline K)) (le : Bool) (bw : WithTop K) (b : TGuideline K),
      ((G.foldl (findBestStep m eps points toScreen) ⟨le, bw, some b⟩).best = some b ∧
        ∀ g ∈ G, bw ≤ (calcTrackWeight m eps g points toScreen).1) ∨
      (∃ (k : Nat) (g : TGuideline K), G[k]? = some g ∧
        (G.foldl (findBestStep m eps points toScreen) ⟨le, bw, some b⟩).best = some g ∧
        (calcTrackWeight m eps g points toScreen).1 < bw ∧
        (∀ h ∈ G, (calcTrackWeight m eps g points toScreen).1
          ≤ (calcTrackWeight m eps h points toScreen).1) ∧
        (∀ (j : Nat) (h : TGuideline K), j < k → G[j]? = some h →
          (calcTrackWeight m eps g points toScreen).1
          < (calcTrackWeight m eps h points toScreen).1)) := by
  intro G
  induction G with
  | nil =>
    intro le bw b
    left
    simp
  | cons g0 rest ih =>
    intro le bw b
    rw [List.foldl_cons, findBestStep_some]
    by_cases hlt : (calcTrackWeight m eps g0 points toScreen).1 < bw
    · rw [if_pos hlt]
      right
      rcases ih (calcTrackWeight m eps g0 points toScreen).2
          (calcTrackWeight m eps g0 points toScreen).1 g0 with
        ⟨hb, hall⟩ | ⟨k, g, hk, hb, hw, hall, hbefore⟩
      · refine ⟨0, g0, by simp, hb, hlt, ?_, ?_⟩
        · intro h hh
          rcases List.mem_cons.mp hh with rfl | hh
          · exact le_refl _
          · exact hall h hh
        · intro j h hj
          omega
      · refine ⟨k + 1, g, by simpa using hk, hb, lt_trans hw hlt, ?_, ?_⟩
        · intro h hh
          rcases List.mem_cons.mp hh with rfl | hh
          · exact le_of_lt hw
          · exact hall h hh
        · intro j h hj hjh
          cases j with
          | zero =>
            simp at hjh
            rw [← hjh]
            exact hw
          | succ j =>
            simp at hjh
            exact hbefore j h (by omega) hjh
    · rw [if_neg hlt]
      have hge := not_lt.mp hlt
      rcases ih (calcTrackWeight m eps g0 points toScreen).2 bw b with
        ⟨hb, hall⟩ | ⟨k, g, hk, hb, hw, hall, hbefore⟩
      · left
        refine ⟨hb, ?_⟩
        intro h hh
        rcases List.mem_cons.mp hh with rfl | hh
        · exact hge
        · exact hall h hh
      · right
        refine ⟨k + 1, g, by simpa using hk, hb, hw, ?_, ?_⟩
        · intro h hh
          rcases List.mem_cons.mp hh with rfl | hh
          · exact le_of_lt (lt_of_lt_of_le hw hge)
          · exact hall h hh
        · intro j h hj hjh
          cases j with
          | zero =>
            simp at hjh
            rw [← hjh]
            exact lt_of_lt_of_le hw hge
          | succ j =>
            simp at hjh
            exact hbefore j h (by omega) hjh

theorem findBest_nonempty {K : Type} [LinearOrderedField K] (m : Metrics K) (eps : K)
    (points : List (TTrackPoint K)) (toScreen : TAffine K) (G : List (TGuideline K))
    (hne : G ≠ []) :
    ∃ (k : Nat) (g : TGuideline K), G[k]? = some g ∧
      (findBest m eps G points toScreen).1 = some g ∧
      (∀ h ∈ G, (calcTrackWeight m eps g points toScreen).1
        ≤ (calcTrackWeight m eps h points toScreen).1) ∧
      (∀ (j : Nat) (h : TGuideline K), j < k → G[j]? = some h →
          (calcTrackWeight m eps g points toScreen).1
        < (calcTrackWeight m eps h points toScreen).1) := by
  cases G with
  | nil => exact absurd rfl hne
  | cons g0 rest =>
    simp only [findBest, List.foldl_cons, findBestStep_none]
    rcases findBest_foldl_some m eps points toScreen rest
        (calcTrackWeight m eps g0 points toScreen).2
        (calcTrackWeight m eps g0 points toScreen).1 g0 with
      ⟨hb, hall⟩ | ⟨k, g, hk, hb, hw, hall, hbefore⟩
    · refine ⟨0, g0, by simp, hb, ?_, ?_⟩
      · intro h hh
        rcases List.mem_cons.mp hh with rfl | hh
        · exact le_refl _
        · exact hall h hh
      · intro j h hj
        omega
    · refine ⟨k + 1, g, by simpa using hk, hb, ?_, ?_⟩
      · intro h hh
        rcases List.mem_cons.mp hh with rfl | hh
        · exact le_of_lt hw
        · exact hall h hh
      · intro j h hj hjh
        cases j with
        | zero =>
          simp at hjh
          rw [← hjh]
          exact hw
        | succ j =>
          simp at hjh
          exact hbefore j h (by omega) hjh

/-- C6: for an empty guideline list `findBest` returns null; for a non-empty list it
returns the guideline at the first position `k` whose `calcTrackWeight` is the minimum
over the list (every earlier guideline weighs strictly more), and when every weight is
`+infinity` it still returns a guideline, the first one. -/
theorem findBest_earliest_minimum {K : Type} [LinearOrderedField K] (m : Metrics K)
    (eps : K) (points : List (TTrackPoint K)) (toScreen : TAffine K)
    (G : List (TGuideline K)) :
    (G = [] → (findBest m eps G points toScreen).1 = none) ∧
    (G ≠ [] → ∃ (k : Nat) (g : TGuideline K), G[k]? = some g ∧
      (findBest m eps G points toScreen).1 = some g ∧
      (∀ h ∈ G, (calcTrackWeight m eps g points toScreen).1
        ≤ (calcTrackWeight m eps h points toScreen).1) ∧
      (∀ (j : Nat) (h : TGuideline K), j < k → G[j]? = some h →
          (calcTrackWeight m eps g points toScreen).1
        < (calcTrackWeight m eps h points toScreen).1)) ∧
    (G ≠ [] → (∀ h ∈ G, (calcTrackWeight m eps h points toScreen).1 = ⊤) →
      (findBest m eps G points toScreen).1 = G.head?) := by
  refine ⟨?_, findBest_nonempty m eps points toScreen G, ?_⟩
  · intro h
    subst h
    rfl
  · intro hne htop
    obtain ⟨k, g, hk, hb, -, hbefore⟩ := findBest_nonempty m eps points toScreen G hne
    have hk0 : k = 0 := by
      by_contra hk0
      cases G with
      | nil => exact absurd rfl hne
      | cons g0 rest =>
        have h := hbefore 0 g0 (by omega) (by simp)
        rw [htop g0 (by simp), htop g (List.getElem?_mem hk)] at h
        exact absurd h (lt_irrefl _)
    subst hk0
    rw [hb, ← hk]
    cases G with
    | nil => exact absurd rfl hne
    | cons g0 rest => simp

/-- Witness of C6: on a one-point track every weight is `+infinity`; out of the base
guideline listed twice, `findBest` still returns a guideline, the head of the list. -/
theorem findBest_earliest_minimum_witness :
    ([TGuideline.base, TGuideline.base] : List (TGuideline ℝ)) ≠ [] ∧
    (∀ h ∈ ([TGuideline.base, TGuideline.base] : List (TGuideline ℝ)),
      (calcTrackWeight realMetrics TConsts.epsilon h [TTrackPoint.blank]
        TAffine.identity).1 = ⊤) ∧
    (findBest realMetrics TConsts.epsilon [TGuideline.base, TGuideline.base]
        [TTrackPoint.blank] TAffine.identity).1
      = ([TGuideline.base, TGuideline.base] : List (TGuideline ℝ)).head? :=
  have hne : ([TGuideline.base, TGuideline.base] : List (TGuideline ℝ)) ≠ [] := by simp
  have htop : ∀ h ∈ ([TGuideline.base, TGuideline.base] : List (TGuideline ℝ)),
      (calcTrackWeight realMetrics TConsts.epsilon h [TTrackPoint.blank]
        TAffine.identity).1 = ⊤ := by
    intro h _
    simp [calcTrackWeight]
  ⟨hne, htop,
    (findBest_earliest_minimum realMetrics TConsts.epsilon [TTrackPoint.blank]
      TAffine.identity [TGuideline.base, TGuideline.base]).2.2 hne htop⟩

theorem calcTrackWeightStep_geometry {K : Type} [LinearOrderedField K] (m : Metrics K)
    (eps : K) (g : TGuideline K) (toScreen : TAffine K) (s : WeightSums K)
    (tp : TTrackPoint K) :
    (calcTrackWeightStep m eps g toScreen s tp).sumLength
        = s.sumLength + m.tdistance (toScreen.apply tp.position) s.prev ∧
    (calcTrackWeightStep m eps g toScreen s tp).prev = toScreen.apply tp.position ∧
    (calcTrackWeightStep m eps g toScreen s tp).longEnough = s.longEnough := by
  unfold calcTrackWeightStep
  simp only
  split_ifs <;> exact ⟨rfl, rfl, rfl⟩

theorem calcTrackWeightLoop_longEnough {K : Type} [LinearOrderedField K] (m : Metrics K)
    (eps : K) (g : TGuideline K) (toScreen : TAffine K) :
    ∀ (pts : List (TTrackPoint K)) (s : WeightSums K), s.longEnough = false →
      ((calcTrackWeightLoop m eps g toScreen pts s).longEnough = true ↔
        ∃ L ∈ arcLengthsFrom m toScreen s.prev s.sumLength pts, maxLength ≤ L) := by
  intro pts
  induction pts with
  | nil =>
    intro s hs
    simp [calcTrackWeightLoop, arcLengthsFrom, hs]
  | cons tp rest ih =>
    intro s hs
    obtain ⟨h1, h2, h3⟩ := calcTrackWeightStep_geometry m eps g toScreen s tp
    simp only [calcTrackWeightLoop, arcLengthsFrom]
    by_cases hge : (calcTrackWeightStep m eps g toScreen s tp).sumLength ≥ maxLength
    · rw [if_pos hge]
      simp only [true_iff]
      exact ⟨_, List.mem_cons_self _ _, by rw [← h1]; exact hge⟩
    · rw [if_neg hge, ih _ (by rw [h3, hs]), h1, h2]
      constructor
      · rintro ⟨L, hL, hmax⟩
        exact ⟨L, List.mem_cons_of_mem _ hL, hmax⟩
      · rintro ⟨L, hL, hmax⟩
        rcases List.mem_cons.mp hL with rfl | hL
        · rw [h1] at hge
          exact absurd hmax hge
        · exact ⟨L, hL, hmax⟩

theorem pointAt_zero_cons {K : Type} [LinearOrderedField K] (p0 : TTrackPoint K)
    (rest : List (TTrackPoint K)) : pointAt (p0 :: rest) 0 = p0 := by
  have h : (clampIndex (p0 :: rest).length 0).toNat = 0 := by
    simp [clampIndex]
  unfold pointAt
  rw [h]
  simp

theorem calcTrackWeight_longEnough_iff {K : Type} [LinearOrderedField K] (m : Metrics K)
    (hd : ∀ p, m.tdistance p p = 0) (eps : K) (g : TGuideline K)
    (points : List (TTrackPoint K)) (toScreen : TAffine K) :
    (calcTrackWeight m eps g points toScreen).2 = true ↔
      2 ≤ points.length ∧ ∃ L ∈ screenArcLengths m toScreen points, maxLength ≤ L := by
  unfold calcTrackWeight
  by_cases hlen : points.length < 2
  · rw [if_pos hlen]
    simp
    intro h
    omega
  · rw [if_neg hlen]
    have h2 : 2 ≤ points.length := by omega
    cases points with
    | nil => simp at h2
    | cons p0 rest =>
      simp only [calcTrackWeightSums, pointAt_zero_cons]
      rw [calcTrackWeightLoop_longEnough m eps g toScreen _ _ rfl]
      simp only [arcLengthsFrom, screenArcLengths, hd, add_zero]
      exact ⟨fun h => ⟨h2, h⟩, fun h => h.2⟩

theorem calcTrackWeightLoop_independent {K : Type} [LinearOrderedField K] (m : Metrics K)
    (eps : K) (g g' : TGuideline K) (toScreen : TAffine K) :
    ∀ (pts : List (TTrackPoint K)) (s s' : WeightSums K),
      s.sumLength = s'.sumLength → s.prev = s'.prev → s.longEnough = s'.longEnough →
      (calcTrackWeightLoop m eps g toScreen pts s).longEnough
        = (calcTrackWeightLoop m eps g' toScreen pts s').longEnough := by
  intro pts
  induction pts with
  | nil =>
    intro s s' _ _ h
    simpa [calcTrackWeightLoop] using h
  | cons tp rest ih =>
    intro s s' hl hp hf
    obtain ⟨h1, h2, h3⟩ := calcTrackWeightStep_geometry m eps g toScreen s tp
    obtain ⟨h1', h2', h3'⟩ := calcTrackWeightStep_geometry m eps g' toScreen s' tp
    have hsl : (calcTrackWeightStep m eps g toScreen s tp).sumLength
        = (calcTrackWeightStep m eps g' toScreen s' tp).sumLength := by
      rw [h1, h1', hl, hp]
    simp only [calcTrackWeightLoop]
    rw [hsl]
    by_cases hge : (calcTrackWeightStep m eps g' toScreen s' tp).sumLength ≥ maxLength
    · rw [if_pos hge, if_pos hge]
    · rw [if_neg hge, if_neg hge]
      exact ih _ _ hsl (by rw [h2, h2']) (by rw [h3, h3', hf])

theorem calcTrackWeight_longEnough_independent {K : Type} [LinearOrderedField K]
    (m : Metrics K) (eps : K) (g g' : TGuideline K) (points : List (TTrackPoint K))
    (toScreen : TAffine K) :
    (calcTrackWeight m eps g points toScreen).2
      = (calcTrackWeight m eps g' points toScreen).2 := by
  unfold calcTrackWeight
  by_cases hlen : points.length < 2
  · rw [if_pos hlen, if_pos hlen]
  · rw [if_neg hlen, if_neg hlen]
    exact calcTrackWeightLoop_independent m eps g g' toScreen points _ _ rfl rfl rfl

theorem findBest_foldl_longEnough {K : Type} [LinearOrderedField K] (m : Metrics K)
    (eps : K) (points : List (TTrackPoint K)) (toScreen : TAffine K) :
    ∀ (G : List (TGuideline K)) (s : BestState K), G ≠ [] →
      (G.foldl (findBestStep m eps points toScreen) s).longEnough
        = (calcTrackWeight m eps TGuideline.base points toScreen).2 := by
  intro G
  induction G with
  | nil => intro s h; exact absurd rfl h
  | cons g rest ih =>
    intro s _
    rw [List.foldl_cons]
    cases rest with
    | nil =>
      simp only [List.foldl_nil]
      unfold findBestStep
      simp only
      split_ifs <;>
        exact calcTrackWeight_longEnough_independent m eps g TGuideline.base points toScreen
    | cons g1 rest1 => exact ih _ (by simp)

theorem any_longEnough {K : Type} [LinearOrderedField K] (m : Metrics K)
    (eps : K) (points : List (TTrackPoint K)) (toScreen : TAffine K)
    (G : List (TGuideline K)) (hne : G ≠ []) :
    G.any (fun g => (calcTrackWeight m eps g points toScreen).2)
      = (calcTrackWeight m eps TGuideline.base points toScreen).2 := by
  have hfun : (fun g => (calcTrackWeight m eps g points toScreen).2)
      = fun _ => (calcTrackWeight m eps TGuideline.base points toScreen).2 := by
    funext g
    exact calcTrackWeight_longEnough_independent m eps g TGuideline.base points toScreen
  rw [hfun]
  cases G with
  | nil => exact absurd rfl hne
  | cons g rest =>
    cases h : (calcTrackWeight m eps TGuideline.base points toScreen).2 <;> simp

/-- C7 (as amended): for a non-empty guideline list the `outLongEnough` value of
`findBest` equals the logical OR, over the guidelines of the list, of the
`outLongEnough` value of their `calcTrackWeight`; for the empty list it is `true`. -/
theorem findBest_longEnough {K : Type} [LinearOrderedField K] (m : Metrics K)
    (eps : K) (points : List (TTrackPoint K)) (toScreen : TAffine K)
    (G : List (TGuideline K)) :
    (G ≠ [] → (findBest m eps G points toScreen).2
      = G.any (fun g => (calcTrackWeight m eps g points toScreen).2)) ∧
    (G = [] → (findBest m eps G points toScreen).2 = true) := by
  constructor
  · intro hne
    rw [any_longEnough m eps points toScreen G hne]
    exact findBest_foldl_longEnough m eps points toScreen G _ hne
  · intro h
    subst h
    rfl

/-- Witness of C7 (as amended): the list holding the base guideline twice, on the track
of the scenario "guideline scoring". -/
theorem findBest_longEnough_witness :
    ([TGuideline.base, TGuideline.base] : List (TGuideline ℝ)) ≠ [] ∧
    (findBest realMetrics TConsts.epsilon [TGuideline.base, TGuideline.base] scenario4
        TAffine.identity).2
      = ([TGuideline.base, TGuideline.base] : List (TGuideline ℝ)).any
          (fun g => (calcTrackWeight realMetrics TConsts.epsilon g scenario4
            TAffine.identity).2) :=
  ⟨by simp, (findBest_longEnough realMetrics TConsts.epsilon scenario4 TAffine.identity
    [TGuideline.base, TGuideline.base]).1 (by simp)⟩

/-- C7 (as stated) fails on the empty guideline list: `findBest` leaves `outLongEnough`
at its initial value `true`, while the OR over no guideline is `false`. -/
theorem findBest_longEnough_empty :
    (findBest realMetrics TConsts.epsilon [] scenario4 TAffine.identity).2 = true ∧
    ([] : List (TGuideline ℝ)).any
      (fun g => (calcTrackWeight realMetrics TConsts.epsilon g scenario4
        TAffine.identity).2) = false ∧
    ¬ ((findBest realMetrics TConsts.epsilon [] scenario4 TAffine.identity).2
        = ([] : List (TGuideline ℝ)).any
          (fun g => (calcTrackWeight realMetrics TConsts.epsilon g scenario4
            TAffine.identity).2)) := by
  refine ⟨rfl, rfl, ?_⟩
  simp [findBest]

theorem arcLengthsFrom_le {K : Type} [LinearOrderedField K] (m : Metrics K)
    (toScreen : TAffine K) (c : K) (hc : 0 ≤ c) :
    ∀ (pts : List (TTrackPoint K)) (prev : TPointD K) (len : K),
      List.Chain (fun a b => m.tdistance b a ≤ c) prev
        (pts.map (fun tp => toScreen.apply tp.position)) →
      ∀ L ∈ arcLengthsFrom m toScreen prev len pts, L ≤ len + (pts.length : K) * c := by
  intro pts
  induction pts with
  | nil =>
    intro prev len _ L hL
    simp [arcLengthsFrom] at hL
  | cons tp rest ih =>
    intro prev len hch L hL
    rw [List.map_cons, List.chain_cons] at hch
    obtain ⟨hd, hrest⟩ := hch
    have hlen : (((tp :: rest).length : Nat) : K) = (rest.length : K) + 1 := by
      simp
    have hnn : (0 : K) ≤ (rest.length : K) * c := mul_nonneg (Nat.cast_nonneg _) hc
    rw [hlen]
    simp only [arcLengthsFrom, List.mem_cons] at hL
    rcases hL with rfl | hL
    · nlinarith
    · have := ih _ _ hrest L hL
      nlinarith

theorem scenario4_step (i : Nat) :
    realMetrics.tdistance (TAffine.identity.apply (scenario4Point (i + 1)).position)
      (TAffine.identity.apply (scenario4Point i).position) ≤ 2 := by
  simp only [realMetrics, TAffine.identity, TAffine.apply, scenario4Point]
  rw [Real.sqrt_le_iff]
  refine ⟨by norm_num, ?_⟩
  have h1 := Real.sin_le_one ((i + 1 : Nat) : ℝ)
  have h2 := Real.neg_one_le_sin ((i + 1 : Nat) : ℝ)
  have h3 := Real.sin_le_one (i : ℝ)
  have h4 := Real.neg_one_le_sin (i : ℝ)
  have hx : (1 * ((i + 1 : Nat) : ℝ) + 0 * (Real.sin ((i + 1 : Nat) : ℝ) / 100) + 0
      - (1 * (i : ℝ) + 0 * (Real.sin (i : ℝ) / 100) + 0)) = 1 := by
    push_cast
    ring
  have hy : (0 * ((i + 1 : Nat) : ℝ) + 1 * (Real.sin ((i + 1 : Nat) : ℝ) / 100) + 0
      - (0 * (i : ℝ) + 1 * (Real.sin (i : ℝ) / 100) + 0))
      = (Real.sin ((i + 1 : Nat) : ℝ) - Real.sin (i : ℝ)) / 100 := by
    ring
  rw [hx, hy]
  have hsq : (Real.sin ((i + 1 : Nat) : ℝ) - Real.sin (i : ℝ)) ^ 2 ≤ 2 ^ 2 :=
    sq_le_sq' (by linarith) (by linarith)
  nlinarith

theorem scenario4_chain :
    ∀ (n i : Nat), List.Chain (fun a b => realMetrics.tdistance b a ≤ 2)
      (TAffine.identity.apply (scenario4Point i).position)
      ((scenario4From n (i + 1)).map (fun tp => TAffine.identity.apply tp.position)) := by
  intro n
  induction n with
  | zero =>
    intro i
    simp [scenario4From]
  | succ k ih =>
    intro i
    simp only [scenario4From, List.map_cons, List.chain_cons]
    exact ⟨scenario4_step i, ih (i + 1)⟩

theorem scenario4_arc_lt :
    ∀ L ∈ screenArcLengths realMetrics TAffine.identity scenario4, L < 40 := by
  intro L hL
  have hs : scenario4 = scenario4Point 0 :: scenario4From 19 1 := rfl
  rw [hs] at hL
  simp only [screenArcLengths, List.mem_cons] at hL
  rcases hL with rfl | hL
  · norm_num
  · have h := arcLengthsFrom_le realMetrics TAffine.identity 2 (by norm_num)
      (scenario4From 19 1) _ 0 (scenario4_chain 19 0) L hL
    have hlen : (scenario4From 19 1).length = 19 := by
      simp [scenario4From]
    rw [hlen] at h
    norm_num at h
    linarith

theorem realMetrics_self (p : TPointD ℝ) : realMetrics.tdistance p p = 0 := by
  simp [realMetrics]

theorem scenario4_not_longEnough (g : TGuideline ℝ) :
    (calcTrackWeight realMetrics TConsts.epsilon g scenario4 TAffine.identity).2 = false := by
  cases h : (calcTrackWeight realMetrics TConsts.epsilon g scenario4 TAffine.identity).2
  · rfl
  · rw [calcTrackWeight_longEnough_iff realMetrics realMetrics_self] at h
    obtain ⟨-, L, hL, hmax⟩ := h
    have := scenario4_arc_lt L hL
    norm_num [maxLength, snapLenght, snapScale] at hmax
    linarith

/-- C9 (as amended): `calcTrackWeight` sets `outLongEnough` to true if and only if the
track has at least two points and its cumulative screen-space arc length reaches
`2*snapLenght*snapScale = 40` at some point; the value does not depend on the guideline.
For the 20 points `(i, 0.01*sin i)` of the scenario "guideline scoring", given in screen
units, the arc length stays below 40 at every point and `outLongEnough` is false. -/
theorem calcTrackWeight_longEnough :
    (∀ (K : Type) [LinearOrderedField K] (m : Metrics K), (∀ p, m.tdistance p p = 0) →
      ∀ (eps : K) (g g' : TGuideline K) (points : List (TTrackPoint K))
        (toScreen : TAffine K),
        ((calcTrackWeight m eps g points toScreen).2 = true ↔
          2 ≤ points.length ∧
            ∃ L ∈ screenArcLengths m toScreen points, (40 : K) ≤ L) ∧
        (calcTrackWeight m eps g points toScreen).2
          = (calcTrackWeight m eps g' points toScreen).2) ∧
    (∀ L ∈ screenArcLengths realMetrics TAffine.identity scenario4, L < 40) ∧
    (∀ g : TGuideline ℝ,
      (calcTrackWeight realMetrics TConsts.epsilon g scenario4 TAffine.identity).2
        = false) := by
  refine ⟨?_, scenario4_arc_lt, scenario4_not_longEnough⟩
  intro K _ m hd eps g g' points toScreen
  refine ⟨?_, calcTrackWeight_longEnough_independent m eps g g' points toScreen⟩
  have h := calcTrackWeight_longEnough_iff m hd eps g points toScreen
  have h40 : (maxLength : K) = 40 := by
    norm_num [maxLength, snapLenght, snapScale]
  rw [h40] at h
  exact h

/-- Witness of C9 (as amended): with the Euclidean distance, the base guideline and the
identity map, a two-point track from (0,0) to (50,0) has arc length 50 at its second
point, and `outLongEnough` is true. -/
theorem calcTrackWeight_longEnough_witness :
    (∀ p, realMetrics.tdistance p p = 0) ∧
    (calcTrackWeight realMetrics TConsts.epsilon TGuideline.base
      [TTrackPoint.blank, { (TTrackPoint.blank : TTrackPoint ℝ) with position := ⟨50, 0⟩ }]
      TAffine.identity).2 = true := by
  refine ⟨realMetrics_self, ?_⟩
  rw [(calcTrackWeight_longEnough.1 ℝ realMetrics realMetrics_self TConsts.epsilon
    TGuideline.base TGuideline.base _ TAffine.identity).1]
  refine ⟨by simp, ?_⟩
  simp only [screenArcLengths, arcLengthsFrom, realMetrics, TAffine.identity, TAffine.apply,
    TTrackPoint.blank, TPointD.zero]
  refine ⟨_, List.mem_cons_of_mem _ (List.mem_cons_self _ _), ?_⟩
  have h : Real.sqrt ((1 * (50 : ℝ) + 0 * 0 + 0 - (1 * 0 + 0 * 0 + 0)) ^ 2
      + (0 * (50 : ℝ) + 1 * 0 + 0 - (0 * 0 + 1 * 0 + 0)) ^ 2) = 50 := by
    rw [Real.sqrt_eq_iff_mul_self_eq] <;> norm_num
  rw [h]
  norm_num

/-- C9 (as stated) fails at its own witness: for the 20 points `(i, 0.01*sin i)` of the
scenario "guideline scoring", taken in screen units, `calcTrackWeight` leaves
`outLongEnough` false (the arc length is below 40), not true. -/
theorem scenario4_longEnough_false :
    ¬ ((calcTrackWeight realMetrics TConsts.epsilon TGuideline.base scenario4
      TAffine.identity).2 = true) := by
  rw [scenario4_not_longEnough]
  simp

theorem getLastD_set_last {α : Type} (d x : α) :
    ∀ l : List α, l ≠ [] → (l.set (l.length - 1) x).getLastD d = x := by
  intro l
  induction l with
  | nil => intro h; exact absurd rfl h
  | cons a rest ih =>
    intro _
    cases rest with
    | nil => rfl
    | cons b rest2 =>
      have h := ih (by simp)
      simp only [List.length_cons, Nat.add_sub_cancel] at h ⊢
      rw [List.set_cons_succ]
      cases hs : (b :: rest2).set rest2.length x with
      | nil =>
        have hl := congrArg List.length hs
        simp at hl
      | cons c rest3 =>
        rw [hs] at h
        simpa [List.getLastD] using h

theorem mem_subTracks_setSubTracks {K : Type} (m : TInputManager K) (l : List (TTrack K))
    (track : TTrack K) (h : track ∈ (m.setSubTracks l).subTracks) : track ∈ l := by
  unfold TInputManager.setSubTracks TInputManager.subTracks at h
  simp only at h
  by_cases hne : m.tracks = []
  · rw [hne] at h
    simp at h
  · rw [getLastD_set_last [] l m.tracks hne] at h
    exact h

theorem getLastD_map_nil {α β : Type} :
    ∀ l : List α, (l.map (fun _ => ([] : List β))).getLastD [] = [] := by
  intro l
  induction l with
  | nil => rfl
  | cons a rest ih =>
    cases rest with
    | nil => rfl
    | cons b rest2 => simpa [List.getLastD] using ih

theorem sendToTool_counters {K : Type} (m : TInputManager K) :
    ∀ track ∈ (sendToTool m).subTracks, track.pointsAdded = 0 ∧ track.pointsRemoved = 0 := by
  intro track h
  unfold sendToTool at h
  have h2 := mem_subTracks_setSubTracks _ _ track h
  rw [List.mem_map] at h2
  obtain ⟨t0, -, rfl⟩ := h2
  exact ⟨rfl, rfl⟩

theorem finishPaint_counters {K : Type} (tool : TTool K) (allFinished : Bool)
    (sp : TInputSavePoint) (m : TInputManager K)
    (hm : ∀ track ∈ m.subTracks, track.pointsAdded = 0 ∧ track.pointsRemoved = 0) :
    ∀ track ∈ (finishPaint tool allFinished sp m).subTracks,
      track.pointsAdded = 0 ∧ track.pointsRemoved = 0 := by
  intro track h
  unfold finishPaint at h
  cases allFinished with
  | true =>
    simp only [if_true, TInputManager.subTracks] at h
    rw [getLastD_map_nil] at h
    simp at h
  | false =>
    simp only [Bool.false_eq_true, if_false] at h
    exact hm track h

theorem paintTracksLoop_counters {K : Type} (tool : TTool K) (allFinished : Bool) :
    ∀ (passes : List (ModifierPass K)) (m m' : TInputManager K),
      paintTracksLoop tool allFinished passes m = some m' →
      ∀ track ∈ m'.subTracks, track.pointsAdded = 0 ∧ track.pointsRemoved = 0 := by
  intro passes
  induction passes with
  | nil =>
    intro m m' h
    simp [paintTracksLoop] at h
  | cons pass rest ih =>
    intro m m' h
    simp only [paintTracksLoop] at h
    by_cases hdone : (paintTracksPass tool allFinished pass m).2 = true
    · rw [if_pos hdone] at h
      simp only [Option.some.injEq] at h
      rw [← h]
      unfold paintTracksPass at hdone ⊢
      simp only at hdone ⊢
      by_cases hfree : pass.newFree = true
      · rw [if_pos hfree]
        exact finishPaint_counters tool allFinished _ _ (sendToTool_counters _)
      · rw [if_neg hfree] at hdone
        simp at hdone
    · rw [if_neg hdone] at h
      exact ih _ _ h

theorem paintTracksPass_done {K : Type} (tool : TTool K) (allFinished : Bool)
    (pass : ModifierPass K) (m : TInputManager K) :
    (paintTracksPass tool allFinished pass m).2 = pass.newFree := by
  unfold paintTracksPass
  simp only
  cases pass.newFree <;> simp

theorem paintTracksLoop_returns_iff {K : Type} (tool : TTool K) (allFinished : Bool) :
    ∀ (passes : List (ModifierPass K)) (m : TInputManager K),
      (paintTracksLoop tool allFinished passes m).isSome = true ↔
        ∃ pass ∈ passes, pass.newFree = true := by
  intro passes
  induction passes with
  | nil =>
    intro m
    simp [paintTracksLoop]
  | cons pass rest ih =>
    intro m
    simp only [paintTracksLoop, paintTracksPass_done]
    cases hfree : pass.newFree with
    | true => simp [hfree]
    | false =>
      simp only [Bool.false_eq_true, if_false, List.mem_cons]
      rw [ih]
      constructor
      · rintro ⟨p, hp, hpf⟩
        exact ⟨p, Or.inr hp, hpf⟩
      · rintro ⟨p, hp | hp, hpf⟩
        · rw [hp, hfree] at hpf
          exact absurd hpf (by simp)
        · exact ⟨p, hp, hpf⟩

theorem paintTracks_returns_iff {K : Type} (tool : TTool K)
    (passes : List (ModifierPass K)) (m : TInputManager K) :
    (paintTracks tool passes m).isSome = true ↔ ∃ pass ∈ passes, pass.newFree = true :=
  paintTracksLoop_returns_iff tool _ passes m

/-- C10: whenever `paintTracks` returns, whatever the modifiers and the tool did, every
track of the final-level list `m_tracks.back()` has `pointsAdded = 0` and
`pointsRemoved = 0`.  (It returns exactly when some pass leaves the fresh save point
free, `paintTracks_returns_iff`.) -/
theorem paintTracks_counters_reset {K : Type} (tool : TTool K)
    (passes : List (ModifierPass K)) (m m' : TInputManager K)
    (h : paintTracks tool passes m = some m') :
    ∀ track ∈ m'.subTracks, track.pointsAdded = 0 ∧ track.pointsRemoved = 0 :=
  paintTracksLoop_counters tool _ passes m m' h

/-- Witness of C10: a manager holding one open track of three points, all three still to
deliver.  The fresh save point is retained in the first pass (a checkpoint is pushed) and
free in the second, so `paintTracks` returns after two passes; the output list still
holds the track, and both counters are 0. -/
theorem paintTracks_counters_reset_witness :
    ∃ m', paintTracks obligingTool [holdPass, freePass] oneTrackManager = some m' ∧
      m'.subTracks.length = 1 ∧
      ∀ track ∈ m'.subTracks, track.pointsAdded = 0 ∧ track.pointsRemoved = 0 :=
  ⟨_, rfl, rfl,
    paintTracks_counters_reset obligingTool [holdPass, freePass] oneTrackManager _ rfl⟩

theorem subTracks_setSubTracks_map {K : Type} (m : TInputManager K)
    (f : TTrack K → TTrack K) :
    (m.setSubTracks (m.subTracks.map f)).subTracks = m.subTracks.map f := by
  unfold TInputManager.setSubTracks TInputManager.subTracks
  simp only
  by_cases hne : m.tracks = []
  · rw [hne]
    rfl
  · rw [getLastD_set_last [] _ m.tracks hne]

theorem subTracks_of_tracks_eq {K : Type} (m m' : TInputManager K)
    (h : m'.tracks = m.tracks) : m'.subTracks = m.subTracks := by
  unfold TInputManager.subTracks
  rw [h]

/-- C11: after `reset()` (and `onToolSwitched`, which only calls it), from any state,
every level's track list is empty, the save-point stack is empty, `savePointsSent = 0`,
every save point that was on the stack has been marked `available = false`, and the
number of levels and the modifier chain are unchanged. -/
theorem reset_clears {K : Type} (m : TInputManager K) :
    (∀ l ∈ (reset m).tracks, l = []) ∧
    (reset m).savePoints = [] ∧
    (reset m).savePointsSent = 0 ∧
    (reset m).discarded
      = m.discarded ++ m.savePoints.map (fun s => { s with available := false }) ∧
    (∀ s ∈ m.savePoints, ∃ s' ∈ (reset m).discarded, s'.id = s.id ∧ s'.available = false) ∧
    (reset m).tracks.length = m.tracks.length ∧
    (reset m).modifiers = m.modifiers ∧
    onToolSwitched m = reset m := by
  refine ⟨?_, rfl, rfl, rfl, ?_, ?_, rfl, rfl⟩
  · intro l hl
    simp only [reset, List.mem_map] at hl
    obtain ⟨_, _, rfl⟩ := hl
    rfl
  · intro s hs
    refine ⟨{ s with available := false }, ?_, rfl, rfl⟩
    simp only [reset, List.mem_append, List.mem_map]
    exact Or.inr ⟨s, hs, rfl⟩
  · simp [reset]

theorem paintApply_stack {K : Type} (tool : TTool K) (count : Int) (m : TInputManager K)
    (hc : 0 < count) :
    (paintApply tool count m).savePoints
      = m.savePoints.take ((m.savePoints.length : Int) - count).toNat ∧
    (paintApply tool count m).savePointsSent
      = min m.savePointsSent ((m.savePoints.length : Int) - count) := by
  have hn : ¬ count ≤ 0 := by omega
  unfold paintApply
  simp only [if_neg hn, TInputManager.dropSavePoints, TInputManager.setSubTracks]
  refine ⟨?_, ?_⟩
  · split_ifs <;> rfl
  · by_cases hl : (m.savePoints.length : Int) - count < m.savePointsSent
    · simp only [if_pos hl]
      split_ifs with h2
      · simp only
        omega
      · simp only at h2 ⊢
        omega
    · simp only [if_neg hl]
      omega

theorem paintApply_calls {K : Type} (tool : TTool K) (count : Int) (m : TInputManager K)
    (hc : 0 < count) :
    (paintApply tool count m).calls = m.calls ++
      (if (m.savePoints.length : Int) - count < m.savePointsSent then
        [ToolCall.paintApply (m.savePointsSent - ((m.savePoints.length : Int) - count))] ++
          (if max 0 (min (m.savePointsSent - ((m.savePoints.length : Int) - count))
                (tool.paintApply m.calls
                  (m.savePointsSent - ((m.savePoints.length : Int) - count))))
              < m.savePointsSent - ((m.savePoints.length : Int) - count) then
            [ToolCall.paintPop (m.savePointsSent - ((m.savePoints.length : Int) - count)
              - max 0 (min (m.savePointsSent - ((m.savePoints.length : Int) - count))
                  (tool.paintApply m.calls
                    (m.savePointsSent - ((m.savePoints.length : Int) - count)))))]
          else [])
      else []) := by
  have hn : ¬ count ≤ 0 := by omega
  unfold paintApply
  simp only [if_neg hn, TInputManager.dropSavePoints, TInputManager.setSubTracks]
  by_cases hl : (m.savePoints.length : Int) - count < m.savePointsSent
  · simp only [if_pos hl]
    by_cases h2 : (m.savePoints.length : Int) - count
        < m.savePointsSent
          - max 0 (min (m.savePointsSent - ((m.savePoints.length : Int) - count))
              (tool.paintApply m.calls
                (m.savePointsSent - ((m.savePoints.length : Int) - count))))
    · have h3 : max 0 (min (m.savePointsSent - ((m.savePoints.length : Int) - count))
          (tool.paintApply m.calls
            (m.savePointsSent - ((m.savePoints.length : Int) - count))))
          < m.savePointsSent - ((m.savePoints.length : Int) - count) := by omega
      simp only [if_pos h2, if_pos h3, List.append_assoc]
      have harith : ∀ x y z : Int, x - y - z = x - z - y := by
        intro x y z
        omega
      rw [harith]
    · have h3 : ¬ max 0 (min (m.savePointsSent - ((m.savePoints.length : Int) - count))
          (tool.paintApply m.calls
            (m.savePointsSent - ((m.savePoints.length : Int) - count))))
          < m.savePointsSent - ((m.savePoints.length : Int) - count) := by omega
      simp only [if_neg h2, if_neg h3, List.append_nil]
  · simp only [if_neg hl, List.append_nil]

/-- C14: for `0 < count ≤ |stack|` and every integer the tool returns from `paintApply`,
`TInputManager::paintApply(count)` leaves the stack with its first `|stack| - count`
entries, unchanged, and `savePointsSent = min(old savePointsSent, |stack| - count)`; the
tool is asked to apply `savePointsSent - (|stack| - count)` checkpoints only when that
number is positive, and the checkpoints it did not apply (its answer clamped to the
range from 0 to the request) are removed with one `paintPop`.  For `count ≤ 0` nothing
changes and the tool is not called. -/
theorem paintApply_spec {K : Type} (tool : TTool K) (count : Int) (m : TInputManager K) :
    (count ≤ 0 → paintApply tool count m = m) ∧
    (0 < count → count ≤ (m.savePoints.length : Int) →
      (paintApply tool count m).savePoints
        = m.savePoints.take (m.savePoints.length - count.toNat) ∧
      ((paintApply tool count m).savePoints.length : Int)
        = (m.savePoints.length : Int) - count ∧
      (paintApply tool count m).savePointsSent
        = min m.savePointsSent ((m.savePoints.length : Int) - count) ∧
      (paintApply tool count m).calls = m.calls ++
        (if (m.savePoints.length : Int) - count < m.savePointsSent then
          [ToolCall.paintApply (m.savePointsSent - ((m.savePoints.length : Int) - count))] ++
            (if max 0 (min (m.savePointsSent - ((m.savePoints.length : Int) - count))
                  (tool.paintApply m.calls
                    (m.savePointsSent - ((m.savePoints.length : Int) - count))))
                < m.savePointsSent - ((m.savePoints.length : Int) - count) then
              [ToolCall.paintPop (m.savePointsSent - ((m.savePoints.length : Int) - count)
                - max 0 (min (m.savePointsSent - ((m.savePoints.length : Int) - count))
                    (tool.paintApply m.calls
                      (m.savePointsSent - ((m.savePoints.length : Int) - count)))))]
            else [])
        else [])) := by
  constructor
  · intro h
    simp [paintApply, h]
  · intro hc hle
    obtain ⟨hs, hsent⟩ := paintApply_stack tool count m hc
    have hnat : ((m.savePoints.length : Int) - count).toNat
        = m.savePoints.length - count.toNat := by omega
    refine ⟨by rw [hs, hnat], ?_, hsent, paintApply_calls tool count m hc⟩
    rw [hs, List.length_take]
    omega

/-- Witness of C14: two save points on the stack, one checkpoint held by the tool, and a
tool that answers `-3`; `paintApply(2)` empties the stack and leaves
`savePointsSent = 0`, after asking the tool to apply one checkpoint and popping it. -/
theorem paintApply_spec_witness :
    (0 : Int) < 2 ∧ (2 : Int) ≤ (stackedManager.savePoints.length : Int) ∧
    (paintApply refusingTool 2 stackedManager).savePoints = [] ∧
    (paintApply refusingTool 2 stackedManager).savePointsSent = 0 ∧
    (paintApply refusingTool 2 stackedManager).calls.length = 2 := by
  have h := (paintApply_spec refusingTool 2 stackedManager).2 (by decide) (by decide)
  refine ⟨by decide, by decide, ?_, ?_, ?_⟩
  · rw [h.1]; rfl
  · rw [h.2.2.1]; rfl
  · rw [h.2.2.2]; rfl

theorem paintRollbackTo_savePoints {K : Type} (saveIndex : Int) (m : TInputManager K)
    (h : saveIndex < (m.savePoints.length : Int)) :
    (paintRollbackTo saveIndex m).savePoints = m.savePoints.take (saveIndex + 1).toNat := by
  have hn : ¬ saveIndex ≥ (m.savePoints.length : Int) := by omega
  unfold paintRollbackTo
  simp only [if_neg hn, TInputManager.dropSavePoints, TInputManager.setSubTracks]
  split_ifs <;> rfl

theorem paintRollbackTo_sent {K : Type} (saveIndex : Int) (m : TInputManager K)
    (h : saveIndex < (m.savePoints.length : Int)) :
    (paintRollbackTo saveIndex m).savePointsSent = min m.savePointsSent (saveIndex + 1) := by
  have hn : ¬ saveIndex ≥ (m.savePoints.length : Int) := by omega
  unfold paintRollbackTo
  simp only [if_neg hn, TInputManager.dropSavePoints, TInputManager.setSubTracks]
  split_ifs <;> (try simp only) <;> omega

theorem paintRollbackTo_subTracks {K : Type} (saveIndex : Int) (m : TInputManager K)
    (h : saveIndex < (m.savePoints.length : Int)) :
    (paintRollbackTo saveIndex m).subTracks = m.subTracks.map (rollbackTrack saveIndex) := by
  have hn : ¬ saveIndex ≥ (m.savePoints.length : Int) := by omega
  unfold paintRollbackTo
  simp only [if_neg hn]
  split_ifs
  · exact subTracks_setSubTracks_map
      { m with
        calls := m.calls ++ [ToolCall.paintPop (m.savePointsSent - (saveIndex + 1))]
          ++ [ToolCall.paintCancel]
        savePointsSent := saveIndex + 1 } _
  · exact subTracks_setSubTracks_map
      { m with
        calls := m.calls ++ [ToolCall.paintCancel]
        savePointsSent := saveIndex + 1 } _
  · exact subTracks_setSubTracks_map m _

theorem paintApply_subTracks {K : Type} (tool : TTool K) (count : Int) (m : TInputManager K)
    (hc : 0 < count) :
    ∃ (resend : Bool) (sent : Int),
      (paintApply tool count m).subTracks
        = m.subTracks.map (applyTrack resend sent ((m.savePoints.length : Int) - count)) := by
  have hn : ¬ count ≤ 0 := by omega
  by_cases hl : (m.savePoints.length : Int) - count < m.savePointsSent
  · by_cases h2 : (m.savePoints.length : Int) - count
        < m.savePointsSent
          - max 0 (min (m.savePointsSent - ((m.savePoints.length : Int) - count))
              (tool.paintApply m.calls
                (m.savePointsSent - ((m.savePoints.length : Int) - count))))
    · refine ⟨?r, ?s, ?_⟩
      case r => exact true
      case s => exact (m.savePoints.length : Int) - count
      unfold paintApply
      simp only [if_neg hn, if_pos hl, if_pos h2]
      have hr : (if (m.savePoints.length : Int) - count < m.savePointsSent ∧
          m.savePointsSent
            - max 0 (min (m.savePointsSent - ((m.savePoints.length : Int) - count))
                (tool.paintApply m.calls
                  (m.savePointsSent - ((m.savePoints.length : Int) - count))))
            = (m.savePoints.length : Int) - count then false else true) = true := by
        rw [if_neg]
        intro hcon
        omega
      rw [hr]
      exact subTracks_setSubTracks_map
        { m with
          calls := m.calls
            ++ [ToolCall.paintApply (m.savePointsSent - ((m.savePoints.length : Int) - count))]
            ++ [ToolCall.paintPop (m.savePointsSent
                - max 0 (min (m.savePointsSent - ((m.savePoints.length : Int) - count))
                    (tool.paintApply m.calls
                      (m.savePointsSent - ((m.savePoints.length : Int) - count))))
                - ((m.savePoints.length : Int) - count))]
          savePointsSent := (m.savePoints.length : Int) - count } _
    · refine ⟨?r, ?s, ?_⟩
      case r => exact false
      case s =>
        exact (m.savePointsSent
          - max 0 (min (m.savePointsSent - ((m.savePoints.length : Int) - count))
              (tool.paintApply m.calls
                (m.savePointsSent - ((m.savePoints.length : Int) - count)))))
      unfold paintApply
      simp only [if_neg hn, if_pos hl, if_neg h2]
      have hr : (if (m.savePoints.length : Int) - count < m.savePointsSent ∧
          m.savePointsSent
            - max 0 (min (m.savePointsSent - ((m.savePoints.length : Int) - count))
                (tool.paintApply m.calls
                  (m.savePointsSent - ((m.savePoints.length : Int) - count))))
            = (m.savePoints.length : Int) - count then false else true) = false := by
        rw [if_pos]
        constructor
        · exact hl
        · omega
      rw [hr]
      exact subTracks_setSubTracks_map
        { m with
          calls := m.calls
            ++ [ToolCall.paintApply (m.savePointsSent - ((m.savePoints.length : Int) - count))]
          savePointsSent := m.savePointsSent
            - max 0 (min (m.savePointsSent - ((m.savePoints.length : Int) - count))
                (tool.paintApply m.calls
                  (m.savePointsSent - ((m.savePoints.length : Int) - count)))) } _
  · refine ⟨?r, ?s, ?_⟩
    case r => exact true
    case s => exact m.savePointsSent
    unfold paintApply
    simp only [if_neg hn, if_neg hl]
    have hr : (if (m.savePoints.length : Int) - count < m.savePointsSent ∧
        m.savePointsSent = (m.savePoints.length : Int) - count then false else true)
        = true := by
      rw [if_neg]
      intro hcon
      exact hl hcon.1
    rw [hr]
    exact subTracks_setSubTracks_map m _

theorem createHandlers_subTracks {K : Type} (m : TInputManager K) :
    (createHandlers m).subTracks = m.subTracks.map (fun track =>
      match track.handler with
      | TTrackHandlerP.null =>
        { track with
          handler := TTrackHandlerP.manager (TrackHandler.create m.savePoints.length) }
      | _ => track) :=
  subTracks_setSubTracks_map m _

theorem pushSavePoint_subTracks {K : Type} (tool : TTool K) (sp : TInputSavePoint)
    (m : TInputManager K) :
    (pushSavePoint tool sp m).subTracks = m.subTracks.map pushTrack := by
  unfold pushSavePoint
  exact subTracks_setSubTracks_map
    { m with
      calls := m.calls ++ [ToolCall.paintPush]
      savePointsSent := if tool.paintPush m.calls then m.savePointsSent + 1
        else m.savePointsSent
      savePoints := m.savePoints ++ [sp] } _

theorem savesMatch_createHandlers {K : Type} (m : TInputManager K)
    (h : SavesMatchStack m) : SavesMatchStack (createHandlers m) := by
  intro track ht hd hh
  rw [createHandlers_subTracks, List.mem_map] at ht
  obtain ⟨t0, ht0, rfl⟩ := ht
  have hsp : (createHandlers m).savePoints = m.savePoints := rfl
  rw [hsp]
  cases hh0 : t0.handler with
  | null =>
    simp only [hh0] at hh
    cases hh
    simp [TrackHandler.create]
  | foreign =>
    simp only [hh0] at hh
    cases hh
  | manager h0 =>
    simp only [hh0] at hh
    cases hh
    exact h t0 ht0 _ hh0

theorem savesMatch_paintRollbackTo {K : Type} (saveIndex : Int) (m : TInputManager K)
    (h : SavesMatchStack m) : SavesMatchStack (paintRollbackTo saveIndex m) := by
  by_cases hk : saveIndex < (m.savePoints.length : Int)
  · intro track ht hd hh
    rw [paintRollbackTo_subTracks saveIndex m hk, List.mem_map] at ht
    obtain ⟨t0, ht0, rfl⟩ := ht
    rw [paintRollbackTo_savePoints saveIndex m hk]
    unfold rollbackTrack at hh
    cases hh0 : t0.handler with
    | null =>
      simp only [hh0] at hh
      cases hh
    | foreign =>
      simp only [hh0] at hh
      cases hh
    | manager h0 =>
      simp only [hh0] at hh
      cases hh
      have := h t0 ht0 h0 hh0
      simp only [List.length_take]
      rw [this]
  · have hn : saveIndex ≥ (m.savePoints.length : Int) := by omega
    have he : paintRollbackTo saveIndex m = m := by
      unfold paintRollbackTo
      rw [if_pos hn]
    rw [he]
    exact h

theorem savesMatch_paintApply {K : Type} (tool : TTool K) (count : Int)
    (m : TInputManager K) (h : SavesMatchStack m) :
    SavesMatchStack (paintApply tool count m) := by
  by_cases hc : 0 < count
  · obtain ⟨r, s, hsub⟩ := paintApply_subTracks tool count m hc
    intro track ht hd hh
    rw [hsub, List.mem_map] at ht
    obtain ⟨t0, ht0, rfl⟩ := ht
    rw [(paintApply_stack tool count m hc).1]
    unfold applyTrack at hh
    cases hh0 : t0.handler with
    | null =>
      simp only [hh0] at hh
      cases hh
    | foreign =>
      simp only [hh0] at hh
      cases hh
    | manager h0 =>
      simp only [hh0] at hh
      cases hh
      have := h t0 ht0 h0 hh0
      simp only [List.length_take]
      rw [this]
  · have he : paintApply tool count m = m := by
      unfold paintApply
      rw [if_pos (by omega)]
    rw [he]
    exact h

theorem savesMatch_pushSavePoint {K : Type} (tool : TTool K) (sp : TInputSavePoint)
    (m : TInputManager K) (h : SavesMatchStack m) :
    SavesMatchStack (pushSavePoint tool sp m) := by
  intro track ht hd hh
  rw [pushSavePoint_subTracks, List.mem_map] at ht
  obtain ⟨t0, ht0, rfl⟩ := ht
  have hsp : (pushSavePoint tool sp m).savePoints = m.savePoints ++ [sp] := rfl
  rw [hsp]
  unfold pushTrack at hh
  cases hh0 : t0.handler with
  | null =>
    simp only [hh0] at hh
    cases hh
  | foreign =>
    simp only [hh0] at hh
    cases hh
  | manager h0 =>
    simp only [hh0] at hh
    cases hh
    have := h t0 ht0 h0 hh0
    simp only [List.length_append, List.length_singleton]
    rw [this]

/-- C16: a handler that `paintTracks` creates gets one `saves` entry for each save point
of the stack, and the equality "every output track with a manager handler has as many
`saves` entries as the stack has save points" is preserved by the handler creation, by
`paintRollbackTo`, by `paintApply` and by the push step of `paintTracks`. -/
theorem saves_match_stack {K : Type} (tool : TTool K) (m : TInputManager K) :
    (∀ track ∈ m.subTracks, track.handler = TTrackHandlerP.null →
      ∃ created ∈ (createHandlers m).subTracks,
        created.handler = TTrackHandlerP.manager (TrackHandler.create m.savePoints.length) ∧
        (TrackHandler.create m.savePoints.length).saves.length = m.savePoints.length ∧
        created.points = track.points) ∧
    (∀ track ∈ (createHandlers m).subTracks, track.handler ≠ TTrackHandlerP.null) ∧
    (SavesMatchStack m → SavesMatchStack (createHandlers m)) ∧
    (SavesMatchStack m → ∀ saveIndex : Int, SavesMatchStack (paintRollbackTo saveIndex m)) ∧
    (SavesMatchStack m → ∀ count : Int, SavesMatchStack (paintApply tool count m)) ∧
    (SavesMatchStack m → ∀ sp : TInputSavePoint,
      SavesMatchStack (pushSavePoint tool sp m)) := by
  refine ⟨?_, ?_, savesMatch_createHandlers m,
    fun h k => savesMatch_paintRollbackTo k m h,
    fun h c => savesMatch_paintApply tool c m h,
    fun h sp => savesMatch_pushSavePoint tool sp m h⟩
  · intro track ht hnull
    refine ⟨{ track with
      handler := TTrackHandlerP.manager (TrackHandler.create m.savePoints.length) }, ?_,
      rfl, by simp [TrackHandler.create], rfl⟩
    rw [createHandlers_subTracks, List.mem_map]
    exact ⟨track, ht, by simp only [hnull]⟩
  · intro track ht
    rw [createHandlers_subTracks, List.mem_map] at ht
    obtain ⟨t0, -, rfl⟩ := ht
    cases hh0 : t0.handler <;> simp [hh0]

theorem savesMatch_stackedManager : SavesMatchStack stackedManager := by
  intro track ht h hh
  have ht2 : track = finishedTrack [0, 1] := by
    simpa [stackedManager, TInputManager.subTracks, List.getLastD] using ht
  subst ht2
  simp only [finishedTrack, TTrackHandlerP.manager.injEq] at hh
  rw [← hh]
  rfl

/-- Witness of C16: in the manager with two save points whose track has two `saves`
entries, the equality holds and survives a push refused by the tool. -/
theorem saves_match_stack_witness :
    SavesMatchStack stackedManager ∧
    SavesMatchStack (pushSavePoint refusingTool ⟨2, true⟩ stackedManager) ∧
    (pushSavePoint refusingTool ⟨2, true⟩ stackedManager).savePoints.length = 3 :=
  ⟨savesMatch_stackedManager,
   (saves_match_stack refusingTool stackedManager).2.2.2.2.2 savesMatch_stackedManager
     ⟨2, true⟩,
   rfl⟩

theorem applyCount_le (free : Nat → Bool) : ∀ size : Nat, applyCount free size ≤ size := by
  intro size
  induction size with
  | zero => simp [applyCount]
  | succ n ih =>
    simp only [applyCount]
    split_ifs <;> omega

theorem paintRollbackTo_length_le {K : Type} (saveIndex : Int) (m : TInputManager K) :
    (paintRollbackTo saveIndex m).savePoints.length ≤ m.savePoints.length := by
  by_cases hk : saveIndex < (m.savePoints.length : Int)
  · rw [paintRollbackTo_savePoints saveIndex m hk, List.length_take]
    omega
  · have he : paintRollbackTo saveIndex m = m := by
      unfold paintRollbackTo
      rw [if_pos (by omega)]
    rw [he]

theorem paintApply_length_le {K : Type} (tool : TTool K) (count : Int)
    (m : TInputManager K) :
    (paintApply tool count m).savePoints.length ≤ m.savePoints.length := by
  by_cases hc : 0 < count
  · rw [(paintApply_stack tool count m hc).1, List.length_take]
    omega
  · have he : paintApply tool count m = m := by
      unfold paintApply
      rw [if_pos (by omega)]
    rw [he]

theorem rollbackAndApply_length_le {K : Type} (tool : TTool K) (pass : ModifierPass K)
    (m : TInputManager K) :
    (rollbackAndApply tool pass m).savePoints.length ≤ m.savePoints.length := by
  unfold rollbackAndApply
  split_ifs
  · exact le_refl _
  · exact le_trans (paintApply_length_le tool _ _) (paintRollbackTo_length_le _ m)

theorem sentWithin_paintRollbackTo {K : Type} (saveIndex : Nat) (m : TInputManager K)
    (h : SentWithinStack m) : SentWithinStack (paintRollbackTo (saveIndex : Int) m) := by
  by_cases hk : (saveIndex : Int) < (m.savePoints.length : Int)
  · unfold SentWithinStack at h ⊢
    rw [paintRollbackTo_sent _ m hk, paintRollbackTo_savePoints _ m hk, List.length_take]
    omega
  · have he : paintRollbackTo (saveIndex : Int) m = m := by
      unfold paintRollbackTo
      rw [if_pos (by omega)]
    rw [he]
    exact h

theorem sentWithin_paintApply {K : Type} (tool : TTool K) (count : Nat)
    (m : TInputManager K) (hle : count ≤ m.savePoints.length) (h : SentWithinStack m) :
    SentWithinStack (paintApply tool (count : Int) m) := by
  by_cases hc : 0 < (count : Int)
  · unfold SentWithinStack at h ⊢
    rw [(paintApply_stack tool _ m hc).2, (paintApply_stack tool _ m hc).1, List.length_take]
    omega
  · have he : paintApply tool (count : Int) m = m := by
      unfold paintApply
      rw [if_pos (by omega)]
    rw [he]
    exact h

theorem sentWithin_rollbackAndApply {K : Type} (tool : TTool K) (pass : ModifierPass K)
    (m : TInputManager K) (h : SentWithinStack m) :
    SentWithinStack (rollbackAndApply tool pass m) := by
  unfold rollbackAndApply
  split_ifs
  · exact h
  · exact sentWithin_paintApply tool _ _ (applyCount_le _ _)
      (sentWithin_paintRollbackTo _ m h)

theorem sentWithin_pushSavePoint {K : Type} (tool : TTool K) (sp : TInputSavePoint)
    (m : TInputManager K) (h : SentWithinStack m) :
    SentWithinStack (pushSavePoint tool sp m) := by
  unfold SentWithinStack at h ⊢
  have h1 : (pushSavePoint tool sp m).savePoints = m.savePoints ++ [sp] := rfl
  have h2 : (pushSavePoint tool sp m).savePointsSent
      = if tool.paintPush m.calls then m.savePointsSent + 1 else m.savePointsSent := rfl
  rw [h1, h2, List.length_append, List.length_singleton]
  split_ifs <;> omega

theorem sentWithin_beforePush {K : Type} (tool : TTool K) (pass : ModifierPass K)
    (m : TInputManager K) (h : SentWithinStack m) :
    SentWithinStack (sendToTool (rollbackAndApply tool pass
      (createHandlers (runModifiers pass { m with created := m.created + 1 })))) := by
  have h0 : SentWithinStack
      (createHandlers (runModifiers pass { m with created := m.created + 1 })) := h
  have h1 := sentWithin_rollbackAndApply tool pass _ h0
  unfold SentWithinStack at h1 ⊢
  unfold sendToTool
  simp only
  split_ifs <;> exact h1

theorem paintApply_nonpos {K : Type} (tool : TTool K) (count : Int) (m : TInputManager K)
    (h : count ≤ 0) : paintApply tool count m = m := by
  unfold paintApply
  rw [if_pos h]

theorem finishPaint_idle {K : Type} (tool : TTool K) (sp : TInputSavePoint)
    (m : TInputManager K) (h : SentWithinStack m) :
    (finishPaint tool true sp m).savePoints = [] ∧
    (finishPaint tool true sp m).savePointsSent = 0 ∧
    ∀ l ∈ (finishPaint tool true sp m).tracks, l = [] := by
  unfold SentWithinStack at h
  unfold finishPaint
  simp only [if_true]
  refine ⟨?_, ?_, ?_⟩
  · by_cases hc : (0 : Int) < (m.savePoints.length : Int)
    · rw [(paintApply_stack tool _ _ hc).1]
      simp
    · rw [paintApply_nonpos tool _ _ (by omega)]
      simp only
      exact List.length_eq_zero.mp (by omega)
  · by_cases hc : (0 : Int) < (m.savePoints.length : Int)
    · rw [(paintApply_stack tool _ _ hc).2]
      simp only
      omega
    · rw [paintApply_nonpos tool _ _ (by omega)]
      simp only
      omega
  · intro l hl
    simp only [List.mem_map] at hl
    obtain ⟨_, _, rfl⟩ := hl
    rfl

theorem paintTracksLoop_idle {K : Type} (tool : TTool K) :
    ∀ (passes : List (ModifierPass K)) (m m' : TInputManager K), SentWithinStack m →
      paintTracksLoop tool true passes m = some m' →
      m'.savePoints = [] ∧ m'.savePointsSent = 0 ∧ ∀ l ∈ m'.tracks, l = [] := by
  intro passes
  induction passes with
  | nil =>
    intro m m' _ h
    simp [paintTracksLoop] at h
  | cons pass rest ih =>
    intro m m' hinv h
    simp only [paintTracksLoop] at h
    have hpre := sentWithin_beforePush tool pass m hinv
    by_cases hfree : pass.newFree = true
    · have hres : paintTracksPass tool true pass m
          = (finishPaint tool true ⟨m.created, true⟩ (sendToTool (rollbackAndApply tool pass
              (createHandlers (runModifiers pass { m with created := m.created + 1 })))),
             true) := by
        unfold paintTracksPass
        simp only [if_pos hfree]
      rw [hres] at h
      simp only [if_true, Option.some.injEq] at h
      rw [← h]
      exact finishPaint_idle tool _ _ hpre
    · have hres : paintTracksPass tool true pass m
          = (pushSavePoint tool ⟨m.created, true⟩ (sendToTool (rollbackAndApply tool pass
              (createHandlers (runModifiers pass { m with created := m.created + 1 })))),
             false) := by
        unfold paintTracksPass
        simp only [if_neg hfree]
      rw [hres] at h
      simp only [Bool.false_eq_true, if_false] at h
      exact ih _ _ (sentWithin_pushSavePoint tool _ _ hpre) h

/-- C12: if `paintTracks` is entered with every raw track finished (and with
`0 ≤ savePointsSent ≤ |stack|`, which holds in every state the manager reaches) and it
returns, which it does only because the fresh save point is free, then on return the
save-point stack is empty, `savePointsSent = 0` and every level list is empty, whatever
the tool returned from `paintApply` and `paintPush`. -/
theorem paintTracks_idle {K : Type} (tool : TTool K) (passes : List (ModifierPass K))
    (m m' : TInputManager K) (hinv : SentWithinStack m)
    (hfin : ∀ track ∈ m.tracks.headD [], track.finished = true)
    (h : paintTracks tool passes m = some m') :
    m'.savePoints = [] ∧ m'.savePointsSent = 0 ∧ ∀ l ∈ m'.tracks, l = [] := by
  unfold paintTracks at h
  have hall : (m.tracks.headD []).all (fun track => track.finished) = true := by
    rw [List.all_eq_true]
    exact hfin
  rw [hall] at h
  exact paintTracksLoop_idle tool passes m m' hinv h

/-- Witness of C12: one finished raw track, two save points on the stack of which the
tool holds one, a tool that refuses pushes and answers `-3` to `paintApply`; the fresh
save point is retained in the first pass and free in the second. -/
theorem paintTracks_idle_witness :
    SentWithinStack stackedManager ∧
    (∀ track ∈ stackedManager.tracks.headD [], track.finished = true) ∧
    ∃ m', paintTracks refusingTool [holdPass, freePass] stackedManager = some m' ∧
      m'.savePoints = [] ∧ m'.savePointsSent = 0 ∧ ∀ l ∈ m'.tracks, l = [] :=
  have hinv : SentWithinStack stackedManager := by
    unfold SentWithinStack stackedManager
    decide
  have hfin : ∀ track ∈ stackedManager.tracks.headD [], track.finished = true := by
    intro track ht
    have ht2 : track = finishedTrack [0, 1] := by
      simpa [stackedManager] using ht
    rw [ht2]
    rfl
  ⟨hinv, hfin, _, rfl,
    paintTracks_idle refusingTool [holdPass, freePass] stackedManager _ hinv hfin rfl⟩

theorem paintTracksPass_eq {K : Type} (tool : TTool K) (allFinished : Bool)
    (pass : ModifierPass K) (m : TInputManager K) :
    paintTracksPass tool allFinished pass m =
      if pass.newFree then
        (finishPaint tool allFinished ⟨m.created, true⟩
          (sendToTool (passAfterApply tool pass m)), true)
      else (pushSavePoint tool ⟨m.created, true⟩ (sendToTool (passAfterApply tool pass m)),
        false) := rfl

theorem sendToTool_savePoints {K : Type} (m : TInputManager K) :
    (sendToTool m).savePoints = m.savePoints ∧
    (sendToTool m).savePointsSent = m.savePointsSent := by
  unfold sendToTool
  simp only
  split_ifs <;> exact ⟨rfl, rfl⟩

theorem finishPaint_length_le {K : Type} (tool : TTool K) (allFinished : Bool)
    (sp : TInputSavePoint) (m : TInputManager K) :
    (finishPaint tool allFinished sp m).savePoints.length ≤ m.savePoints.length := by
  unfold finishPaint
  cases allFinished with
  | true =>
    simp only [if_true]
    exact paintApply_length_le tool _ _
  | false =>
    simp only [Bool.false_eq_true, if_false]
    exact le_refl _

theorem passAfterApply_length_le {K : Type} (tool : TTool K) (pass : ModifierPass K)
    (m : TInputManager K) :
    (passAfterApply tool pass m).savePoints.length ≤ m.savePoints.length :=
  rollbackAndApply_length_le tool pass _

/-- C13: the push step of `paintTracks` is the branch of a pass taken when the fresh
save point is not free (in the other branch the stack does not grow).  It appends the
fresh save point to the stack of the manager, whatever `paintPush()` returns, calls
`paintPush()` once, increases `savePointsSent` by one if and only if `paintPush()`
returned true, and appends to the `saves` of every output track that carries a manager
handler the current size of the track, changing nothing else of the track. -/
theorem pushSavePoint_spec {K : Type} (tool : TTool K) (sp : TInputSavePoint)
    (m : TInputManager K) :
    (pushSavePoint tool sp m).savePoints = m.savePoints ++ [sp] ∧
    (pushSavePoint tool sp m).savePoints.length = m.savePoints.length + 1 ∧
    (pushSavePoint tool sp m).calls = m.calls ++ [ToolCall.paintPush] ∧
    ((pushSavePoint tool sp m).savePointsSent = m.savePointsSent + 1 ↔
      tool.paintPush m.calls = true) ∧
    (tool.paintPush m.calls = false →
      (pushSavePoint tool sp m).savePointsSent = m.savePointsSent) ∧
    (pushSavePoint tool sp m).subTracks = m.subTracks.map pushTrack ∧
    (∀ (track : TTrack K) (h : TrackHandler), track.handler = TTrackHandlerP.manager h →
      pushTrack track
        = { track with handler := TTrackHandlerP.manager ⟨h.saves ++ [track.size]⟩ }) ∧
    (∀ track : TTrack K, (∀ h, track.handler ≠ TTrackHandlerP.manager h) →
      pushTrack track = track) ∧
    (∀ (allFinished : Bool) (pass : ModifierPass K) (m0 : TInputManager K),
      (pass.newFree = false →
        paintTracksPass tool allFinished pass m0
          = (pushSavePoint tool ⟨m0.created, true⟩
              (sendToTool (passAfterApply tool pass m0)), false)) ∧
      (pass.newFree = true →
        (paintTracksPass tool allFinished pass m0).1.savePoints.length
          ≤ m0.savePoints.length)) := by
  have hsent : (pushSavePoint tool sp m).savePointsSent
      = if tool.paintPush m.calls then m.savePointsSent + 1 else m.savePointsSent := rfl
  refine ⟨rfl, ?_, rfl, ?_, ?_, pushSavePoint_subTracks tool sp m, ?_, ?_, ?_⟩
  · have h1 : (pushSavePoint tool sp m).savePoints = m.savePoints ++ [sp] := rfl
    rw [h1, List.length_append, List.length_singleton]
  · rw [hsent]
    cases hp : tool.paintPush m.calls
    · simp
    · simp
  · intro hp
    rw [hsent, hp]
    simp
  · intro track h hh
    unfold pushTrack
    simp only [hh]
  · intro track hno
    unfold pushTrack
    cases hh : track.handler with
    | null => rfl
    | foreign => rfl
    | manager h => exact absurd hh (hno h)
  · intro allFinished pass m0
    rw [paintTracksPass_eq]
    constructor
    · intro hf
      rw [hf]
      simp
    · intro hf
      rw [hf]
      simp only [if_true]
      refine le_trans (finishPaint_length_le tool allFinished _ _) ?_
      rw [(sendToTool_savePoints _).1]
      exact passAfterApply_length_le tool pass m0

theorem countPaintTracks_append {K : Type} :
    ∀ (a b : List (ToolCall K)),
      countPaintTracks (a ++ b) = countPaintTracks a + countPaintTracks b := by
  intro a
  induction a with
  | nil => intro b; simp [countPaintTracks]
  | cons c rest ih =>
    intro b
    have hih := ih b
    rw [List.cons_append]
    cases c <;> simp only [countPaintTracks] <;> omega

theorem paintRollbackTo_count {K : Type} (saveIndex : Int) (m : TInputManager K) :
    countPaintTracks (paintRollbackTo saveIndex m).calls = countPaintTracks m.calls := by
  unfold paintRollbackTo
  simp only [TInputManager.dropSavePoints, TInputManager.setSubTracks]
  split_ifs <;> simp [countPaintTracks_append, countPaintTracks]

theorem paintApply_count {K : Type} (tool : TTool K) (count : Int) (m : TInputManager K) :
    countPaintTracks (paintApply tool count m).calls = countPaintTracks m.calls := by
  by_cases hc : 0 < count
  · rw [paintApply_calls tool count m hc]
    split_ifs <;> simp [countPaintTracks_append, countPaintTracks]
  · rw [paintApply_nonpos tool count m (by omega)]

theorem passAfterApply_count {K : Type} (tool : TTool K) (pass : ModifierPass K)
    (m : TInputManager K) :
    countPaintTracks (passAfterApply tool pass m).calls = countPaintTracks m.calls := by
  unfold passAfterApply rollbackAndApply
  split_ifs
  · rfl
  · rw [paintApply_count, paintRollbackTo_count]
    rfl

theorem sendToTool_calls {K : Type} (m : TInputManager K) :
    (sendToTool m).calls =
      if m.savePointsSent = (m.savePoints.length : Int) ∧ m.subTracks.isEmpty = false then
        m.calls ++ [ToolCall.paintTracks m.subTracks]
      else m.calls := by
  unfold sendToTool
  simp only [TInputManager.setSubTracks]
  by_cases h : m.savePointsSent = (m.savePoints.length : Int) ∧ ¬ m.subTracks.isEmpty
  · have h2 : m.savePointsSent = (m.savePoints.length : Int) ∧ m.subTracks.isEmpty = false :=
      ⟨h.1, by simpa using h.2⟩
    rw [if_pos h, if_pos h2]
  · have h2 : ¬ (m.savePointsSent = (m.savePoints.length : Int)
        ∧ m.subTracks.isEmpty = false) := by
      rintro ⟨h3, h4⟩
      exact h ⟨h3, by simp [h4]⟩
    rw [if_neg h, if_neg h2]

theorem finishPaint_count {K : Type} (tool : TTool K) (allFinished : Bool)
    (sp : TInputSavePoint) (m : TInputManager K) :
    countPaintTracks (finishPaint tool allFinished sp m).calls = countPaintTracks m.calls := by
  unfold finishPaint
  cases allFinished with
  | true =>
    simp only [if_true, countPaintTracks_append, countPaintTracks, paintApply_count]
    rfl
  | false => rfl

theorem pushSavePoint_count {K : Type} (tool : TTool K) (sp : TInputSavePoint)
    (m : TInputManager K) :
    countPaintTracks (pushSavePoint tool sp m).calls = countPaintTracks m.calls := by
  have h : (pushSavePoint tool sp m).calls = m.calls ++ [ToolCall.paintPush] := rfl
  rw [h, countPaintTracks_append]
  rfl

/-- C15: in each pass of the loop of `paintTracks`, `tool->paintTracks` is called (once,
with the output list `L_n`) if and only if, after the rollback and apply steps of that
pass, `savePointsSent` equals the size of the save-point stack and `L_n` is non-empty;
no other step of the pass calls it.  After a refused `paintPush`,
`savePointsSent` is below the stack size, so the tool receives no tracks while that
lasts. -/
theorem paintTracks_delivery {K : Type} (tool : TTool K) (allFinished : Bool)
    (pass : ModifierPass K) (m : TInputManager K) :
    ((sendToTool (passAfterApply tool pass m)).calls =
      if (passAfterApply tool pass m).savePointsSent
            = ((passAfterApply tool pass m).savePoints.length : Int) ∧
          (passAfterApply tool pass m).subTracks.isEmpty = false then
        (passAfterApply tool pass m).calls
          ++ [ToolCall.paintTracks (passAfterApply tool pass m).subTracks]
      else (passAfterApply tool pass m).calls) ∧
    (countPaintTracks (paintTracksPass tool allFinished pass m).1.calls =
      countPaintTracks m.calls +
        if (passAfterApply tool pass m).savePointsSent
              = ((passAfterApply tool pass m).savePoints.length : Int) ∧
            (passAfterApply tool pass m).subTracks.isEmpty = false then 1 else 0) ∧
    ((passAfterApply tool pass m).savePointsSent
        < ((passAfterApply tool pass m).savePoints.length : Int) →
      countPaintTracks (paintTracksPass tool allFinished pass m).1.calls
        = countPaintTracks m.calls) ∧
    (∀ (sp : TInputSavePoint) (m0 : TInputManager K), SentWithinStack m0 →
      tool.paintPush m0.calls = false →
      (pushSavePoint tool sp m0).savePointsSent
        < ((pushSavePoint tool sp m0).savePoints.length : Int)) := by
  have hcount : countPaintTracks (paintTracksPass tool allFinished pass m).1.calls =
      countPaintTracks m.calls +
        if (passAfterApply tool pass m).savePointsSent
              = ((passAfterApply tool pass m).savePoints.length : Int) ∧
            (passAfterApply tool pass m).subTracks.isEmpty = false then 1 else 0 := by
    have hsend : countPaintTracks (sendToTool (passAfterApply tool pass m)).calls =
        countPaintTracks m.calls +
          if (passAfterApply tool pass m).savePointsSent
                = ((passAfterApply tool pass m).savePoints.length : Int) ∧
              (passAfterApply tool pass m).subTracks.isEmpty = false then 1 else 0 := by
      rw [sendToTool_calls]
      split_ifs
      · rw [countPaintTracks_append, passAfterApply_count]
        rfl
      · rw [passAfterApply_count]
        rfl
    rw [paintTracksPass_eq]
    cases pass.newFree with
    | true =>
      simp only [if_true]
      rw [finishPaint_count, hsend]
    | false =>
      simp only [Bool.false_eq_true, if_false]
      rw [pushSavePoint_count, hsend]
  refine ⟨sendToTool_calls _, hcount, ?_, ?_⟩
  · intro hlt
    rw [hcount, if_neg]
    · rfl
    · rintro ⟨heq, -⟩
      omega
  · intro sp m0 hinv hp
    have h1 : (pushSavePoint tool sp m0).savePoints = m0.savePoints ++ [sp] := rfl
    have h2 : (pushSavePoint tool sp m0).savePointsSent
        = if tool.paintPush m0.calls then m0.savePointsSent + 1 else m0.savePointsSent := rfl
    unfold SentWithinStack at hinv
    rw [h1, h2, hp, List.length_append, List.length_singleton]
    simp only [Bool.false_eq_true, if_false]
    push_cast
    omega

theorem updateAt_length {α : Type} (f : α → α) :
    ∀ (i : Nat) (l : List α), (updateAt f i l).length = l.length := by
  intro i l
  induction l generalizing i with
  | nil => cases i <;> rfl
  | cons x xs ih =>
    cases i with
    | zero => rfl
    | succ n => simp [updateAt, ih]

theorem updateAt_getElem? {α : Type} (f : α → α) :
    ∀ (i : Nat) (l : List α) (j : Nat),
      (updateAt f i l)[j]? = if j = i then (l[j]?).map f else l[j]? := by
  intro i l
  induction l generalizing i with
  | nil =>
    intro j
    cases i <;> simp [updateAt]
  | cons x xs ih =>
    intro j
    cases i with
    | zero =>
      cases j with
      | zero => simp [updateAt]
      | succ k => simp [updateAt]
    | succ n =>
      cases j with
      | zero => simp [updateAt]
      | succ k =>
        simp only [updateAt, List.getElem?_cons_succ, ih n k]
        by_cases h : k = n
        · simp [h]
        · simp [h]

/-- C20: `movePoint(index, position)` with `index < 0` or `index ≥ pointsCount()` leaves
the assistant unchanged, whatever `onMovePoint` the subclass has (it is not called); on
the base assistant an in-range index sets the position of exactly that point and
changes no other point and no other member (type, radius, selected).
`setPointSelection` has the same range guard and sets only the `selected` flag of that
point. -/
theorem movePoint_frame {K : Type} (a : TAssistant K) (index : Int) :
    (∀ (onMovePoint : TAssistant K → Int → TPointD K → TAssistant K) (position : TPointD K),
      index < 0 ∨ index ≥ a.pointsCount →
        TAssistant.movePointWith onMovePoint a index position = a) ∧
    (∀ position : TPointD K, 0 ≤ index → index < a.pointsCount →
      (a.movePoint index position).points.length = a.points.length ∧
      ∀ j : Nat, (a.movePoint index position).points[j]? =
        if j = index.toNat then
          (a.points[j]?).map (fun p =>
            { type := p.type, position := position, selected := p.selected,
              radius := p.radius })
        else a.points[j]?) ∧
    (∀ selected : Bool, index < 0 ∨ index ≥ a.pointsCount →
      a.setPointSelection index selected = a) ∧
    (∀ selected : Bool, 0 ≤ index → index < a.pointsCount →
      (a.setPointSelection index selected).points.length = a.points.length ∧
      ∀ j : Nat, (a.setPointSelection index selected).points[j]? =
        if j = index.toNat then
          (a.points[j]?).map (fun p =>
            { type := p.type, position := p.position, selected := selected,
              radius := p.radius })
        else a.points[j]?) := by
  refine ⟨?_, ?_, ?_, ?_⟩
  · intro hook position h
    unfold TAssistant.movePointWith
    unfold TAssistant.pointsCount at h
    rw [if_neg (by omega)]
  · intro position h0 h1
    unfold TAssistant.pointsCount at h1
    have hm : a.movePoint index position = a.onMovePoint index position := by
      unfold TAssistant.movePoint TAssistant.movePointWith
      rw [if_pos ⟨h0, h1⟩]
    rw [hm]
    unfold TAssistant.onMovePoint
    exact ⟨updateAt_length _ _ _, fun j => updateAt_getElem? _ _ _ j⟩
  · intro selected h
    unfold TAssistant.setPointSelection
    rw [if_neg (by omega)]
  · intro selected h0 h1
    unfold TAssistant.setPointSelection
    rw [if_pos ⟨h0, h1⟩]
    exact ⟨updateAt_length _ _ _, fun j => updateAt_getElem? _ _ _ j⟩

/-- Witness of C20: on the assistant with three handles, moving point 1 to (7,8) changes
that position only, and moving point 3 or point -1 changes nothing. -/
theorem movePoint_frame_witness :
    (0 : Int) ≤ 1 ∧ (1 : Int) < threePointAssistant.pointsCount ∧
    (threePointAssistant.movePoint 1 ⟨7, 8⟩).points =
      [⟨TAssistantPointType.CircleCross, ⟨0, 0⟩, false, 10⟩,
       ⟨TAssistantPointType.Circle, ⟨7, 8⟩, true, 10⟩,
       ⟨TAssistantPointType.CircleFill, ⟨2, 0⟩, false, 5⟩] ∧
    (threePointAssistant.movePoint 1 ⟨7, 8⟩).points.length = threePointAssistant.points.length ∧
    threePointAssistant.movePoint 3 ⟨7, 8⟩ = threePointAssistant ∧
    threePointAssistant.movePoint (-1) ⟨7, 8⟩ = threePointAssistant :=
  ⟨by decide, by decide, rfl,
   ((movePoint_frame threePointAssistant 1).2.1 ⟨7, 8⟩ (by decide) (by decide)).1,
   (movePoint_frame threePointAssistant 3).1 _ ⟨7, 8⟩ (Or.inr (by decide)),
   (movePoint_frame threePointAssistant (-1)).1 _ ⟨7, 8⟩ (Or.inl (by decide))⟩

theorem trackCompare_sign {K : Type} [LinearOrderedField K] (t : TTrack K)
    (deviceId touchId : Int) :
    (trackCompare t deviceId touchId < 0 ↔
      t.deviceId < deviceId ∨ (t.deviceId = deviceId ∧ t.touchId < touchId)) ∧
    (trackCompare t deviceId touchId > 0 ↔
      deviceId < t.deviceId ∨ (t.deviceId = deviceId ∧ touchId < t.touchId)) ∧
    (trackCompare t deviceId touchId = 0 ↔ t.deviceId = deviceId ∧ t.touchId = touchId) := by
  unfold trackCompare
  refine ⟨?_, ?_, ?_⟩ <;> split_ifs <;> constructor <;> intro h <;>
    first | omega | exact False.elim h

theorem descendingIds_index {K : Type} [LinearOrderedField K] (tracks : List (TTrack K))
    (h : DescendingIds tracks) (i j : Nat) (hij : i < j) (hj : j < tracks.length) :
    (tracks.getD j TTrack.blank).deviceId < (tracks.getD i TTrack.blank).deviceId ∨
    ((tracks.getD j TTrack.blank).deviceId = (tracks.getD i TTrack.blank).deviceId ∧
      (tracks.getD j TTrack.blank).touchId < (tracks.getD i TTrack.blank).touchId) := by
  unfold DescendingIds at h
  rw [List.pairwise_iff_getElem] at h
  have hi : i < tracks.length := by omega
  rw [List.getD_eq_getElem _ _ hi, List.getD_eq_getElem _ _ hj]
  exact h i j hi hj hij

theorem getTrackLoop_spec {K : Type} [LinearOrderedField K] (tracks : List (TTrack K))
    (deviceId touchId : Int) :
    ∀ (fuel a b : Nat), b - a ≤ fuel → a < b → b < tracks.length →
      trackCompare (tracks.getD a TTrack.blank) deviceId touchId > 0 →
      trackCompare (tracks.getD b TTrack.blank) deviceId touchId < 0 →
      ((getTrackLoop tracks deviceId touchId fuel a b).1 = true ∧
        (getTrackLoop tracks deviceId touchId fuel a b).2 < tracks.length ∧
        trackCompare (tracks.getD (getTrackLoop tracks deviceId touchId fuel a b).2
          TTrack.blank) deviceId touchId = 0) ∨
      ((getTrackLoop tracks deviceId touchId fuel a b).1 = false ∧
        1 ≤ (getTrackLoop tracks deviceId touchId fuel a b).2 ∧
        (getTrackLoop tracks deviceId touchId fuel a b).2 < tracks.length ∧
        trackCompare (tracks.getD ((getTrackLoop tracks deviceId touchId fuel a b).2 - 1)
          TTrack.blank) deviceId touchId > 0 ∧
        trackCompare (tracks.getD (getTrackLoop tracks deviceId touchId fuel a b).2
          TTrack.blank) deviceId touchId < 0) := by
  intro fuel
  induction fuel with
  | zero =>
    intro a b hf hab
    omega
  | succ n ih =>
    intro a b hf hab hb ha0 hb0
    simp only [getTrackLoop]
    by_cases hc : a = (a + b) / 2
    · rw [if_pos hc]
      right
      have hba : b - 1 = a := by omega
      refine ⟨rfl, by omega, hb, ?_, hb0⟩
      simp only
      rw [hba]
      exact ha0
    · rw [if_neg hc]
      by_cases h1 : trackCompare (tracks.getD ((a + b) / 2) TTrack.blank) deviceId touchId < 0
      · rw [if_pos h1]
        exact ih a ((a + b) / 2) (by omega) (by omega) (by omega) ha0 h1
      · rw [if_neg h1]
        by_cases h2 : trackCompare (tracks.getD ((a + b) / 2) TTrack.blank)
            deviceId touchId > 0
        · rw [if_pos h2]
          exact ih ((a + b) / 2) b (by omega) (by omega) hb h2 hb0
        · rw [if_neg h2]
          left
          exact ⟨rfl, by simp only; omega, by simp only; omega⟩

theorem getTrackIndex_spec {K : Type} [LinearOrderedField K] (tracks : List (TTrack K))
    (deviceId touchId : Int) :
    ((getTrackIndex tracks deviceId touchId).1 = true ∧
      (getTrackIndex tracks deviceId touchId).2 < tracks.length ∧
      trackCompare (tracks.getD (getTrackIndex tracks deviceId touchId).2 TTrack.blank)
        deviceId touchId = 0) ∨
    ((getTrackIndex tracks deviceId touchId).1 = false ∧
      (getTrackIndex tracks deviceId touchId).2 ≤ tracks.length ∧
      (0 < (getTrackIndex tracks deviceId touchId).2 →
        trackCompare (tracks.getD ((getTrackIndex tracks deviceId touchId).2 - 1)
          TTrack.blank) deviceId touchId > 0) ∧
      ((getTrackIndex tracks deviceId touchId).2 < tracks.length →
        trackCompare (tracks.getD (getTrackIndex tracks deviceId touchId).2 TTrack.blank)
          deviceId touchId < 0)) := by
  unfold getTrackIndex
  by_cases he : tracks.isEmpty = true
  · rw [if_pos he]
    right
    have hn : tracks = [] := List.isEmpty_iff.mp he
    subst hn
    exact ⟨rfl, le_refl _, fun h => absurd h (lt_irrefl _), fun h => absurd h (lt_irrefl _)⟩
  · rw [if_neg he]
    have hpos : 0 < tracks.length := by
      cases tracks with
      | nil => exact absurd rfl he
      | cons t ts => simp
    simp only
    by_cases h0 : trackCompare (tracks.getD 0 TTrack.blank) deviceId touchId = 0
    · rw [if_pos h0]
      left
      exact ⟨rfl, hpos, h0⟩
    · rw [if_neg h0]
      by_cases h1 : trackCompare (tracks.getD 0 TTrack.blank) deviceId touchId < 0
      · rw [if_pos h1]
        right
        exact ⟨rfl, Nat.zero_le _, fun h => absurd h (lt_irrefl _), fun _ => h1⟩
      · rw [if_neg h1]
        have ha : trackCompare (tracks.getD 0 TTrack.blank) deviceId touchId > 0 := by omega
        by_cases h2 : trackCompare (tracks.getD (tracks.length - 1) TTrack.blank)
            deviceId touchId = 0
        · rw [if_pos h2]
          left
          exact ⟨rfl, by simp only; omega, h2⟩
        · rw [if_neg h2]
          by_cases h3 : trackCompare (tracks.getD (tracks.length - 1) TTrack.blank)
              deviceId touchId > 0
          · rw [if_pos h3]
            right
            refine ⟨rfl, by simp only; omega, fun _ => ?_, fun h => ?_⟩
            · simpa using h3
            · simp only at h
              omega
          · rw [if_neg h3]
            have hb : trackCompare (tracks.getD (tracks.length - 1) TTrack.blank)
                deviceId touchId < 0 := by omega
            have hab : 0 < tracks.length - 1 := by
              rcases Nat.eq_zero_or_pos (tracks.length - 1) with hz | hp
              · rw [hz] at hb
                omega
              · exact hp
            rcases getTrackLoop_spec tracks deviceId touchId tracks.length 0
                (tracks.length - 1) (by omega) hab (by omega) ha hb with h | h
            · left
              exact h
            · right
              obtain ⟨h1', h2', h3', h4', h5'⟩ := h
              exact ⟨h1', by omega, fun _ => h4', fun _ => h5'⟩

theorem mem_take_index {α : Type} (d : α) :
    ∀ (l : List α) (idx : Nat) (a : α), a ∈ l.take idx →
      ∃ i, i < idx ∧ i < l.length ∧ l.getD i d = a := by
  intro l
  induction l with
  | nil =>
    intro idx a h
    simp at h
  | cons x xs ih =>
    intro idx a h
    cases idx with
    | zero => simp at h
    | succ k =>
      rw [List.take_succ_cons, List.mem_cons] at h
      rcases h with rfl | h
      · exact ⟨0, by omega, by simp, rfl⟩
      · obtain ⟨i, hi1, hi2, hi3⟩ := ih k a h
        exact ⟨i + 1, by omega, by simp; omega, by simpa using hi3⟩

theorem mem_drop_index {α : Type} (d : α) :
    ∀ (l : List α) (idx : Nat) (a : α), a ∈ l.drop idx →
      ∃ i, idx ≤ i ∧ i < l.length ∧ l.getD i d = a := by
  intro l
  induction l with
  | nil =>
    intro idx a h
    simp at h
  | cons x xs ih =>
    intro idx a h
    cases idx with
    | zero =>
      rw [List.drop_zero, List.mem_cons] at h
      rcases h with rfl | h
      · exact ⟨0, le_refl _, by simp, rfl⟩
      · obtain ⟨i, -, hi2, hi3⟩ := ih 0 a (by simpa using h)
        exact ⟨i + 1, by omega, by simp; omega, by simpa using hi3⟩
    | succ k =>
      rw [List.drop_succ_cons] at h
      obtain ⟨i, hi1, hi2, hi3⟩ := ih k a h
      exact ⟨i + 1, by omega, by simp; omega, by simpa using hi3⟩

theorem insert_eraseIdx {α : Type} (x : α) :
    ∀ (l : List α) (idx : Nat), idx ≤ l.length →
      (l.take idx ++ x :: l.drop idx).eraseIdx idx = l := by
  intro l
  induction l with
  | nil =>
    intro idx h
    have h0 : idx = 0 := by simpa using h
    subst h0
    rfl
  | cons a rest ih =>
    intro idx h
    cases idx with
    | zero => rfl
    | succ k =>
      have hk : k ≤ rest.length := by simpa using h
      simp only [List.take_succ_cons, List.drop_succ_cons, List.cons_append,
        List.eraseIdx_cons_succ, ih k hk]

theorem insert_getD {α : Type} (d x : α) :
    ∀ (l : List α) (idx : Nat), idx ≤ l.length →
      (l.take idx ++ x :: l.drop idx).getD idx d = x := by
  intro l
  induction l with
  | nil =>
    intro idx h
    have h0 : idx = 0 := by simpa using h
    subst h0
    rfl
  | cons a rest ih =>
    intro idx h
    cases idx with
    | zero => rfl
    | succ k =>
      have hk : k ≤ rest.length := by simpa using h
      have := ih k hk
      simpa using this

theorem getTrackIndex_found {K : Type} [LinearOrderedField K] (tracks : List (TTrack K))
    (hs : DescendingIds tracks) (deviceId touchId : Int) (i : Nat) (hi : i < tracks.length)
    (hd : (tracks.getD i TTrack.blank).deviceId = deviceId)
    (ht : (tracks.getD i TTrack.blank).touchId = touchId) :
    getTrackIndex tracks deviceId touchId = (true, i) := by
  have hord := descendingIds_index tracks hs
  rcases getTrackIndex_spec tracks deviceId touchId with ⟨h1, h2, h3⟩ | ⟨h1, h2, h3, h4⟩
  · have hz := (trackCompare_sign
        (tracks.getD (getTrackIndex tracks deviceId touchId).2 TTrack.blank)
        deviceId touchId).2.2.mp h3
    have hidx : (getTrackIndex tracks deviceId touchId).2 = i := by
      rcases Nat.lt_trichotomy (getTrackIndex tracks deviceId touchId).2 i with h | h | h
      · have := hord _ _ h hi
        omega
      · exact h
      · have := hord _ _ h h2
        omega
    exact Prod.ext h1 hidx
  · exfalso
    rcases Nat.lt_or_ge i (getTrackIndex tracks deviceId touchId).2 with h | h
    · have hpos : 0 < (getTrackIndex tracks deviceId touchId).2 := by omega
      have hc := (trackCompare_sign
        (tracks.getD ((getTrackIndex tracks deviceId touchId).2 - 1) TTrack.blank)
        deviceId touchId).2.1.mp (h3 hpos)
      rcases Nat.lt_or_ge i ((getTrackIndex tracks deviceId touchId).2 - 1) with h' | h'
      · have := hord _ _ h' (by omega)
        omega
      · have he : (getTrackIndex tracks deviceId touchId).2 - 1 = i := by omega
        rw [he] at hc
        omega
    · have hlt : (getTrackIndex tracks deviceId touchId).2 < tracks.length := by omega
      have hc := (trackCompare_sign
        (tracks.getD (getTrackIndex tracks deviceId touchId).2 TTrack.blank)
        deviceId touchId).1.mp (h4 hlt)
      rcases Nat.lt_or_ge (getTrackIndex tracks deviceId touchId).2 i with h' | h'
      · have := hord _ _ h' hi
        omega
      · have he : (getTrackIndex tracks deviceId touchId).2 = i := by omega
        rw [he] at hc
        omega

theorem getTrackIndex_absent {K : Type} [LinearOrderedField K] (tracks : List (TTrack K))
    (deviceId touchId : Int)
    (habs : ∀ t ∈ tracks, ¬ (t.deviceId = deviceId ∧ t.touchId = touchId)) :
    (getTrackIndex tracks deviceId touchId).1 = false ∧
    (getTrackIndex tracks deviceId touchId).2 ≤ tracks.length ∧
    (0 < (getTrackIndex tracks deviceId touchId).2 →
      trackCompare (tracks.getD ((getTrackIndex tracks deviceId touchId).2 - 1)
        TTrack.blank) deviceId touchId > 0) ∧
    ((getTrackIndex tracks deviceId touchId).2 < tracks.length →
      trackCompare (tracks.getD (getTrackIndex tracks deviceId touchId).2 TTrack.blank)
        deviceId touchId < 0) := by
  rcases getTrackIndex_spec tracks deviceId touchId with ⟨h1, h2, h3⟩ | h
  · exfalso
    have hz := (trackCompare_sign
        (tracks.getD (getTrackIndex tracks deviceId touchId).2 TTrack.blank)
        deviceId touchId).2.2.mp h3
    rw [List.getD_eq_getElem _ _ h2] at hz
    exact habs _ (List.getElem_mem _) hz
  · exact h

theorem descendingIds_insert {K : Type} [LinearOrderedField K] (tracks : List (TTrack K))
    (hs : DescendingIds tracks) (x : TTrack K) (idx : Nat) (hidx : idx ≤ tracks.length)
    (hlo : 0 < idx → trackCompare (tracks.getD (idx - 1) TTrack.blank)
      x.deviceId x.touchId > 0)
    (hhi : idx < tracks.length → trackCompare (tracks.getD idx TTrack.blank)
      x.deviceId x.touchId < 0) :
    DescendingIds (tracks.take idx ++ x :: tracks.drop idx) := by
  have hord := descendingIds_index tracks hs
  have hsplit : DescendingIds (tracks.take idx ++ tracks.drop idx) := by
    rw [List.take_append_drop]
    exact hs
  unfold DescendingIds at hsplit ⊢
  rw [List.pairwise_append] at hsplit ⊢
  obtain ⟨h1, h2, h3⟩ := hsplit
  refine ⟨h1, ?_, ?_⟩
  · rw [List.pairwise_cons]
    refine ⟨?_, h2⟩
    intro y hy
    obtain ⟨i, hi1, hi2, rfl⟩ := mem_drop_index TTrack.blank tracks idx y hy
    have hc := (trackCompare_sign (tracks.getD idx TTrack.blank) x.deviceId x.touchId).1.mp
      (hhi (by omega))
    rcases Nat.lt_or_ge idx i with h | h
    · have := hord _ _ h hi2
      omega
    · have he : idx = i := by omega
      rw [he] at hc
      omega
  · intro a ha b hb
    rcases List.mem_cons.mp hb with rfl | hb
    · obtain ⟨i, hi1, hi2, rfl⟩ := mem_take_index TTrack.blank tracks idx a ha
      have hc := (trackCompare_sign (tracks.getD (idx - 1) TTrack.blank)
        b.deviceId b.touchId).2.1.mp (hlo (by omega))
      rcases Nat.lt_or_ge i (idx - 1) with h | h
      · have := hord _ _ h (by omega)
        omega
      · have he : idx - 1 = i := by omega
        rw [he] at hc
        omega
    · exact h3 a ha b hb

/-- C17: on a raw list in the order `getTrack` relies on (strictly descending ids), for
every `(deviceId, touchId)`: if the track at position `i` carries those ids, `getTrack`
returns that track and leaves the list unchanged; if no track carries them, it inserts
exactly one new track, empty and carrying those ids, at some position `idx`, returns it,
and leaves every other track and the relative order unchanged (erasing position `idx`
gives the old list back); the new list is again in that order. -/
theorem getTrack_spec {K : Type} [LinearOrderedField K] (id deviceId touchId ticks : Int)
    (hasPressure hasTilt : Bool) (tracks : List (TTrack K)) (hs : DescendingIds tracks) :
    (∀ i, i < tracks.length → (tracks.getD i TTrack.blank).deviceId = deviceId →
      (tracks.getD i TTrack.blank).touchId = touchId →
      getTrackIn id deviceId touchId ticks hasPressure hasTilt tracks = (i, tracks)) ∧
    ((∀ t ∈ tracks, ¬ (t.deviceId = deviceId ∧ t.touchId = touchId)) →
      ∃ idx, idx ≤ tracks.length ∧
        getTrackIn id deviceId touchId ticks hasPressure hasTilt tracks
          = (idx, tracks.take idx
              ++ TTrack.create id deviceId touchId ticks hasPressure hasTilt
                :: tracks.drop idx) ∧
        (getTrackIn id deviceId touchId ticks hasPressure hasTilt tracks).2.length
          = tracks.length + 1 ∧
        (getTrackIn id deviceId touchId ticks hasPressure hasTilt tracks).2.getD idx
            TTrack.blank
          = TTrack.create id deviceId touchId ticks hasPressure hasTilt ∧
        (getTrackIn id deviceId touchId ticks hasPressure hasTilt tracks).2.eraseIdx idx
          = tracks ∧
        DescendingIds (getTrackIn id deviceId touchId ticks hasPressure hasTilt tracks).2) ∧
    ((TTrack.create id deviceId touchId ticks hasPressure hasTilt : TTrack K).points = [] ∧
      (TTrack.create id deviceId touchId ticks hasPressure hasTilt : TTrack K).deviceId
        = deviceId ∧
      (TTrack.create id deviceId touchId ticks hasPressure hasTilt : TTrack K).touchId
        = touchId) := by
  refine ⟨?_, ?_, ⟨rfl, rfl, rfl⟩⟩
  · intro i hi hd ht
    unfold getTrackIn
    simp only [getTrackIndex_found tracks hs deviceId touchId i hi hd ht, if_true]
  · intro habs
    obtain ⟨h1, h2, h3, h4⟩ := getTrackIndex_absent tracks deviceId touchId habs
    have hres : getTrackIn id deviceId touchId ticks hasPressure hasTilt tracks
        = ((getTrackIndex tracks deviceId touchId).2,
            tracks.take (getTrackIndex tracks deviceId touchId).2
              ++ TTrack.create id deviceId touchId ticks hasPressure hasTilt
                :: tracks.drop (getTrackIndex tracks deviceId touchId).2) := by
      unfold getTrackIn createTrack
      simp only [h1, Bool.false_eq_true, if_false]
    refine ⟨(getTrackIndex tracks deviceId touchId).2, h2, hres, ?_, ?_, ?_, ?_⟩
    · rw [hres]
      simp only [List.length_append, List.length_cons, List.length_take, List.length_drop]
      omega
    · rw [hres]
      exact insert_getD _ _ tracks _ h2
    · rw [hres]
      exact insert_eraseIdx _ tracks _ h2
    · rw [hres]
      exact descendingIds_insert tracks hs _ _ h2 h3 h4

/-- The list `rawPair` is in descending order of ids. -/
theorem descendingIds_rawPair : DescendingIds rawPair := by
  simp [DescendingIds, rawPair, TTrack.create, finishedTrack]

/-- Witness of C17: the raw list `rawPair` holds the ids (1,0) and (0,0) in descending
order; the search for (0,0) returns position 1 and leaves the list as it was. -/
theorem getTrack_spec_witness :
    DescendingIds rawPair ∧
    getTrackIn 3 0 0 7 false false rawPair = (1, rawPair) :=
  ⟨descendingIds_rawPair,
    (getTrack_spec 3 0 0 7 false false rawPair descendingIds_rawPair).1 1
      (by decide) rfl rfl⟩

theorem set_headD {α : Type} (l : List (List α)) : l.set 0 (l.headD []) = l := by
  cases l <;> rfl

theorem getTrack_found {K : Type} [LinearOrderedField K] (id deviceId touchId ticks : Int)
    (hasPressure hasTilt : Bool) (m : TInputManager K)
    (hs : DescendingIds (m.tracks.headD [])) (i : Nat) (hi : i < (m.tracks.headD []).length)
    (hd : ((m.tracks.headD []).getD i TTrack.blank).deviceId = deviceId)
    (ht : ((m.tracks.headD []).getD i TTrack.blank).touchId = touchId) :
    getTrack id deviceId touchId ticks hasPressure hasTilt m = (i, m) := by
  unfold getTrack getTrackIn
  simp only [getTrackIndex_found _ hs deviceId touchId i hi hd ht, if_true, set_headD]

/-- C18: a `trackEvent` whose `(deviceId, touchId)` matches a finished track of the raw
list (the list being in the order `getTrack` maintains) leaves the whole manager as it
was: no point is appended to any track, no track is created, no `pointsAdded` changes.
Likewise a `trackEvent` while the manager is not active leaves the manager as it was. -/
theorem trackEvent_ignored {K : Type} [LinearOrderedField K] (host : ToolHost K)
    (mt : Metrics K) (step : K) (id deviceId touchId : Int) (position : TPointD K)
    (pressure : Option K) (tilt : Option (TPointD K)) (final : Bool) (ticks : Int)
    (m : TInputManager K) :
    (DescendingIds (m.tracks.headD []) →
      ∀ t ∈ m.tracks.headD [], t.deviceId = deviceId → t.touchId = touchId →
        t.finished = true →
        trackEvent host mt step id deviceId touchId position pressure tilt final ticks m
          = m) ∧
    (host.isActive m.calls = false →
      trackEvent host mt step id deviceId touchId position pressure tilt final ticks m
        = m) := by
  constructor
  · intro hs t ht hd htt hfin
    obtain ⟨i, hi, rfl⟩ := List.getElem_of_mem ht
    have hne : (m.tracks.headD []).isEmpty = false := by
      cases hl : m.tracks.headD [] with
      | nil => rw [hl] at hi; simp at hi
      | cons x xs => rfl
    have hg : (m.tracks.headD []).getD i TTrack.blank = (m.tracks.headD [])[i] :=
      List.getD_eq_getElem _ _ hi
    have hget := getTrack_found id deviceId touchId ticks pressure.isSome tilt.isSome m hs
      i hi (by rw [hg]; exact hd) (by rw [hg]; exact htt)
    unfold trackEvent
    simp only [hne, Bool.false_eq_true, and_false, if_false, hget, hg, hfin, if_true]
    split_ifs <;> rfl
  · intro hact
    unfold trackEvent
    simp only [hact, Bool.false_eq_true, false_and, if_false]

/-- Witness of C18: in the manager whose raw list is `rawPair`, an event for the finished
track (0,0) under an active host, and an event for the open track (1,0) under a host
that is not active, both leave the manager as it was. -/
theorem trackEvent_ignored_witness :
    trackEvent activeHost gridMetrics 1 3 0 0 ⟨3, 4⟩ none none false 7 pairManager
      = pairManager ∧
    trackEvent idleHost gridMetrics 1 3 1 0 ⟨3, 4⟩ none none false 7 pairManager
      = pairManager :=
  ⟨(trackEvent_ignored activeHost gridMetrics 1 3 0 0 ⟨3, 4⟩ none none false 7
      pairManager).1 descendingIds_rawPair (finishedTrack [0, 1])
      (by simp [pairManager, rawPair]) rfl rfl rfl,
   (trackEvent_ignored idleHost gridMetrics 1 3 1 0 ⟨3, 4⟩ none none false 7
      pairManager).2 rfl⟩

/-- C19 (as stated, fails): with `push_back` as specified (append the point, increment
`pointsAdded`), the first `trackEvent` of an active manager without tracks leaves a raw
track of size 1 with `pointsAdded = 2`, the `++track->pointsAdded` of `addTrackPoint`
coming on top of the increment of `push_back`: `pointsAdded` has not grown by exactly
one and `pointsAdded ≤ size` does not hold. -/
theorem addTrackPoint_double_increment :
    ((trackEvent activeHost gridMetrics 1 1 0 0 ⟨3, 4⟩ none none false 0
        freshManager).tracks.headD []).map (fun t => (t.size, t.pointsAdded)) = [(1, 2)] ∧
    (addTrackPoint gridMetrics (TTrack.create 1 0 0 0 false false) ⟨3, 4⟩ (1 / 2)
        TPointD.zero 0 false).pointsAdded
      = (TTrack.create 1 0 0 0 false false : TTrack ℚ).pointsAdded + 2 ∧
    ¬ ((addTrackPoint gridMetrics (TTrack.create 1 0 0 0 false false) ⟨3, 4⟩ (1 / 2)
        TPointD.zero 0 false).pointsAdded
      = (TTrack.create 1 0 0 0 false false : TTrack ℚ).pointsAdded + 1) ∧
    ¬ (∀ t ∈ (trackEvent activeHost gridMetrics 1 1 0 0 ⟨3, 4⟩ none none false 0
        freshManager).tracks.headD [], t.pointsAdded ≤ t.size) := by
  have h : ((trackEvent activeHost gridMetrics 1 1 0 0 ⟨3, 4⟩ none none false 0
      freshManager).tracks.headD []).map (fun t => (t.size, t.pointsAdded)) = [(1, 2)] := rfl
  refine ⟨h, rfl, by decide, ?_⟩
  intro hall
  have hm : ∀ p ∈ ((trackEvent activeHost gridMetrics 1 1 0 0 ⟨3, 4⟩ none none false 0
      freshManager).tracks.headD []).map (fun t => (t.size, t.pointsAdded)),
      p.2 ≤ p.1 := by
    intro p hp
    rw [List.mem_map] at hp
    obtain ⟨t, ht, rfl⟩ := hp
    exact hall t ht
  rw [h] at hm
  have := hm (1, 2) (List.mem_singleton.mpr rfl)
  omega

/-- C19 (as amended): `addTrackPoint` calls `push_back` once and then executes
`++track->pointsAdded` itself, so `pointsAdded` ends one above what `push_back` leaves,
whatever `push_back` does.  With a `push_back` that appends the point (setting its
length) and leaves `pointsAdded` alone, `addTrackPoint` increases the size of the track
by one and `pointsAdded` by exactly one, so `pointsAdded ≤ size` is preserved; the
points the track had stay, and the new point has the old size as `originalIndex`.  With
`push_back` as specified, which increments `pointsAdded` too, `pointsAdded` grows by
two. -/
theorem addTrackPoint_increment {K : Type} [LinearOrderedField K] (mt : Metrics K)
    (push : TTrack K → TTrackPoint K → TTrack K)
    (happend : ∀ (t : TTrack K) (p : TTrackPoint K), ∃ len : K,
      (push t p).points = t.points ++ [{ p with length := len }])
    (hkeep : ∀ (t : TTrack K) (p : TTrackPoint K), (push t p).pointsAdded = t.pointsAdded)
    (track : TTrack K) (position : TPointD K) (pressure : K) (tilt : TPointD K) (time : K)
    (final : Bool) :
    (addTrackPointWith push track position pressure tilt time final).size
      = track.size + 1 ∧
    (addTrackPointWith push track position pressure tilt time final).pointsAdded
      = track.pointsAdded + 1 ∧
    (track.pointsAdded ≤ track.size →
      (addTrackPointWith push track position pressure tilt time final).pointsAdded
        ≤ (addTrackPointWith push track position pressure tilt time final).size) ∧
    (addTrackPointWith push track position pressure tilt time final).points.take
      track.points.length = track.points ∧
    ((addTrackPointWith push track position pressure tilt time final).points.getLast?).map
      (fun p => p.originalIndex) = some ((track.size : Int) : K) ∧
    (∀ pb : TTrack K → TTrackPoint K → TTrack K,
      (addTrackPointWith pb track position pressure tilt time final).pointsAdded
        = (pb track
            { position := position, pressure := pressure, tilt := tilt,
              originalIndex := ((track.size : Int) : K), time := time, length := 0,
              final := final }).pointsAdded + 1) ∧
    addTrackPoint mt track position pressure tilt time final
      = addTrackPointWith (TTrack.push_back mt) track position pressure tilt time final ∧
    (addTrackPoint mt track position pressure tilt time final).pointsAdded
      = track.pointsAdded + 2 := by
  obtain ⟨len, hp⟩ := happend track
    { position := position, pressure := pressure, tilt := tilt,
      originalIndex := ((track.size : Int) : K), time := time, length := 0, final := final }
  have hk := hkeep track
    { position := position, pressure := pressure, tilt := tilt,
      originalIndex := ((track.size : Int) : K), time := time, length := 0, final := final }
  have hpts : (addTrackPointWith push track position pressure tilt time final).points
      = track.points ++
        [{ position := position, pressure := pressure, tilt := tilt,
           originalIndex := ((track.size : Int) : K), time := time, length := len,
           final := final }] := hp
  have hsize : (addTrackPointWith push track position pressure tilt time final).size
      = track.size + 1 := by
    unfold TTrack.size
    rw [hpts, List.length_append, List.length_singleton]
    push_cast
    rfl
  have hadd : (addTrackPointWith push track position pressure tilt time final).pointsAdded
      = track.pointsAdded + 1 := by
    rw [← hk]
    rfl
  refine ⟨hsize, hadd, ?_, ?_, ?_, fun _ => rfl, rfl, ?_⟩
  · intro hle
    rw [hsize, hadd]
    omega
  · rw [hpts]
    simp
  · rw [hpts]
    simp
  · simp only [addTrackPoint, TTrack.push_back]
    omega

/-- Witness of C19 (as amended): `appendWithLength` appends the point and leaves
`pointsAdded` alone; with it, `addTrackPoint` on the open track of three points with
`pointsAdded = 0` gives a track of four points with `pointsAdded = 1`, the new point
having `originalIndex = 3`. -/
theorem addTrackPoint_increment_witness :
    (∀ (t : TTrack ℚ) (p : TTrackPoint ℚ), ∃ len : ℚ,
      (appendWithLength gridMetrics t p).points = t.points ++ [{ p with length := len }]) ∧
    (∀ (t : TTrack ℚ) (p : TTrackPoint ℚ),
      (appendWithLength gridMetrics t p).pointsAdded = t.pointsAdded) ∧
    (addTrackPointWith (appendWithLength gridMetrics) (rawTrack unitTrack 0 0) ⟨5, 0⟩
        (1 / 2) TPointD.zero 3 false).size = 4 ∧
    (addTrackPointWith (appendWithLength gridMetrics) (rawTrack unitTrack 0 0) ⟨5, 0⟩
        (1 / 2) TPointD.zero 3 false).pointsAdded = 1 ∧
    ((addTrackPointWith (appendWithLength gridMetrics) (rawTrack unitTrack 0 0) ⟨5, 0⟩
        (1 / 2) TPointD.zero 3 false).points.getLast?).map
      (fun p => (p.originalIndex, p.length)) = some (3, 5) := by
  have h1 : ∀ (t : TTrack ℚ) (p : TTrackPoint ℚ), ∃ len : ℚ,
      (appendWithLength gridMetrics t p).points
        = t.points ++ [{ p with length := len }] := by
    intro t p
    exact ⟨_, rfl⟩
  have h2 : ∀ (t : TTrack ℚ) (p : TTrackPoint ℚ),
      (appendWithLength gridMetrics t p).pointsAdded = t.pointsAdded := by
    intro t p
    rfl
  have h := addTrackPoint_increment gridMetrics (appendWithLength gridMetrics) h1 h2
    (rawTrack unitTrack 0 0) ⟨5, 0⟩ (1 / 2) TPointD.zero 3 false
  refine ⟨h1, h2, ?_, ?_, ?_⟩
  · rw [h.1]
    rfl
  · rw [h.2.1]
    rfl
  · norm_num [addTrackPointWith, appendWithLength, TTrack.push_back, rawTrack, unitTrack,
      samplePoint, gridMetrics, TTrack.size]

theorem clampIndex_range (size : Nat) (index : Int) (h : 0 < size) :
    0 ≤ clampIndex size index ∧ clampIndex size index < (size : Int) := by
  unfold clampIndex
  omega

/-- C22: `point(i)` is total and saturating.  For a non-empty track and every integer
`i` the index it reads, `min(max(i, 0), size − 1)`, lies in `[0, size − 1]` and the
result is the point stored there; for an empty track the result is the blank default
point, for every `i`.  `operator[]` is `point`; `front()` is the first and `back()` the
last stored point of a non-empty track, and both are the blank point on an empty one. -/
theorem point_saturating {K : Type} [LinearOrderedField K] (t : TTrack K) (i : Int) :
    (t.points ≠ [] →
      0 ≤ min (max i 0) (t.size - 1) ∧ min (max i 0) (t.size - 1) < t.size ∧
      t.points[(min (max i 0) (t.size - 1)).toNat]? = some (t.point i) ∧
      t.points.head? = some t.front ∧ t.points.getLast? = some t.back) ∧
    (t.points = [] →
      t.point i = TTrackPoint.blank ∧ t.front = TTrackPoint.blank ∧
      t.back = TTrackPoint.blank) ∧
    t.get i = t.point i := by
  refine ⟨?_, ?_, rfl⟩
  · intro hne
    have hlen : 0 < t.points.length := List.length_pos.mpr hne
    have hemp : t.points.isEmpty = false := by
      cases hp : t.points with
      | nil => exact absurd hp hne
      | cons a rest => rfl
    have hpoint : ∀ j : Int, t.points[(clampIndex t.points.length j).toNat]?
        = some (t.point j) := by
      intro j
      have hr := clampIndex_range t.points.length j hlen
      have hlt : (clampIndex t.points.length j).toNat < t.points.length := by omega
      unfold TTrack.point pointAt
      simp only [hemp, Bool.false_eq_true, if_false]
      rw [List.getD_eq_getElem _ _ hlt, List.getElem?_eq_getElem hlt]
    have hr := clampIndex_range t.points.length i hlen
    unfold clampIndex at hr
    refine ⟨hr.1, hr.2, hpoint i, ?_, ?_⟩
    · have h0 := hpoint 0
      have hc : (clampIndex t.points.length 0).toNat = 0 := by
        unfold clampIndex
        omega
      rw [hc] at h0
      rw [List.head?_eq_getElem?]
      exact h0
    · have hb := hpoint (t.size - 1)
      have hc : (clampIndex t.points.length (t.size - 1)).toNat = t.points.length - 1 := by
        unfold clampIndex TTrack.size
        omega
      rw [hc] at hb
      rw [List.getLast?_eq_getElem?]
      exact hb
  · intro he
    unfold TTrack.front TTrack.back TTrack.point pointAt
    simp [he]

/-- C24 (as stated, fails): the two points of `dupTrack` have the same time 0, and
`indexByTime(5)` on it is 1, the upper endpoint, not 0. -/
theorem indexByTime_constant_above :
    (∀ p ∈ dupTrack, p.time = 0) ∧
    indexByTime TConsts.epsilon dupTrack 5 = 1 ∧
    ¬ (indexByTime TConsts.epsilon dupTrack 5 = 0) := by
  have h : indexByTime TConsts.epsilon dupTrack 5 = 1 := by
    unfold indexByTime binarySearch
    norm_num [dupTrack, samplePoint, TConsts.epsilon]
  refine ⟨?_, h, ?_⟩
  · intro p hp
    simp only [dupTrack, List.mem_cons, List.mem_singleton, List.not_mem_nil, or_false] at hp
    rcases hp with rfl | rfl <;> rfl
  · rw [h]
    norm_num

/-- C24 (as amended): on a non-empty track whose indexed field has the same value `c`
at every point, for a positive epsilon, `indexByField(v)` returns 0 for every
`v ≤ c + eps/2` and `size − 1`, the upper endpoint, for every `v > c + eps/2`. -/
theorem binarySearch_constant_field {K : Type} [LinearOrderedField K] (eps : K)
    (field : TTrackPoint K → K) (pts : List (TTrackPoint K)) (c value : K)
    (heps : 0 < eps) (hne : pts ≠ []) (hconst : ∀ p ∈ pts, field p = c) :
    binarySearch eps field pts value
      = if value - c ≤ eps / 2 then 0 else ((pts.length - 1 : Nat) : K) := by
  have hlen : 0 < pts.length := List.length_pos.mpr hne
  have hemp : pts.isEmpty = false := by
    cases hp : pts with
    | nil => exact absurd hp hne
    | cons a rest => rfl
  have hget : ∀ i, i < pts.length → field (pts.getD i TTrackPoint.blank) = c := by
    intro i hi
    rw [List.getD_eq_getElem _ _ hi]
    exact hconst _ (List.getElem_mem _)
  unfold binarySearch
  simp only [hemp, Bool.false_eq_true, if_false, hget 0 hlen,
    hget (pts.length - 1) (by omega)]
  by_cases h1 : value - c ≤ eps / 2
  · rw [if_pos h1, if_pos h1]
  · rw [if_neg h1, if_neg h1]
    have h2 : c - value ≤ eps / 2 := by
      push_neg at h1
      linarith
    rw [if_pos h2]

/-- Witness of C24 (as amended): on `dupTrack`, whose times are both 0,
`indexByTime(5)` is the upper endpoint 1 and `indexByTime(0)` is 0. -/
theorem binarySearch_constant_field_witness :
    (0 : ℚ) < TConsts.epsilon ∧ dupTrack ≠ [] ∧ (∀ p ∈ dupTrack, p.time = 0) ∧
    binarySearch TConsts.epsilon TTrackPoint.time dupTrack 5 = 1 ∧
    binarySearch TConsts.epsilon TTrackPoint.time dupTrack 0 = 0 := by
  have heps : (0 : ℚ) < TConsts.epsilon := by norm_num [TConsts.epsilon]
  have hne : dupTrack ≠ [] := by simp [dupTrack]
  have hc : ∀ p ∈ dupTrack, p.time = 0 := by
    intro p hp
    simp only [dupTrack, List.mem_cons, List.mem_singleton, List.not_mem_nil, or_false] at hp
    rcases hp with rfl | rfl <;> rfl
  refine ⟨heps, hne, hc, ?_, ?_⟩
  · rw [binarySearch_constant_field TConsts.epsilon TTrackPoint.time dupTrack 0 5 heps hne hc]
    norm_num [TConsts.epsilon, dupTrack]
  · rw [binarySearch_constant_field TConsts.epsilon TTrackPoint.time dupTrack 0 0 heps hne hc]
    norm_num [TConsts.epsilon]

theorem updateProperty_data {K : Type} [LinearOrderedField K] (setValue : K → K → K)
    (path : TVariantPath) (o : TAssistantObject K) :
    (o.updateProperty setValue path).data = o.data := by
  unfold TAssistantObject.updateProperty
  cases path <;> rfl

/-- C21 (as stated, fails): an assistant whose data holds `magnetism = 1.7` still has
`getMagnetism() = 1.7` after the whole-data change path `onDataChanged →
onAllDataChanged`, not `max(0, min(1, 1.7)) = 1`, even with a property that crops. -/
theorem onAllDataChanged_keeps_magnetism :
    (storedAssistant.onDataChanged cropValue TVariantPath.data).getMagnetism = 17 / 10 ∧
    ¬ ((storedAssistant.onDataChanged cropValue TVariantPath.data).getMagnetism
        = max 0 (min 1 storedAssistant.getMagnetism)) := by
  have h : (storedAssistant.onDataChanged cropValue TVariantPath.data).getMagnetism
      = 17 / 10 := rfl
  refine ⟨h, ?_⟩
  rw [h]
  norm_num [TAssistantObject.getMagnetism, storedAssistant]

/-- C21 (as amended): `onDataChanged`, on every path and so on the whole-data path
through `onAllDataChanged` (with any `onFixPoints` of a subclass and any behaviour of
the property), leaves the variant data as it is, so `getMagnetism()` is still the stored
value.  The clamp is applied by `onFixData`: for every stored magnetism `m`, after
`onFixData` `getMagnetism() = max(0, min(1, m))`, which lies in `[0, 1]`; a stored 1.7
becomes 1. -/
theorem onFixData_clamps_magnetism {K : Type} [LinearOrderedField K]
    (setValue : K → K → K) (onFixPoints : TAssistant K → TAssistant K)
    (path : TVariantPath) (o : TAssistantObject K) :
    (o.onDataChanged setValue path).data = o.data ∧
    (o.onDataChanged setValue path).getMagnetism = o.getMagnetism ∧
    (o.onAllDataChangedWith setValue onFixPoints).data = o.data ∧
    (o.onAllDataChangedWith setValue onFixPoints).getMagnetism = o.getMagnetism ∧
    o.onFixData.getMagnetism = max 0 (min 1 o.getMagnetism) ∧
    0 ≤ o.onFixData.getMagnetism ∧ o.onFixData.getMagnetism ≤ 1 ∧
    storedAssistant.onFixData.getMagnetism = 1 := by
  have hall : ∀ fix : TAssistant K → TAssistant K,
      (o.onAllDataChangedWith setValue fix).data = o.data := by
    intro fix
    unfold TAssistantObject.onAllDataChangedWith TAssistantObject.updateProperties
    simp only [updateProperty_data]
  have hdata : (o.onDataChanged setValue path).data = o.data := by
    unfold TAssistantObject.onDataChanged
    cases path with
    | data => exact hall _
    | points => exact hall _
    | point index => rfl
    | enabled => exact updateProperty_data _ _ _
    | magnetism => exact updateProperty_data _ _ _
    | other => rfl
  have hfix : o.onFixData.getMagnetism = max 0 (min 1 o.getMagnetism) := by
    unfold TAssistantObject.onFixData TAssistantObject.setMagnetism
    simp only
    split_ifs with h
    · rfl
    · push_neg at h
      exact h
  refine ⟨hdata, ?_, hall _, ?_, hfix, ?_, ?_, ?_⟩
  · unfold TAssistantObject.getMagnetism
    rw [hdata]
  · unfold TAssistantObject.getMagnetism
    rw [hall]
  · rw [hfix]
    exact le_max_left _ _
  · rw [hfix]
    exact max_le zero_le_one (min_le_left _ _)
  · have h : storedAssistant.onFixData.getMagnetism
        = max 0 (min 1 storedAssistant.getMagnetism) := by
      unfold TAssistantObject.onFixData TAssistantObject.setMagnetism
      simp only
      split_ifs with h
      · rfl
      · push_neg at h
        exact h
    rw [h]
    norm_num [TAssistantObject.getMagnetism, storedAssistant]

theorem paintRollbackTo_calls {K : Type} (saveIndex : Int) (m : TInputManager K)
    (h : saveIndex < (m.savePoints.length : Int)) :
    (paintRollbackTo saveIndex m).calls = m.calls ++
      (if saveIndex + 1 < m.savePointsSent then
        [ToolCall.paintPop (m.savePointsSent - (saveIndex + 1)), ToolCall.paintCancel]
      else if saveIndex + 1 = m.savePointsSent then [ToolCall.paintCancel]
      else []) := by
  have hn : ¬ saveIndex ≥ (m.savePoints.length : Int) := by omega
  unfold paintRollbackTo
  simp only [if_neg hn, TInputManager.dropSavePoints, TInputManager.setSubTracks]
  by_cases h1 : saveIndex + 1 < m.savePointsSent
  · rw [if_pos (le_of_lt h1), if_pos h1, if_pos h1]
    simp
  · by_cases h2 : saveIndex + 1 = m.savePointsSent
    · rw [if_pos (le_of_eq h2), if_neg h1, if_neg h1, if_pos h2]
    · rw [if_neg (by omega), if_neg h1, if_neg h2]
      simp

/-- C27: `paintRollbackTo(k)` with `k < |stack|` calls `paintPop(savePointsSent − (k+1))`
if and only if `savePointsSent > k+1`, then `paintCancel` if and only if
`savePointsSent ≥ k+1`, and makes no tool call when `savePointsSent < k+1`; afterwards
`savePointsSent = min(old savePointsSent, k+1)`. -/
theorem paintRollbackTo_tool_calls {K : Type} (k : Int) (m : TInputManager K)
    (hk : k < (m.savePoints.length : Int)) :
    (m.savePointsSent > k + 1 →
      (paintRollbackTo k m).calls
        = m.calls ++ [ToolCall.paintPop (m.savePointsSent - (k + 1)), ToolCall.paintCancel]) ∧
    (m.savePointsSent = k + 1 →
      (paintRollbackTo k m).calls = m.calls ++ [ToolCall.paintCancel]) ∧
    (m.savePointsSent < k + 1 → (paintRollbackTo k m).calls = m.calls) ∧
    (paintRollbackTo k m).savePointsSent = min m.savePointsSent (k + 1) := by
  refine ⟨?_, ?_, ?_, paintRollbackTo_sent k m hk⟩
  · intro h
    rw [paintRollbackTo_calls k m hk, if_pos (by omega)]
  · intro h
    rw [paintRollbackTo_calls k m hk, if_neg (by omega), if_pos (by omega)]
  · intro h
    rw [paintRollbackTo_calls k m hk, if_neg (by omega), if_neg (by omega)]
    simp

/-- Witness of C27: with two save points, both held by the tool, `paintRollbackTo(0)`
calls `paintPop(1)` and `paintCancel` and leaves `savePointsSent = 1`. -/
theorem paintRollbackTo_tool_calls_witness :
    (0 : Int) < (rolledManager.savePoints.length : Int) ∧
    rolledManager.savePointsSent > 0 + 1 ∧
    (paintRollbackTo 0 rolledManager).calls.length = 2 ∧
    (paintRollbackTo 0 rolledManager).savePointsSent = 1 := by
  have h := paintRollbackTo_tool_calls 0 rolledManager (by decide)
  refine ⟨by decide, by decide, ?_, ?_⟩
  · rw [h.1 (by decide)]
    rfl
  · rw [h.2.2.2]
    rfl

theorem getD_take_succ {α : Type} (l : List α) (n : Nat) (d : α) :
    (l.take (n + 1)).getD n d = l.getD n d := by
  simp [List.getD_eq_getElem?_getD, List.getElem?_take]

/-- C26: for every `k` with `0 ≤ k < |stack|`, `paintRollbackTo(k)` leaves the stack
with exactly its first `k+1` entries and maps every output track through the loop body:
a track carrying a manager handler gets its `saves` cut to the first `k+1` entries,
`pointsRemoved = 0` and `pointsAdded = size − saves[k]`, nothing else of it changes, and
a track without a manager handler stays as it is.  For `k ≥ |stack|` nothing changes. -/
theorem paintRollbackTo_spec {K : Type} (k : Int) (m : TInputManager K) :
    (0 ≤ k → k < (m.savePoints.length : Int) →
      (paintRollbackTo k m).savePoints = m.savePoints.take (k.toNat + 1) ∧
      ((paintRollbackTo k m).savePoints.length : Int) = k + 1 ∧
      (paintRollbackTo k m).subTracks = m.subTracks.map (rollbackTrack k) ∧
      (∀ (track : TTrack K) (h : TrackHandler), track.handler = TTrackHandlerP.manager h →
        rollbackTrack k track =
          { track with
            handler := TTrackHandlerP.manager ⟨h.saves.take (k.toNat + 1)⟩
            pointsRemoved := 0
            pointsAdded := track.size - h.saves.getD k.toNat 0 } ∧
        (k < (h.saves.length : Int) →
          ((h.saves.take (k.toNat + 1)).length : Int) = k + 1 ∧
          h.saves[k.toNat]? = some (h.saves.getD k.toNat 0))) ∧
      (∀ track : TTrack K, (∀ h, track.handler ≠ TTrackHandlerP.manager h) →
        rollbackTrack k track = track)) ∧
    (k ≥ (m.savePoints.length : Int) → paintRollbackTo k m = m) := by
  constructor
  · intro h0 hk
    have hnat : (k + 1).toNat = k.toNat + 1 := by omega
    have hsp := paintRollbackTo_savePoints k m hk
    rw [hnat] at hsp
    refine ⟨hsp, ?_, paintRollbackTo_subTracks k m hk, ?_, ?_⟩
    · rw [hsp, List.length_take]
      omega
    · intro track h hh
      refine ⟨?_, ?_⟩
      · unfold rollbackTrack
        simp only [hh, hnat, getD_take_succ]
      · intro hlen
        have hlt : k.toNat < h.saves.length := by omega
        refine ⟨?_, ?_⟩
        · rw [List.length_take]
          omega
        · rw [List.getD_eq_getElem _ _ hlt, List.getElem?_eq_getElem hlt]
    · intro track hno
      unfold rollbackTrack
      cases hh : track.handler with
      | null => rfl
      | foreign => rfl
      | manager h => exact absurd hh (hno h)
  · intro hk
    unfold paintRollbackTo
    rw [if_pos hk]

/-- Witness of C26: `paintRollbackTo(0)` on the manager with two save points and the
track whose saves are `[2, 4]`: one save point stays, the saves become `[2]`, and the
five-point track gets `pointsRemoved = 0` and `pointsAdded = 5 − 2 = 3`. -/
theorem paintRollbackTo_spec_witness :
    (0 : Int) ≤ 0 ∧ (0 : Int) < (rolledManager.savePoints.length : Int) ∧
    (paintRollbackTo 0 rolledManager).savePoints = [⟨0, true⟩] ∧
    (paintRollbackTo 0 rolledManager).subTracks.map
        (fun t => (t.handler, t.pointsRemoved, t.pointsAdded))
      = [(TTrackHandlerP.manager ⟨[2]⟩, 0, 3)] := by
  have h := (paintRollbackTo_spec 0 rolledManager).1 (by decide) (by decide)
  refine ⟨by decide, by decide, ?_, ?_⟩
  · rw [h.1]
    rfl
  · rw [h.2.2.1]
    rfl

theorem sentWithin_reset {K : Type} (m : TInputManager K) : SentWithinStack (reset m) := by
  unfold SentWithinStack reset
  simp

/-- C30: `0 ≤ savePointsSent ≤ |stack|` holds in the state the constructor leaves, and
is preserved by `paintRollbackTo(k)` (`k ≥ 0`), by `paintApply(count)`
(`count ≤ |stack|`), by the push step of `paintTracks`, by `reset`, and by a whole pass
of the loop of `paintTracks`, for every return value of `paintPush` and `paintApply` of
the tool.  The bounds on `k` and `count` are those of every call the manager makes. -/
theorem savePointsSent_within_stack {K : Type} (tool : TTool K) (m : TInputManager K)
    (h : SentWithinStack m) :
    SentWithinStack (TInputManager.create : TInputManager K) ∧
    (∀ k : Nat, SentWithinStack (paintRollbackTo (k : Int) m)) ∧
    (∀ count : Int, count ≤ (m.savePoints.length : Int) →
      SentWithinStack (paintApply tool count m)) ∧
    (∀ sp : TInputSavePoint, SentWithinStack (pushSavePoint tool sp m)) ∧
    SentWithinStack (reset m) ∧
    (∀ (allFinished : Bool) (pass : ModifierPass K),
      SentWithinStack (paintTracksPass tool allFinished pass m).1) := by
  refine ⟨?_, ?_, ?_, ?_, sentWithin_reset m, ?_⟩
  · unfold SentWithinStack TInputManager.create
    simp
  · intro k
    exact sentWithin_paintRollbackTo k m h
  · intro count hle
    by_cases hc : 0 ≤ count
    · have hcast : ((count.toNat : Nat) : Int) = count := by omega
      have := sentWithin_paintApply tool count.toNat m (by omega) h
      rw [hcast] at this
      exact this
    · rw [paintApply_nonpos tool count m (by omega)]
      exact h
  · intro sp
    exact sentWithin_pushSavePoint tool sp m h
  · intro allFinished pass
    have hb := sentWithin_beforePush tool pass m h
    rw [paintTracksPass_eq]
    unfold passAfterApply
    by_cases hfree : pass.newFree = true
    · rw [if_pos hfree]
      simp only
      unfold finishPaint
      cases allFinished with
      | true =>
        simp only [if_true]
        have h1 : SentWithinStack
            { sendToTool (rollbackAndApply tool pass (createHandlers (runModifiers pass
                { m with created := m.created + 1 }))) with
              discarded := (sendToTool (rollbackAndApply tool pass (createHandlers
                (runModifiers pass { m with created := m.created + 1 })))).discarded
                  ++ [{ (⟨m.created, true⟩ : TInputSavePoint) with available := false }] } :=
          hb
        have h2 := sentWithin_paintApply tool _ _ (le_refl _) h1
        exact h2
      | false =>
        simp only [Bool.false_eq_true, if_false]
        exact hb
    · rw [if_neg hfree]
      exact sentWithin_pushSavePoint tool _ _ hb

/-- Witness of C30: the manager with two save points of which the tool holds one
satisfies the bound, and so does the state after `paintApply(2)` with a tool that
answers `-3`. -/
theorem savePointsSent_within_stack_witness :
    SentWithinStack stackedManager ∧
    SentWithinStack (paintApply refusingTool 2 stackedManager) ∧
    SentWithinStack (paintRollbackTo 0 stackedManager) :=
  have hinv : SentWithinStack stackedManager := by
    unfold SentWithinStack stackedManager
    decide
  ⟨hinv,
   (savePointsSent_within_stack refusingTool stackedManager hinv).2.2.1 2 (by decide),
   (savePointsSent_within_stack refusingTool stackedManager hinv).2.1 0⟩

theorem rollbackScan_spec (size : Nat) (saves : List Int) (count : Int) :
    ∀ r : Nat,
      rollbackScan size saves count r ≤ r ∧
      (rollbackScan size saves count r = 0 ∨
        (rollbackScan size saves count r < size ∧
          saves.getD (rollbackScan size saves count r) 0 ≤ count)) ∧
      (∀ k, k ≤ r → k < size → saves.getD k 0 ≤ count →
        k ≤ rollbackScan size saves count r) := by
  intro r
  induction r with
  | zero =>
    refine ⟨le_refl _, Or.inl rfl, ?_⟩
    intro k hk _ _
    exact hk
  | succ n ih =>
    unfold rollbackScan
    by_cases hc : n + 1 ≥ size ∨ saves.getD (n + 1) 0 > count
    · rw [if_pos hc]
      refine ⟨by omega, ih.2.1, ?_⟩
      intro k hk hks hkc
      have hne : k ≠ n + 1 := by
        intro he
        subst he
        rcases hc with hc | hc
        · omega
        · omega
      exact ih.2.2 k (by omega) hks hkc
    · rw [if_neg hc]
      push_neg at hc
      refine ⟨le_refl _, Or.inr ⟨hc.1, hc.2⟩, ?_⟩
      intro k hk _ _
      exact hk

theorem pairwise_getD_le (saves : List Int) (h : saves.Pairwise (fun a b => a ≤ b))
    (i j : Nat) (hij : i ≤ j) (hj : j < saves.length) :
    saves.getD i 0 ≤ saves.getD j 0 := by
  rw [List.getD_eq_getElem _ _ hj, List.getD_eq_getElem _ _ (by omega)]
  rcases Nat.lt_or_ge i j with hlt | hge
  · rw [List.pairwise_iff_getElem] at h
    exact h i j (by omega) hj hlt
  · have he : i = j := by omega
    subst he
    exact le_refl _

theorem suitsRollback_append {K : Type} (k : Nat) (a b : List (TTrack K)) :
    SuitsRollback k (a ++ b) ↔ SuitsRollback k a ∧ SuitsRollback k b := by
  unfold SuitsRollback
  constructor
  · intro h
    exact ⟨fun t ht => h t (List.mem_append.mpr (Or.inl ht)),
      fun t ht => h t (List.mem_append.mpr (Or.inr ht))⟩
  · rintro ⟨h1, h2⟩ t ht
    rcases List.mem_append.mp ht with h | h
    · exact h1 t h
    · exact h2 t h

theorem rollbackFold_spec {K : Type} (size : Nat) (hS : 1 ≤ size) (all : List (TTrack K))
    (hmono : ∀ t ∈ all, ∀ h, t.handler = TTrackHandlerP.manager h →
      h.saves.length = size ∧ h.saves.Pairwise (fun a b => a ≤ b)) :
    ∀ (l done : List (TTrack K)) (r : Nat), done ++ l = all →
      (r ≤ size ∧
        ((∀ t ∈ done, ¬ (t.pointsRemoved > 0 ∧ ∃ h, t.handler = TTrackHandlerP.manager h)) →
          r = size) ∧
        ((∃ t ∈ done, t.pointsRemoved > 0 ∧ ∃ h, t.handler = TTrackHandlerP.manager h) →
          r < size ∧ (r = 0 ∨ SuitsRollback r done)) ∧
        (∀ k, k < size → SuitsRollback k done → k ≤ r)) →
      (l.foldl (rollbackIndexStep size) r ≤ size ∧
        ((∀ t ∈ all, ¬ (t.pointsRemoved > 0 ∧ ∃ h, t.handler = TTrackHandlerP.manager h)) →
          l.foldl (rollbackIndexStep size) r = size) ∧
        ((∃ t ∈ all, t.pointsRemoved > 0 ∧ ∃ h, t.handler = TTrackHandlerP.manager h) →
          l.foldl (rollbackIndexStep size) r < size ∧
          (l.foldl (rollbackIndexStep size) r = 0 ∨
            SuitsRollback (l.foldl (rollbackIndexStep size) r) all)) ∧
        (∀ k, k < size → SuitsRollback k all → k ≤ l.foldl (rollbackIndexStep size) r)) := by
  intro l
  induction l with
  | nil =>
    intro done r hall hinv
    rw [List.append_nil] at hall
    subst hall
    exact hinv
  | cons t rest ih =>
    intro done r hall hinv
    obtain ⟨hle, hnone, hsome, hgreat⟩ := hinv
    rw [List.foldl_cons]
    have hall2 : (done ++ [t]) ++ rest = all := by
      rw [List.append_assoc]
      exact hall
    have htall : t ∈ all := by
      rw [← hall]
      simp
    have hdone : ∀ u ∈ done, u ∈ all := by
      intro u hu
      rw [← hall]
      exact List.mem_append.mpr (Or.inl hu)
    apply ih (done ++ [t]) _ hall2
    by_cases hrolled : t.pointsRemoved > 0 ∧ ∃ h, t.handler = TTrackHandlerP.manager h
    · obtain ⟨hpr, h, hh⟩ := hrolled
      have hstep : rollbackIndexStep size r t
          = rollbackScan size h.saves (t.size - t.pointsAdded) r := by
        unfold rollbackIndexStep
        rw [if_pos hpr]
        simp only [hh]
      rw [hstep]
      obtain ⟨hs1, hs2, hs3⟩ := rollbackScan_spec size h.saves (t.size - t.pointsAdded) r
      have hlt : rollbackScan size h.saves (t.size - t.pointsAdded) r < size := by
        rcases hs2 with h0 | ⟨h1, _⟩
        · omega
        · exact h1
      refine ⟨by omega, ?_, ?_, ?_⟩
      · intro hno
        exact absurd ⟨hpr, h, hh⟩ (hno t (by simp))
      · intro _
        refine ⟨hlt, ?_⟩
        rcases hs2 with h0 | ⟨_, hfit⟩
        · exact Or.inl h0
        · by_cases hz : rollbackScan size h.saves (t.size - t.pointsAdded) r = 0
          · exact Or.inl hz
          · right
            rw [suitsRollback_append]
            constructor
            · intro u hu hu' hupr huh
              have hex : ∃ v ∈ done, v.pointsRemoved > 0
                  ∧ ∃ h, v.handler = TTrackHandlerP.manager h := ⟨u, hu, hupr, hu', huh⟩
              obtain ⟨hr1, hr2⟩ := hsome hex
              rcases hr2 with hr0 | hfitr
              · omega
              · have hm := hmono u (hdone u hu) hu' huh
                have h1 := pairwise_getD_le hu'.saves hm.2
                  (rollbackScan size h.saves (t.size - t.pointsAdded) r) r hs1 (by omega)
                have h2 := hfitr u hu hu' hupr huh
                omega
            · intro u hu hu' hupr huh
              have hut : u = t := by simpa using hu
              subst hut
              rw [hh] at huh
              cases huh
              exact hfit
      · intro k hk hfitk
        rw [suitsRollback_append] at hfitk
        have hkr := hgreat k hk hfitk.1
        exact hs3 k hkr hk (hfitk.2 t (by simp) h hpr hh)
    · have hstep : rollbackIndexStep size r t = r := by
        unfold rollbackIndexStep
        by_cases hpr : t.pointsRemoved > 0
        · rw [if_pos hpr]
          cases hh : t.handler with
          | null => rfl
          | foreign => rfl
          | manager h => exact absurd ⟨hpr, h, hh⟩ hrolled
        · rw [if_neg hpr]
      rw [hstep]
      have hfits : ∀ k, SuitsRollback k (done ++ [t]) ↔ SuitsRollback k done := by
        intro k
        rw [suitsRollback_append]
        constructor
        · exact fun h => h.1
        · intro h
          refine ⟨h, ?_⟩
          intro u hu hu' hupr huh
          have hut : u = t := by simpa using hu
          subst hut
          exact absurd ⟨hupr, hu', huh⟩ hrolled
      refine ⟨hle, ?_, ?_, ?_⟩
      · intro hno
        exact hnone (fun u hu => hno u (List.mem_append.mpr (Or.inl hu)))
      · rintro ⟨u, hu, hur⟩
        rcases List.mem_append.mp hu with hu1 | hu1
        · obtain ⟨h1, h2⟩ := hsome ⟨u, hu1, hur⟩
          refine ⟨h1, ?_⟩
          rcases h2 with h2 | h2
          · exact Or.inl h2
          · exact Or.inr ((hfits r).mpr h2)
        · have hut : u = t := by simpa using hu1
          subst hut
          exact absurd hur hrolled
      · intro k hk hfitk
        exact hgreat k hk ((hfits k).mp hfitk)

/-- C25: rollback index selection in `paintTracks` for a stack of size `S ≥ 1`.  If no
output track has `pointsRemoved > 0`, the computed `rollbackIndex` is `S` and
`paintRollbackTo` changes nothing.  If some output track with `pointsRemoved > 0`
carries a manager handler, the index lies in `[0, S − 1]`; when moreover every manager
handler holds one `saves` entry per save point and its `saves` are non-decreasing, the
index is the greatest `k < S` with `saves_t[k] ≤ size_t − pointsAdded_t` for every such
track `t`, and 0 when there is no such `k`. -/
theorem rollbackIndex_spec {K : Type} (m : TInputManager K) (hS : 1 ≤ m.savePoints.length) :
    ((∀ t ∈ m.subTracks, ¬ t.pointsRemoved > 0) →
      rollbackIndex m = m.savePoints.length ∧
      paintRollbackTo (rollbackIndex m : Int) m = m) ∧
    ((∃ t ∈ m.subTracks, t.pointsRemoved > 0 ∧ ∃ h, t.handler = TTrackHandlerP.manager h) →
      rollbackIndex m ≤ m.savePoints.length - 1 ∧
      (SavesMatchStack m → SavesMonotone m →
        ((∃ k, k < m.savePoints.length ∧ SuitsRollback k m.subTracks) →
          rollbackIndex m < m.savePoints.length ∧
          SuitsRollback (rollbackIndex m) m.subTracks ∧
          ∀ k, k < m.savePoints.length → SuitsRollback k m.subTracks →
            k ≤ rollbackIndex m) ∧
        ((¬ ∃ k, k < m.savePoints.length ∧ SuitsRollback k m.subTracks) →
          rollbackIndex m = 0))) ∧
    (∀ (tool : TTool K) (pass : ModifierPass K),
      rollbackAndApply tool pass m
        = paintApply tool
            (applyCount pass.stackFree
              (paintRollbackTo (rollbackIndex m : Int) m).savePoints.length : Nat)
            (paintRollbackTo (rollbackIndex m : Int) m)) := by
  refine ⟨?_, ?_, ?_⟩
  · intro hno
    have hstep : ∀ (l : List (TTrack K)) (r : Nat), (∀ t ∈ l, ¬ t.pointsRemoved > 0) →
        l.foldl (rollbackIndexStep m.savePoints.length) r = r := by
      intro l
      induction l with
      | nil => intro r _; rfl
      | cons t rest ih =>
        intro r hl
        rw [List.foldl_cons]
        have h1 : rollbackIndexStep m.savePoints.length r t = r := by
          unfold rollbackIndexStep
          rw [if_neg (hl t (by simp))]
        rw [h1]
        exact ih r (fun u hu => hl u (by simp [hu]))
    have hri : rollbackIndex m = m.savePoints.length := hstep _ _ hno
    refine ⟨hri, ?_⟩
    rw [hri]
    unfold paintRollbackTo
    rw [if_pos (le_refl _)]
  · intro hex
    have hbase : rollbackIndex m ≤ m.savePoints.length - 1 := by
      have hgen : ∀ (l : List (TTrack K)) (r : Nat), r ≤ m.savePoints.length →
          l.foldl (rollbackIndexStep m.savePoints.length) r ≤ r ∧
          ((∃ t ∈ l, t.pointsRemoved > 0 ∧ ∃ h, t.handler = TTrackHandlerP.manager h) →
            l.foldl (rollbackIndexStep m.savePoints.length) r < m.savePoints.length) := by
        intro l
        induction l with
        | nil =>
          intro r _
          refine ⟨le_refl _, ?_⟩
          rintro ⟨t, ht, _⟩
          simp at ht
        | cons t rest ih =>
          intro r hr
          rw [List.foldl_cons]
          have hstep : rollbackIndexStep m.savePoints.length r t ≤ r ∧
              ((t.pointsRemoved > 0 ∧ ∃ h, t.handler = TTrackHandlerP.manager h) →
                rollbackIndexStep m.savePoints.length r t < m.savePoints.length) := by
            unfold rollbackIndexStep
            by_cases hpr : t.pointsRemoved > 0
            · rw [if_pos hpr]
              cases hh : t.handler with
              | null =>
                refine ⟨le_refl _, ?_⟩
                rintro ⟨_, h, hh'⟩
                cases hh'
              | foreign =>
                refine ⟨le_refl _, ?_⟩
                rintro ⟨_, h, hh'⟩
                cases hh'
              | manager h =>
                obtain ⟨hs1, hs2, _⟩ := rollbackScan_spec m.savePoints.length h.saves
                  (t.size - t.pointsAdded) r
                refine ⟨hs1, fun _ => ?_⟩
                simp only
                rcases hs2 with h0 | ⟨h1, _⟩
                · omega
                · exact h1
            · rw [if_neg hpr]
              exact ⟨le_refl _, fun h => absurd h.1 hpr⟩
          obtain ⟨ih1, ih2⟩ := ih (rollbackIndexStep m.savePoints.length r t) (by omega)
          refine ⟨by omega, ?_⟩
          rintro ⟨u, hu, hur⟩
          rcases List.mem_cons.mp hu with rfl | hu
          · have := hstep.2 hur
            omega
          · exact ih2 ⟨u, hu, hur⟩
      have := (hgen m.subTracks m.savePoints.length (le_refl _)).2 hex
      unfold rollbackIndex
      omega
    refine ⟨hbase, ?_⟩
    intro hmatch hmono
    have hfold := rollbackFold_spec m.savePoints.length hS m.subTracks
      (fun t ht h hh => ⟨hmatch t ht h hh, hmono t ht h hh⟩) m.subTracks [] m.savePoints.length
      (List.nil_append _)
      ⟨le_refl _, fun _ => rfl, fun ⟨t, ht, _⟩ => absurd ht (List.not_mem_nil t),
        fun k hk _ => le_of_lt hk⟩
    obtain ⟨_, _, hf3, hf4⟩ := hfold
    obtain ⟨hlt, hzero⟩ := hf3 hex
    constructor
    · rintro ⟨k, hk, hfit⟩
      refine ⟨hlt, ?_, hf4⟩
      rcases hzero with h0 | hfitr
      · have hk0 : k ≤ rollbackIndex m := hf4 k hk hfit
        have hri : rollbackIndex m = 0 := h0
        have hkz : k = 0 := by omega
        rw [hri, ← hkz]
        exact hfit
      · exact hfitr
    · intro hnone
      rcases hzero with h0 | hfitr
      · exact h0
      · exact absurd ⟨_, hlt, hfitr⟩ hnone
  · intro tool pass
    have hne : m.savePoints.isEmpty = false := by
      cases hsp : m.savePoints with
      | nil => rw [hsp] at hS; simp at hS
      | cons a rest => rfl
    unfold rollbackAndApply
    simp only [hne, Bool.false_eq_true, if_false]
    rfl

theorem rolledManager_subTracks (t : TTrack ℚ) (ht : t ∈ rolledManager.subTracks) :
    t.handler = TTrackHandlerP.manager ⟨[2, 4]⟩ ∧ t.size - t.pointsAdded = 3 := by
  have ht2 : t ∈ [(rolledManager.subTracks).headD (rawTrack [] 0 0)] := ht
  rw [List.mem_singleton] at ht2
  subst ht2
  exact ⟨rfl, rfl⟩

/-- Witness of C25: two save points, one track of five points with saves `[2, 4]`, one
point removed and two added: `size − pointsAdded = 3`, so save index 1 (`saves[1] = 4`)
does not suit, save index 0 (`saves[0] = 2`) does, and the rollback index is 0. -/
theorem rollbackIndex_spec_witness :
    1 ≤ rolledManager.savePoints.length ∧
    (∃ t ∈ rolledManager.subTracks,
      t.pointsRemoved > 0 ∧ ∃ h, t.handler = TTrackHandlerP.manager h) ∧
    rollbackIndex rolledManager = 0 ∧
    rollbackIndex rolledManager ≤ rolledManager.savePoints.length - 1 ∧
    SuitsRollback (rollbackIndex rolledManager) rolledManager.subTracks :=
  have hex : ∃ t ∈ rolledManager.subTracks,
      t.pointsRemoved > 0 ∧ ∃ h, t.handler = TTrackHandlerP.manager h :=
    ⟨_, List.mem_singleton.mpr rfl, by decide, ⟨[2, 4]⟩, rfl⟩
  have hmatch : SavesMatchStack rolledManager := by
    intro t ht h hh
    rw [(rolledManager_subTracks t ht).1] at hh
    cases hh
    rfl
  have hmono : SavesMonotone rolledManager := by
    intro t ht h hh
    rw [(rolledManager_subTracks t ht).1] at hh
    cases hh
    decide
  have hsuit : ∃ k, k < rolledManager.savePoints.length
      ∧ SuitsRollback k rolledManager.subTracks := by
    refine ⟨0, by decide, ?_⟩
    intro t ht h _ hh
    rw [(rolledManager_subTracks t ht).2]
    rw [(rolledManager_subTracks t ht).1] at hh
    cases hh
    decide
  ⟨by decide, hex, rfl, ((rollbackIndex_spec rolledManager (by decide)).2.1 hex).1,
    ((((rollbackIndex_spec rolledManager (by decide)).2.1 hex).2 hmatch hmono).1 hsuit).2.1⟩

theorem discards_refl {K : Type} (m : TInputManager K) : Discards m m :=
  ⟨[], by simp, by simp⟩

theorem discards_paintRollbackTo {K : Type} (saveIndex : Int) (m : TInputManager K) :
    Discards m (paintRollbackTo saveIndex m) := by
  by_cases hk : saveIndex ≥ (m.savePoints.length : Int)
  · have he : paintRollbackTo saveIndex m = m := by
      unfold paintRollbackTo
      rw [if_pos hk]
    rw [he]
    exact discards_refl m
  · refine ⟨m.savePoints.drop (saveIndex + 1).toNat, ?_, ?_⟩
    · unfold paintRollbackTo
      simp only [if_neg hk, TInputManager.dropSavePoints, TInputManager.setSubTracks]
      split_ifs <;> exact (List.take_append_drop _ _).symm
    · unfold paintRollbackTo
      simp only [if_neg hk, TInputManager.dropSavePoints, TInputManager.setSubTracks]
      split_ifs <;> rfl

theorem discards_paintApply {K : Type} (tool : TTool K) (count : Int)
    (m : TInputManager K) : Discards m (paintApply tool count m) := by
  by_cases hc : count ≤ 0
  · rw [paintApply_nonpos tool count m hc]
    exact discards_refl m
  · refine ⟨m.savePoints.drop ((m.savePoints.length : Int) - count).toNat, ?_, ?_⟩
    · unfold paintApply
      simp only [if_neg hc, TInputManager.dropSavePoints, TInputManager.setSubTracks]
      split_ifs <;> exact (List.take_append_drop _ _).symm
    · unfold paintApply
      simp only [if_neg hc, TInputManager.dropSavePoints, TInputManager.setSubTracks]
      split_ifs <;> rfl

theorem discards_reset {K : Type} (m : TInputManager K) : Discards m (reset m) :=
  ⟨m.savePoints, by simp [reset], rfl⟩

theorem discards_shrinks {K : Type} (m m' : TInputManager K) (h : Discards m m') :
    m'.savePoints <+: m.savePoints ∧
    ∃ extra, m'.discarded = m.discarded ++ extra ∧ ∀ s ∈ extra, s.available = false := by
  obtain ⟨removed, h1, h2⟩ := h
  refine ⟨⟨removed, h1.symm⟩, _, h2, ?_⟩
  intro s hs
  rw [List.mem_map] at hs
  obtain ⟨s0, _, rfl⟩ := hs
  rfl

theorem shrinks_trans {K : Type} (m m1 m2 : TInputManager K)
    (h1 : m1.savePoints <+: m.savePoints ∧
      ∃ extra, m1.discarded = m.discarded ++ extra ∧ ∀ s ∈ extra, s.available = false)
    (h2 : m2.savePoints <+: m1.savePoints ∧
      ∃ extra, m2.discarded = m1.discarded ++ extra ∧ ∀ s ∈ extra, s.available = false) :
    m2.savePoints <+: m.savePoints ∧
    ∃ extra, m2.discarded = m.discarded ++ extra ∧ ∀ s ∈ extra, s.available = false := by
  obtain ⟨p1, e1, he1, ha1⟩ := h1
  obtain ⟨p2, e2, he2, ha2⟩ := h2
  refine ⟨p2.trans p1, e1 ++ e2, ?_, ?_⟩
  · rw [he2, he1, List.append_assoc]
  · intro s hs
    rcases List.mem_append.mp hs with h | h
    · exact ha1 s h
    · exact ha2 s h

theorem shrinks_passAfterApply {K : Type} (tool : TTool K) (pass : ModifierPass K)
    (m : TInputManager K) :
    (sendToTool (passAfterApply tool pass m)).savePoints <+: m.savePoints ∧
    ∃ extra, (sendToTool (passAfterApply tool pass m)).discarded = m.discarded ++ extra ∧
      ∀ s ∈ extra, s.available = false := by
  have h0 : (sendToTool (passAfterApply tool pass m)).savePoints
        = (passAfterApply tool pass m).savePoints ∧
      (sendToTool (passAfterApply tool pass m)).discarded
        = (passAfterApply tool pass m).discarded := by
    unfold sendToTool
    simp only
    split_ifs <;> exact ⟨rfl, rfl⟩
  rw [h0.1, h0.2]
  have hstart : (createHandlers (runModifiers pass { m with created := m.created + 1 })).savePoints
        = m.savePoints ∧
      (createHandlers (runModifiers pass { m with created := m.created + 1 })).discarded
        = m.discarded := ⟨rfl, rfl⟩
  have hra : ∀ m0 : TInputManager K,
      (rollbackAndApply tool pass m0).savePoints <+: m0.savePoints ∧
      ∃ extra, (rollbackAndApply tool pass m0).discarded = m0.discarded ++ extra ∧
        ∀ s ∈ extra, s.available = false := by
    intro m0
    unfold rollbackAndApply
    split_ifs
    · exact discards_shrinks _ _ (discards_refl m0)
    · exact shrinks_trans m0 _ _
        (discards_shrinks _ _ (discards_paintRollbackTo _ m0))
        (discards_shrinks _ _ (discards_paintApply tool _ _))
  have h := hra (createHandlers (runModifiers pass { m with created := m.created + 1 }))
  rw [hstart.1, hstart.2] at h
  exact h

theorem finishPaint_discards {K : Type} (tool : TTool K) (allFinished : Bool)
    (sp : TInputSavePoint) (m : TInputManager K) :
    ∃ removed : List TInputSavePoint,
      m.savePoints = (finishPaint tool allFinished sp m).savePoints ++ removed ∧
      (finishPaint tool allFinished sp m).discarded
        = m.discarded ++ { sp with available := false }
            :: removed.map (fun s => { s with available := false }) := by
  unfold finishPaint
  cases allFinished with
  | true =>
    simp only [if_true]
    obtain ⟨removed, h1, h2⟩ := discards_paintApply tool
      (({ m with discarded := m.discarded ++ [{ sp with available := false }] } :
        TInputManager K).savePoints.length : Int)
      { m with discarded := m.discarded ++ [{ sp with available := false }] }
    refine ⟨removed, h1, ?_⟩
    simp only at h2 ⊢
    rw [h2, List.append_assoc]
    rfl
  | false =>
    simp only [Bool.false_eq_true, if_false]
    exact ⟨[], by simp, by simp⟩

/-- C29: a discarded save point is never available.  `paintRollbackTo`, `paintApply` and
`reset` take the last entries off the stack and leave each of them with
`available = false`; the entries that stay on the stack are unchanged.  A fresh save
point found free at the end of a pass of `paintTracks` is marked unavailable and is not
on the stack after the pass, whose entries are the first entries of the stack before.
No step of a pass makes a discarded save point available again. -/
theorem discarded_unavailable {K : Type} (tool : TTool K) (m : TInputManager K) :
    (∀ k : Int, Discards m (paintRollbackTo k m)) ∧
    (∀ count : Int, Discards m (paintApply tool count m)) ∧
    (Discards m (reset m) ∧ (reset m).savePoints = []) ∧
    (∀ (allFinished : Bool) (sp : TInputSavePoint),
      ∃ removed : List TInputSavePoint,
        m.savePoints = (finishPaint tool allFinished sp m).savePoints ++ removed ∧
        (finishPaint tool allFinished sp m).discarded
          = m.discarded ++ { sp with available := false }
              :: removed.map (fun s => { s with available := false })) ∧
    (∀ (allFinished : Bool) (pass : ModifierPass K), pass.newFree = true →
      (paintTracksPass tool allFinished pass m).1.savePoints <+: m.savePoints ∧
      (⟨m.created, false⟩ : TInputSavePoint)
        ∈ (paintTracksPass tool allFinished pass m).1.discarded) ∧
    (∀ (allFinished : Bool) (pass : ModifierPass K),
      ∃ extra, (paintTracksPass tool allFinished pass m).1.discarded = m.discarded ++ extra ∧
        ∀ s ∈ extra, s.available = false) ∧
    (∀ m' : TInputManager K, Discards m m' →
      (∀ s ∈ m.discarded, s.available = false) → ∀ s ∈ m'.discarded, s.available = false) := by
  have hpass : ∀ (allFinished : Bool) (pass : ModifierPass K),
      ((paintTracksPass tool allFinished pass m).1.savePoints <+: m.savePoints ∨
        pass.newFree = false) ∧
      (pass.newFree = true → (⟨m.created, false⟩ : TInputSavePoint)
        ∈ (paintTracksPass tool allFinished pass m).1.discarded) ∧
      ∃ extra, (paintTracksPass tool allFinished pass m).1.discarded = m.discarded ++ extra ∧
        ∀ s ∈ extra, s.available = false := by
    intro allFinished pass
    obtain ⟨hp, e1, he1, ha1⟩ := shrinks_passAfterApply tool pass m
    rw [paintTracksPass_eq]
    by_cases hfree : pass.newFree = true
    · rw [if_pos hfree]
      simp only
      obtain ⟨removed, h1, h2⟩ := finishPaint_discards tool allFinished ⟨m.created, true⟩
        (sendToTool (passAfterApply tool pass m))
      refine ⟨Or.inl ?_, ?_, ?_⟩
      · exact List.IsPrefix.trans ⟨removed, h1.symm⟩ hp
      · intro _
        rw [h2]
        simp
      · refine ⟨e1 ++ ({ (⟨m.created, true⟩ : TInputSavePoint) with available := false }
          :: removed.map (fun s => { s with available := false })), ?_, ?_⟩
        · rw [h2, he1, List.append_assoc]
        · intro s hs
          rcases List.mem_append.mp hs with h | h
          · exact ha1 s h
          · rcases List.mem_cons.mp h with rfl | h
            · rfl
            · rw [List.mem_map] at h
              obtain ⟨s0, _, rfl⟩ := h
              rfl
    · rw [if_neg hfree]
      simp only
      refine ⟨Or.inr (by simpa using hfree), fun h => absurd h hfree, e1, ?_, ha1⟩
      have hd : (pushSavePoint tool ⟨m.created, true⟩
          (sendToTool (passAfterApply tool pass m))).discarded
          = (sendToTool (passAfterApply tool pass m)).discarded := rfl
      rw [hd, he1]
  refine ⟨fun k => discards_paintRollbackTo k m, fun c => discards_paintApply tool c m,
    ⟨discards_reset m, rfl⟩, fun af sp => finishPaint_discards tool af sp m, ?_, ?_, ?_⟩
  · intro allFinished pass hfree
    obtain ⟨h1, h2, _⟩ := hpass allFinished pass
    refine ⟨?_, h2 hfree⟩
    rcases h1 with h | h
    · exact h
    · rw [hfree] at h
      cases h
  · intro allFinished pass
    exact (hpass allFinished pass).2.2
  · rintro m' ⟨removed, _, h2⟩ hall s hs
    rw [h2] at hs
    rcases List.mem_append.mp hs with h | h
    · exact hall s h
    · rw [List.mem_map] at h
      obtain ⟨s0, _, rfl⟩ := h
      rfl

theorem visitedSteps_eq_take {K : Type} [LinearOrderedField K] :
    ∀ steps : List (WeightStep K),
      visitedSteps steps
        = steps.take (steps.findIdx (fun s => decide (s.arc ≥ maxLength)) + 1) := by
  intro steps
  induction steps with
  | nil => rfl
  | cons s rest ih =>
    unfold visitedSteps
    rw [List.findIdx_cons]
    by_cases h : s.arc ≥ maxLength
    · rw [if_pos h]
      simp [h]
    · rw [if_neg h]
      simp [h, ih]

theorem weightSum_append {K : Type} [LinearOrderedField K] (m : Metrics K)
    (a b : List (WeightStep K)) :
    weightSum m (a ++ b) = weightSum m a + weightSum m b ∧
    deviationSum m (a ++ b) = deviationSum m a + deviationSum m b := by
  unfold weightSum deviationSum
  rw [List.map_append, List.sum_append, List.map_append, List.sum_append]
  exact ⟨rfl, rfl⟩

theorem weightSum_filter_cons {K : Type} [LinearOrderedField K] (m : Metrics K)
    (p : WeightStep K → Bool) (st : WeightStep K) (v : List (WeightStep K)) :
    weightSum m ((st :: v).filter p)
      = weightSum m ([st].filter p) + weightSum m (v.filter p) ∧
    deviationSum m ((st :: v).filter p)
      = deviationSum m ([st].filter p) + deviationSum m (v.filter p) := by
  have h : (st :: v).filter p = [st].filter p ++ v.filter p := by
    rw [← List.filter_append]
    rfl
  rw [h]
  exact weightSum_append m _ _

theorem calcTrackWeightStep_sums {K : Type} [LinearOrderedField K] (m : Metrics K) (eps : K)
    (g : TGuideline K) (toScreen : TAffine K) (s : WeightSums K) (tp : TTrackPoint K)
    (st : WeightStep K)
    (hst : st = { length := m.tdistance (toScreen.apply tp.position) s.prev
                  arc := s.sumLength + m.tdistance (toScreen.apply tp.position) s.prev
                  deviation := m.tdistance
                    (toScreen.apply (g.transformPoint tp).position)
                    (toScreen.apply tp.position) }) :
    (calcTrackWeightStep m eps g toScreen s tp).sumLength = st.arc ∧
    (calcTrackWeightStep m eps g toScreen s tp).prev = toScreen.apply tp.position ∧
    (calcTrackWeightStep m eps g toScreen s tp).sumWeight
      = s.sumWeight + weightSum m
          ([st].filter (fun s => decide (s.arc - (1 / 2) * s.length > eps))) ∧
    (calcTrackWeightStep m eps g toScreen s tp).sumDeviation
      = s.sumDeviation + deviationSum m
          ([st].filter (fun s => decide (s.arc - (1 / 2) * s.length > eps))) := by
  have hmidEq : st.arc - 1 / 2 * st.length
      = s.sumLength + m.tdistance (toScreen.apply tp.position) s.prev
        - 1 / 2 * m.tdistance (toScreen.apply tp.position) s.prev := by
    rw [hst]
  have hw : st.weight m = m.tdistance (toScreen.apply tp.position) s.prev
      * m.logNormalDistribuitionUnscaled
          (s.sumLength + m.tdistance (toScreen.apply tp.position) s.prev
            - 1 / 2 * m.tdistance (toScreen.apply tp.position) s.prev) snapLenght snapScale := by
    rw [hst]
    rfl
  have hdv : st.deviation = m.tdistance (toScreen.apply (g.transformPoint tp).position)
      (toScreen.apply tp.position) := by
    rw [hst]
  have harc : st.arc = s.sumLength + m.tdistance (toScreen.apply tp.position) s.prev := by
    rw [hst]
  by_cases hmid : st.arc - 1 / 2 * st.length > eps
  · have hf : [st].filter (fun s => decide (s.arc - (1 / 2) * s.length > eps)) = [st] :=
      @List.filter_cons_of_pos _ (fun s => decide (s.arc - (1 / 2) * s.length > eps)) st []
        (decide_eq_true hmid)
    rw [hf]
    simp only [weightSum, deviationSum, List.map_cons, List.map_nil, List.sum_cons,
      List.sum_nil, add_zero, hw, hdv, harc]
    rw [hmidEq] at hmid
    unfold calcTrackWeightStep
    simp only [if_pos hmid]
    refine ⟨?_, ?_, ?_, ?_⟩ <;> trivial
  · have hf : [st].filter (fun s => decide (s.arc - (1 / 2) * s.length > eps)) = [] :=
      @List.filter_cons_of_neg _ (fun s => decide (s.arc - (1 / 2) * s.length > eps)) st []
        (by simpa using hmid)
    rw [hf]
    simp only [weightSum, deviationSum, List.map_nil, List.sum_nil, add_zero, harc]
    rw [hmidEq] at hmid
    unfold calcTrackWeightStep
    simp only [if_neg hmid]
    refine ⟨?_, ?_, ?_, ?_⟩ <;> trivial

theorem calcTrackWeightLoop_sums {K : Type} [LinearOrderedField K] (m : Metrics K) (eps : K)
    (g : TGuideline K) (toScreen : TAffine K) :
    ∀ (pts : List (TTrackPoint K)) (s : WeightSums K),
      (calcTrackWeightLoop m eps g toScreen pts s).sumWeight
        = s.sumWeight
          + weightSum m (contributingSteps eps (weightSteps m g toScreen s.prev s.sumLength pts)) ∧
      (calcTrackWeightLoop m eps g toScreen pts s).sumDeviation
        = s.sumDeviation
          + deviationSum m
              (contributingSteps eps (weightSteps m g toScreen s.prev s.sumLength pts)) := by
  intro pts
  induction pts with
  | nil =>
    intro s
    simp [calcTrackWeightLoop, weightSteps, contributingSteps, visitedSteps, weightSum,
      deviationSum]
  | cons tp rest ih =>
    intro s
    obtain ⟨hlen, hprev, hw, hd⟩ := calcTrackWeightStep_sums m eps g toScreen s tp _ rfl
    unfold calcTrackWeightLoop
    simp only [weightSteps, contributingSteps, visitedSteps]
    by_cases hmax : (calcTrackWeightStep m eps g toScreen s tp).sumLength ≥ maxLength
    · rw [if_pos hmax]
      rw [hlen] at hmax
      rw [if_pos hmax]
      exact ⟨hw, hd⟩
    · rw [if_neg hmax]
      rw [hlen] at hmax
      rw [if_neg hmax]
      obtain ⟨ih1, ih2⟩ := ih (calcTrackWeightStep m eps g toScreen s tp)
      have hc := weightSum_filter_cons m
        (fun s : WeightStep K => decide (s.arc - (1 / 2) * s.length > eps))
        { length := m.tdistance (toScreen.apply tp.position) s.prev
          arc := s.sumLength + m.tdistance (toScreen.apply tp.position) s.prev
          deviation := m.tdistance (toScreen.apply (g.transformPoint tp).position)
            (toScreen.apply tp.position) }
        (visitedSteps (weightSteps m g toScreen (toScreen.apply tp.position)
          (s.sumLength + m.tdistance (toScreen.apply tp.position) s.prev) rest))
      rw [hc.1, hc.2, ih1, ih2, hlen, hprev, hw, hd, add_assoc, add_assoc]
      exact ⟨rfl, rfl⟩

theorem calcTrackWeight_eq_sums {K : Type} [LinearOrderedField K] (m : Metrics K) (eps : K)
    (g : TGuideline K) (points : List (TTrackPoint K)) (toScreen : TAffine K)
    (h2 : 2 ≤ points.length) :
    (calcTrackWeight m eps g points toScreen).1 =
      if eps < weightSum m (contributingSteps eps (trackWeightSteps m g toScreen points)) then
        ((deviationSum m (contributingSteps eps (trackWeightSteps m g toScreen points))
            / weightSum m (contributingSteps eps (trackWeightSteps m g toScreen points)) : K) :
          WithTop K)
      else ⊤ := by
  have hn : ¬ points.length < 2 := by omega
  unfold calcTrackWeight
  simp only [if_neg hn, calcTrackWeightSums]
  obtain ⟨h1, h3⟩ := calcTrackWeightLoop_sums m eps g toScreen points
    { sumWeight := 0, sumLength := 0, sumDeviation := 0,
      prev := toScreen.apply (pointAt points 0).position, longEnough := false }
  simp only [zero_add] at h1 h3
  rw [h1, h3]
  rfl

theorem longStepTrack_steps :
    trackWeightSteps realMetrics TGuideline.base TAffine.identity longStepTrack
      = [⟨0, 0, 0⟩, ⟨50, 50, 0⟩] := by
  have h50 : Real.sqrt ((50 : ℝ) ^ 2) = 50 := Real.sqrt_sq (by norm_num)
  simp [trackWeightSteps, weightSteps, longStepTrack, pointAt, clampIndex, TGuideline.base,
    TAffine.identity, TAffine.apply, TTrackPoint.blank, TPointD.zero, realMetrics, h50]

theorem realMetrics_weight_25 :
    (TConsts.epsilon : ℝ)
      < 50 * realMetrics.logNormalDistribuitionUnscaled (50 - 1 / 2 * 50) snapLenght
          snapScale := by
  have hx : (50 : ℝ) - 1 / 2 * 50 = 25 := by norm_num
  rw [hx]
  simp only [realMetrics, snapLenght, snapScale]
  have hlog0 : 0 ≤ Real.log ((25 : ℝ) / 20) := Real.log_nonneg (by norm_num)
  have hlog1 : Real.log ((25 : ℝ) / 20) ≤ 25 / 20 - 1 :=
    Real.log_le_sub_one_of_pos (by norm_num)
  have hsq : (Real.log ((25 : ℝ) / 20) / 1) ^ 2 ≤ 1 / 16 := by
    rw [div_one]
    nlinarith
  have hexp := Real.add_one_le_exp (-(1 / 2) * (Real.log ((25 : ℝ) / 20) / 1) ^ 2)
  have heps : (TConsts.epsilon : ℝ) = 1 / 100000000 := rfl
  rw [heps]
  have hpos : (31 : ℝ) / 32
      ≤ Real.exp (-(1 / 2) * (Real.log ((25 : ℝ) / 20) / 1) ^ 2) := by
    linarith
  have h2 : 50 * (Real.exp (-(1 / 2) * (Real.log ((25 : ℝ) / 20) / 1) ^ 2) / 25)
      = 2 * Real.exp (-(1 / 2) * (Real.log ((25 : ℝ) / 20) / 1) ^ 2) := by
    ring
  rw [h2]
  linarith

/-- C28 (as stated, fails): with the Euclidean distance and the unscaled log-normal
density, on the two-point track from (0,0) to (50,0) in screen units the only step whose
running arc length is at most 40 is the first, of length 0, so the sums the claim
describes give `Σ w = 0` and the weight `+infinity`; `calcTrackWeight` also takes in
the step of length 50 that crosses the cap and returns the finite weight 0 for the
base guideline. -/
theorem calcTrackWeight_crossing_step :
    (calcTrackWeight realMetrics TConsts.epsilon TGuideline.base longStepTrack
      TAffine.identity).1 = ((0 : ℝ) : WithTop ℝ) ∧
    specTrackWeight realMetrics TConsts.epsilon TGuideline.base longStepTrack
      TAffine.identity = ⊤ ∧
    ¬ ((calcTrackWeight realMetrics TConsts.epsilon TGuideline.base longStepTrack
        TAffine.identity).1
      = specTrackWeight realMetrics TConsts.epsilon TGuideline.base longStepTrack
          TAffine.identity) := by
  have heps : (TConsts.epsilon : ℝ) = 1 / 100000000 := rfl
  have hmax : (maxLength : ℝ) = 40 := by norm_num [maxLength, snapLenght, snapScale]
  have hcontrib : contributingSteps (TConsts.epsilon : ℝ) [⟨0, 0, 0⟩, ⟨50, 50, 0⟩]
      = [⟨50, 50, 0⟩] := by
    unfold contributingSteps visitedSteps visitedSteps
    rw [if_neg (by rw [hmax]; norm_num), if_pos (by rw [hmax]; norm_num)]
    rw [List.filter_cons_of_neg (by rw [heps]; norm_num),
      List.filter_cons_of_pos (by rw [heps]; norm_num), List.filter_nil]
  have hcode : (calcTrackWeight realMetrics TConsts.epsilon TGuideline.base longStepTrack
      TAffine.identity).1 = ((0 : ℝ) : WithTop ℝ) := by
    rw [calcTrackWeight_eq_sums realMetrics TConsts.epsilon TGuideline.base longStepTrack
      TAffine.identity (by simp [longStepTrack]), longStepTrack_steps, hcontrib]
    have hw : weightSum realMetrics [(⟨50, 50, 0⟩ : WeightStep ℝ)]
        = 50 * realMetrics.logNormalDistribuitionUnscaled (50 - 1 / 2 * 50) snapLenght
            snapScale := by
      simp [weightSum, WeightStep.weight]
    have hd : deviationSum realMetrics [(⟨50, 50, 0⟩ : WeightStep ℝ)] = 0 := by
      simp [deviationSum]
    rw [hw, hd, if_pos realMetrics_weight_25, zero_div]
  have hspec : specTrackWeight realMetrics TConsts.epsilon TGuideline.base longStepTrack
      TAffine.identity = ⊤ := by
    unfold specTrackWeight
    simp only [longStepTrack_steps]
    rw [List.filter_cons_of_pos (by rw [hmax]; norm_num),
      List.filter_cons_of_neg (by rw [hmax]; norm_num), List.filter_nil]
    have hw : weightSum realMetrics [(⟨0, 0, 0⟩ : WeightStep ℝ)] = 0 := by
      simp [weightSum, WeightStep.weight]
    rw [hw, if_pos (by rw [heps]; norm_num)]
  refine ⟨hcode, hspec, ?_⟩
  rw [hcode, hspec]
  exact WithTop.coe_ne_top

/-- C28 (as amended): for every track with at least two points, `calcTrackWeight` equals
`Σ w_i·d_i / Σ w_i`, or `+infinity` when `Σ w_i ≤ ε`, where `ℓ_i` is the screen-space
length of step `i`, `L_i` the running arc length after step `i`,
`w_i = ℓ_i · f(L_i − ℓ_i/2)` with `f` the unscaled log-normal density for
`snapLenght = 20` and `snapScale = 1`, `d_i` the screen-space distance between point `i`
and its guideline projection, and the sums range over the steps with midpoint arc
length `L_i − ℓ_i/2 > ε` among the steps up to and including the first one whose
running arc length reaches `L_i ≥ 2·snapLenght·snapScale = 40`. -/
theorem calcTrackWeight_sums {K : Type} [LinearOrderedField K] (m : Metrics K) (eps : K)
    (g : TGuideline K) (points : List (TTrackPoint K)) (toScreen : TAffine K)
    (h2 : 2 ≤ points.length) :
    (calcTrackWeight m eps g points toScreen).1 =
      (if eps < weightSum m (contributingSteps eps (trackWeightSteps m g toScreen points)) then
        ((deviationSum m (contributingSteps eps (trackWeightSteps m g toScreen points))
            / weightSum m (contributingSteps eps (trackWeightSteps m g toScreen points)) : K) :
          WithTop K)
      else ⊤) ∧
    contributingSteps eps (trackWeightSteps m g toScreen points)
      = ((trackWeightSteps m g toScreen points).take
          ((trackWeightSteps m g toScreen points).findIdx
            (fun s => decide (s.arc ≥ maxLength)) + 1)).filter
          (fun s => decide (s.arc - (1 / 2) * s.length > eps)) ∧
    (maxLength : K) = 40 ∧ (snapLenght : K) = 20 ∧ (snapScale : K) = 1 := by
  refine ⟨calcTrackWeight_eq_sums m eps g points toScreen h2, ?_, ?_, rfl, rfl⟩
  · unfold contributingSteps
    rw [visitedSteps_eq_take]
  · norm_num [maxLength, snapLenght, snapScale]

/-- Witness of C28 (as amended): the track (0,1), (30,1), (50,2) with the taxicab
distance, the constant weighting function 1 and the projection on the x axis.  The steps
have lengths 0, 30, 21 and running arc lengths 0, 30, 51; the last one crosses the cap
and counts, the first has midpoint 0 and does not: the weight is
`(30·1 + 21·2) / (30 + 21) = 24/17`. -/
theorem calcTrackWeight_sums_witness :
    2 ≤ gridTrack.length ∧
    trackWeightSteps gridMetrics axisGuideline TAffine.identity gridTrack
      = [⟨0, 0, 1⟩, ⟨30, 30, 1⟩, ⟨21, 51, 2⟩] ∧
    (calcTrackWeight gridMetrics TConsts.epsilon axisGuideline gridTrack
      TAffine.identity).1 = ((24 / 17 : ℚ) : WithTop ℚ) := by
  have hsteps : trackWeightSteps gridMetrics axisGuideline TAffine.identity gridTrack
      = [⟨0, 0, 1⟩, ⟨30, 30, 1⟩, ⟨21, 51, 2⟩] := by
    norm_num [trackWeightSteps, weightSteps, gridTrack, samplePoint, pointAt, clampIndex,
      axisGuideline, TAffine.identity, TAffine.apply, gridMetrics]
  have heps : (TConsts.epsilon : ℚ) = 1 / 100000000 := rfl
  have hmax : (maxLength : ℚ) = 40 := by norm_num [maxLength, snapLenght, snapScale]
  have hcontrib : contributingSteps (TConsts.epsilon : ℚ)
      [⟨0, 0, 1⟩, ⟨30, 30, 1⟩, ⟨21, 51, 2⟩] = [⟨30, 30, 1⟩, ⟨21, 51, 2⟩] := by
    unfold contributingSteps visitedSteps visitedSteps visitedSteps
    rw [if_neg (by rw [hmax]; norm_num), if_neg (by rw [hmax]; norm_num),
      if_pos (by rw [hmax]; norm_num)]
    rw [List.filter_cons_of_neg (by rw [heps]; norm_num),
      List.filter_cons_of_pos (by rw [heps]; norm_num),
      List.filter_cons_of_pos (by rw [heps]; norm_num), List.filter_nil]
  refine ⟨by decide, hsteps, ?_⟩
  rw [(calcTrackWeight_sums gridMetrics TConsts.epsilon axisGuideline gridTrack
    TAffine.identity (by decide)).1, hsteps, hcontrib]
  have hw : weightSum gridMetrics [(⟨30, 30, 1⟩ : WeightStep ℚ), ⟨21, 51, 2⟩] = 51 := by
    norm_num [weightSum, WeightStep.weight, gridMetrics]
  have hd : deviationSum gridMetrics [(⟨30, 30, 1⟩ : WeightStep ℚ), ⟨21, 51, 2⟩] = 72 := by
    norm_num [deviationSum, WeightStep.weight, gridMetrics]
  rw [hw, hd, if_pos (by rw [heps]; norm_num)]
  norm_num

/-- C33 (as stated, fails): the times `0`, `10 + eps/4`, `10 + 11*eps/4` of `slipTrack`
are non-decreasing and `10 − eps ≤ 10`, yet
`indexByTime(10 − eps) = 3999999996/4000000001` is above `indexByTime(10) = 9/10`.  On
the times `0`, `10 + eps/8`, `10 + eps/4`, `10 + 3*eps` of `clusterTrack` the value
`10 + eps/16` lies between the samples 0 and 1, and the result `85/44` is above 1: the
search ends on the pair `(2, 3)`, whose lower sample is within `eps/2` above the
value. -/
theorem indexByTime_not_monotone :
    ((slipTrack.map (fun p => p.time)).Pairwise (fun a b => a ≤ b) ∧
      (10 - TConsts.epsilon : ℚ) ≤ 10 ∧
      indexByTime TConsts.epsilon slipTrack (10 - TConsts.epsilon)
        = 3999999996 / 4000000001 ∧
      indexByTime TConsts.epsilon slipTrack 10 = 9 / 10 ∧
      ¬ (indexByTime TConsts.epsilon slipTrack (10 - TConsts.epsilon)
          ≤ indexByTime TConsts.epsilon slipTrack 10)) ∧
    ((clusterTrack.map (fun p => p.time)).Pairwise (fun a b => a ≤ b) ∧
      (TTrackPoint.time (clusterTrack.getD 0 TTrackPoint.blank)
          ≤ 10 + TConsts.epsilon / 16 ∧
        10 + TConsts.epsilon / 16
          < TTrackPoint.time (clusterTrack.getD 1 TTrackPoint.blank)) ∧
      (binarySearchFrame TConsts.epsilon TTrackPoint.time clusterTrack
        (10 + TConsts.epsilon / 16)).1 = 2 ∧
      indexByTime TConsts.epsilon clusterTrack (10 + TConsts.epsilon / 16) = 85 / 44 ∧
      ¬ (indexByTime TConsts.epsilon clusterTrack (10 + TConsts.epsilon / 16) ≤ 1)) := by
  have hfr1 : binarySearchFrame TConsts.epsilon TTrackPoint.time slipTrack
      (10 - TConsts.epsilon) = (0, 0, 10 + TConsts.epsilon / 4) := by
    norm_num [binarySearchFrame, binarySearchLoop, slipTrack, samplePoint, TConsts.epsilon]
  have hfr2 : binarySearchFrame TConsts.epsilon TTrackPoint.time slipTrack 10
      = (1, 10 + TConsts.epsilon / 4, 10 + 11 * TConsts.epsilon / 4) := by
    norm_num [binarySearchFrame, binarySearchLoop, slipTrack, samplePoint, TConsts.epsilon]
  have hfr3 : binarySearchFrame TConsts.epsilon TTrackPoint.time clusterTrack
      (10 + TConsts.epsilon / 16)
      = (2, 10 + TConsts.epsilon / 4, 10 + 3 * TConsts.epsilon) := by
    norm_num [binarySearchFrame, binarySearchLoop, clusterTrack, samplePoint,
      TConsts.epsilon]
  have h1 : indexByTime TConsts.epsilon slipTrack (10 - TConsts.epsilon)
      = 3999999996 / 4000000001 := by
    rw [indexByTime, binarySearch, hfr1]
    norm_num [slipTrack, samplePoint, TConsts.epsilon]
  have h2 : indexByTime TConsts.epsilon slipTrack 10 = 9 / 10 := by
    rw [indexByTime, binarySearch, hfr2]
    norm_num [slipTrack, samplePoint, TConsts.epsilon]
  have h3 : indexByTime TConsts.epsilon clusterTrack (10 + TConsts.epsilon / 16)
      = 85 / 44 := by
    rw [indexByTime, binarySearch, hfr3]
    norm_num [clusterTrack, samplePoint, TConsts.epsilon]
  refine ⟨⟨?_, ?_, h1, h2, ?_⟩, ?_, ?_, by rw [hfr3], h3, ?_⟩
  · norm_num [slipTrack, samplePoint, TConsts.epsilon]
  · norm_num [TConsts.epsilon]
  · rw [h1, h2]
    norm_num
  · norm_num [clusterTrack, samplePoint, TConsts.epsilon]
  · norm_num [clusterTrack, samplePoint, TConsts.epsilon]
  · rw [h3]
    norm_num

theorem binarySearch_interior_pair {K : Type} [LinearOrderedField K] (eps : K)
    (heps : 0 < eps) (field : TTrackPoint K → K) (pts : List (TTrackPoint K)) (v : K)
    (hne : pts ≠ [])
    (h1 : ¬ v - field (pts.getD 0 TTrackPoint.blank) ≤ eps / 2)
    (h2 : ¬ field (pts.getD (pts.length - 1) TTrackPoint.blank) - v ≤ eps / 2) :
    ∃ a : Nat, a + 1 < pts.length ∧
      field (pts.getD a TTrackPoint.blank) - v ≤ eps / 2 ∧
      eps / 2 < field (pts.getD (a + 1) TTrackPoint.blank) - v ∧
      binarySearch eps field pts v =
        if field (pts.getD (a + 1) TTrackPoint.blank)
            - field (pts.getD a TTrackPoint.blank) ≥ eps / 2 then
          (a : K) + (v - field (pts.getD a TTrackPoint.blank))
            / (field (pts.getD (a + 1) TTrackPoint.blank)
                - field (pts.getD a TTrackPoint.blank))
        else (a : K) := by
  have hbs := binarySearch_interior eps field pts v hne h1 h2
  obtain ⟨ha, haa, hbb, hlo, hhi, -⟩ := binarySearchFrame_spec eps heps field pts v h1 h2
  generalize binarySearchFrame eps field pts v = fr at *
  obtain ⟨a, aa, bb⟩ := fr
  simp only at ha haa hbb hlo hhi hbs
  have hlen : 0 < pts.length := List.length_pos.mpr hne
  refine ⟨a, by omega, by rw [← haa]; exact hlo, by rw [← hbb]; exact hhi, ?_⟩
  rw [← haa, ← hbb]
  exact hbs

theorem binarySearch_below_next {K : Type} [LinearOrderedField K] (eps : K)
    (heps : 0 < eps) (a : Nat) (fa fb v : K) (hhi : eps / 2 < fb - v) :
    (if fb - fa ≥ eps / 2 then (a : K) + (v - fa) / (fb - fa) else (a : K))
      < (a : K) + 1 := by
  by_cases hd : fb - fa ≥ eps / 2
  · rw [if_pos hd]
    have hdpos : 0 < fb - fa := by linarith
    have hlt : (v - fa) / (fb - fa) < 1 := by
      rw [div_lt_one hdpos]
      linarith
    linarith
  · rw [if_neg hd]
    linarith

theorem binarySearch_monotone_aux {K : Type} [LinearOrderedField K] (eps : K)
    (heps : 0 < eps) (field : TTrackPoint K → K) (pts : List (TTrackPoint K))
    (hsorted : ∀ i j : Nat, i ≤ j → j < pts.length →
      field (pts.getD i TTrackPoint.blank) ≤ field (pts.getD j TTrackPoint.blank))
    (v w : K) (hvw : v ≤ w)
    (hclean : ∀ i : Nat, i < pts.length →
      ¬ (w < field (pts.getD i TTrackPoint.blank) ∧
          field (pts.getD i TTrackPoint.blank) ≤ w + eps / 2)) :
    binarySearch eps field pts v ≤ binarySearch eps field pts w := by
  by_cases hne : pts = []
  · subst hne
    simp [binarySearch]
  have hlen : 0 < pts.length := List.length_pos.mpr hne
  have hcl : ∀ i : Nat, i < pts.length →
      field (pts.getD i TTrackPoint.blank) - w ≤ eps / 2 →
      field (pts.getD i TTrackPoint.blank) ≤ w := by
    intro i hi hle
    by_contra hcon
    exact hclean i hi ⟨not_le.mp hcon, by linarith⟩
  -- the result at `w` is at least the index the search ends on
  have hwlow : ∀ a : Nat, a + 1 < pts.length →
      field (pts.getD a TTrackPoint.blank) - w ≤ eps / 2 →
      eps / 2 < field (pts.getD (a + 1) TTrackPoint.blank) - w →
      (a : K) ≤ (if field (pts.getD (a + 1) TTrackPoint.blank)
            - field (pts.getD a TTrackPoint.blank) ≥ eps / 2 then
          (a : K) + (w - field (pts.getD a TTrackPoint.blank))
            / (field (pts.getD (a + 1) TTrackPoint.blank)
                - field (pts.getD a TTrackPoint.blank))
        else (a : K)) := by
    intro a ha hlo hhi
    have hle := hcl a (by omega) hlo
    have hd : field (pts.getD (a + 1) TTrackPoint.blank)
        - field (pts.getD a TTrackPoint.blank) ≥ eps / 2 := by linarith
    rw [if_pos hd]
    have hnn : 0 ≤ (w - field (pts.getD a TTrackPoint.blank))
        / (field (pts.getD (a + 1) TTrackPoint.blank)
            - field (pts.getD a TTrackPoint.blank)) :=
      div_nonneg (by linarith) (by linarith)
    linarith
  by_cases hv1 : v - field (pts.getD 0 TTrackPoint.blank) ≤ eps / 2
  · -- `v` is clamped to 0
    rw [binarySearch_clamp_low eps field pts v hne (by linarith)]
    by_cases hw1 : w - field (pts.getD 0 TTrackPoint.blank) ≤ eps / 2
    · rw [binarySearch_clamp_low eps field pts w hne (by linarith)]
    · by_cases hw2 : field (pts.getD (pts.length - 1) TTrackPoint.blank) - w ≤ eps / 2
      · rw [binarySearch_clamp_high eps field pts w hne (by linarith) (by linarith)]
        exact Nat.cast_nonneg _
      · obtain ⟨a, ha, hlo, hhi, hbs⟩ :=
          binarySearch_interior_pair eps heps field pts w hne hw1 hw2
        rw [hbs]
        exact le_trans (Nat.cast_nonneg a) (hwlow a ha hlo hhi)
  · have hw1 : ¬ w - field (pts.getD 0 TTrackPoint.blank) ≤ eps / 2 := by
      intro h
      exact hv1 (by linarith)
    by_cases hv2 : field (pts.getD (pts.length - 1) TTrackPoint.blank) - v ≤ eps / 2
    · -- `v` is clamped to `size - 1`, and so is `w`
      rw [binarySearch_clamp_high eps field pts v hne (by linarith) (by linarith),
        binarySearch_clamp_high eps field pts w hne (by linarith) (by linarith)]
    · obtain ⟨a, ha, hlo, hhi, hbs⟩ :=
        binarySearch_interior_pair eps heps field pts v hne hv1 hv2
      have hlt := binarySearch_below_next eps heps a
        (field (pts.getD a TTrackPoint.blank))
        (field (pts.getD (a + 1) TTrackPoint.blank)) v hhi
      rw [← hbs] at hlt
      by_cases hw2 : field (pts.getD (pts.length - 1) TTrackPoint.blank) - w ≤ eps / 2
      · rw [binarySearch_clamp_high eps field pts w hne (by linarith) (by linarith)]
        have hc : ((a + 1 : Nat) : K) ≤ ((pts.length - 1 : Nat) : K) :=
          Nat.cast_le.mpr (by omega)
        push_cast at hc
        linarith
      · obtain ⟨b, hb, hlob, hhib, hbsb⟩ :=
          binarySearch_interior_pair eps heps field pts w hne hw1 hw2
        have hab : a ≤ b := by
          by_contra hcon
          have h1 := hsorted (b + 1) a (by omega) (by omega)
          linarith
        have hblow := hwlow b hb hlob hhib
        rw [← hbsb] at hblow
        rcases Nat.lt_or_ge a b with hlt2 | hge
        · have hc : ((a + 1 : Nat) : K) ≤ (b : K) := Nat.cast_le.mpr hlt2
          push_cast at hc
          linarith
        · have hEq : a = b := by omega
          subst hEq
          have hle := hcl a (by omega) hlob
          have hd : field (pts.getD (a + 1) TTrackPoint.blank)
              - field (pts.getD a TTrackPoint.blank) ≥ eps / 2 := by linarith
          rw [hbs, hbsb, if_pos hd, if_pos hd]
          have hdiv : (v - field (pts.getD a TTrackPoint.blank))
              / (field (pts.getD (a + 1) TTrackPoint.blank)
                  - field (pts.getD a TTrackPoint.blank))
              ≤ (w - field (pts.getD a TTrackPoint.blank))
              / (field (pts.getD (a + 1) TTrackPoint.blank)
                  - field (pts.getD a TTrackPoint.blank)) :=
            div_le_div_of_nonneg_right (by linarith) (by linarith)
          linarith

/-- C33 (as amended): let the indexed field be non-decreasing along the index.  Then
`v ≤ v'` implies `indexByField(v) ≤ indexByField(v')` whenever no sample has its field
value in `(v', v' + eps/2]`; and for an interior `v` (`field[0] + eps/2 < v <
field[size-1] − eps/2`) with no sample's field value in `(v, v + eps/2]`, the result
lies in `[a, a+1)` for the adjacent pair with `field[a] ≤ v < field[a+1]`.  The three
lookups `indexByOriginalIndex`, `indexByTime` and `indexByLength` are `binarySearch` on
their field. -/
theorem binarySearch_monotone {K : Type} [LinearOrderedField K] (eps : K) (heps : 0 < eps)
    (field : TTrackPoint K → K) (pts : List (TTrackPoint K))
    (hsorted : ∀ i j : Nat, i ≤ j → j < pts.length →
      field (pts.getD i TTrackPoint.blank) ≤ field (pts.getD j TTrackPoint.blank)) :
    (∀ v w : K, v ≤ w →
      (∀ i : Nat, i < pts.length →
        ¬ (w < field (pts.getD i TTrackPoint.blank) ∧
            field (pts.getD i TTrackPoint.blank) ≤ w + eps / 2)) →
      binarySearch eps field pts v ≤ binarySearch eps field pts w) ∧
    (∀ v : K, field (pts.getD 0 TTrackPoint.blank) + eps / 2 < v →
      v < field (pts.getD (pts.length - 1) TTrackPoint.blank) - eps / 2 →
      (∀ i : Nat, i < pts.length →
        ¬ (v < field (pts.getD i TTrackPoint.blank) ∧
            field (pts.getD i TTrackPoint.blank) ≤ v + eps / 2)) →
      ∃ a : Nat, a + 1 < pts.length ∧
        field (pts.getD a TTrackPoint.blank) ≤ v ∧
        v < field (pts.getD (a + 1) TTrackPoint.blank) ∧
        (a : K) ≤ binarySearch eps field pts v ∧
        binarySearch eps field pts v < (a : K) + 1) ∧
    (∀ v : K,
      indexByOriginalIndex eps pts v = binarySearch eps TTrackPoint.originalIndex pts v ∧
      indexByTime eps pts v = binarySearch eps TTrackPoint.time pts v ∧
      indexByLength eps pts v = binarySearch eps TTrackPoint.length pts v) := by
  refine ⟨?_, ?_, fun _ => ⟨rfl, rfl, rfl⟩⟩
  · intro v w hvw hclean
    exact binarySearch_monotone_aux eps heps field pts hsorted v w hvw hclean
  · intro v h0 h1 hclean
    have hne : pts ≠ [] := by
      intro h
      subst h
      simp only [List.length_nil, List.getD_nil] at h0 h1
      linarith
    obtain ⟨a, ha, hlo, hhi, hin⟩ :=
      binarySearch_interior_bracket eps heps field pts v hne h0 h1
    have hle : field (pts.getD a TTrackPoint.blank) ≤ v := by
      by_contra hcon
      exact hclean a (by omega) ⟨not_le.mp hcon, by linarith⟩
    obtain ⟨-, h3, h4⟩ := hin hle
    exact ⟨a, ha, hle, by linarith, h3, h4⟩

/-- Witness of C33 (as amended): the times `[0, 1, 2, 4, 8]` are non-decreasing, no sample
lies in `(5, 5 + eps/2]`, and `indexByTime(3) = 5/2 ≤ indexByTime(5) = 13/4`. -/
theorem binarySearch_monotone_witness :
    (0 : ℚ) < TConsts.epsilon ∧
    (∀ i j : Nat, i ≤ j → j < scenario1.length →
      TTrackPoint.time (scenario1.getD i TTrackPoint.blank)
        ≤ TTrackPoint.time (scenario1.getD j TTrackPoint.blank)) ∧
    binarySearch TConsts.epsilon TTrackPoint.time scenario1 3
      ≤ binarySearch TConsts.epsilon TTrackPoint.time scenario1 5 ∧
    indexByTime TConsts.epsilon scenario1 3 = 5 / 2 ∧
    indexByTime TConsts.epsilon scenario1 5 = 13 / 4 := by
  have he : (0 : ℚ) < TConsts.epsilon := by
    norm_num [TConsts.epsilon]
  have hs : ∀ i j : Nat, i ≤ j → j < scenario1.length →
      TTrackPoint.time (scenario1.getD i TTrackPoint.blank)
        ≤ TTrackPoint.time (scenario1.getD j TTrackPoint.blank) := by
    intro i j hij hj
    have hj5 : j < 5 := hj
    interval_cases j <;> interval_cases i <;>
      norm_num [scenario1, timePoint, TTrackPoint.blank]
  have hclean : ∀ i : Nat, i < scenario1.length →
      ¬ ((5 : ℚ) < TTrackPoint.time (scenario1.getD i TTrackPoint.blank) ∧
          TTrackPoint.time (scenario1.getD i TTrackPoint.blank)
            ≤ 5 + TConsts.epsilon / 2) := by
    intro i hi
    have hi5 : i < 5 := hi
    interval_cases i <;>
      norm_num [scenario1, timePoint, TTrackPoint.blank, TConsts.epsilon]
  refine ⟨he, hs,
    (binarySearch_monotone TConsts.epsilon he TTrackPoint.time scenario1 hs).1 3 5
      (by norm_num) hclean, ?_, ?_⟩ <;>
    norm_num [indexByTime, binarySearch, binarySearchFrame, binarySearchLoop, scenario1,
      timePoint, TConsts.epsilon, TTrackPoint.blank]

theorem descendingIds_set {K : Type} [LinearOrderedField K] :
    ∀ (l : List (TTrack K)) (i : Nat) (t : TTrack K), DescendingIds l →
      t.deviceId = (l.getD i TTrack.blank).deviceId →
      t.touchId = (l.getD i TTrack.blank).touchId → DescendingIds (l.set i t) := by
  intro l
  induction l with
  | nil =>
    intro i t h _ _
    exact h
  | cons x xs ih =>
    intro i t h hd ht
    unfold DescendingIds at h ⊢
    rw [List.pairwise_cons] at h
    cases i with
    | zero =>
      rw [List.set_cons_zero, List.pairwise_cons]
      refine ⟨?_, h.2⟩
      intro y hy
      have hxy := h.1 y hy
      have hd0 : t.deviceId = x.deviceId := hd
      have ht0 : t.touchId = x.touchId := ht
      omega
    | succ k =>
      rw [List.set_cons_succ, List.pairwise_cons]
      refine ⟨?_, ih k t h.2 (by simpa using hd) (by simpa using ht)⟩
      intro y hy
      rcases List.mem_or_eq_of_mem_set hy with hy1 | hy1
      · exact h.1 y hy1
      · subst hy1
        by_cases hk : k < xs.length
        · have hd1 : y.deviceId = (xs.getD k TTrack.blank).deviceId := by simpa using hd
          have ht1 : y.touchId = (xs.getD k TTrack.blank).touchId := by simpa using ht
          rw [List.getD_eq_getElem _ _ hk] at hd1 ht1
          have hxy := h.1 _ (List.getElem_mem hk)
          omega
        · rw [List.set_eq_of_length_le (by omega)] at hy
          exact h.1 y hy

theorem descendingIds_getTrackIn {K : Type} [LinearOrderedField K]
    (id deviceId touchId ticks : Int) (hasPressure hasTilt : Bool) (tracks : List (TTrack K))
    (hs : DescendingIds tracks) :
    DescendingIds (getTrackIn id deviceId touchId ticks hasPressure hasTilt tracks).2 := by
  unfold getTrackIn createTrack
  rcases getTrackIndex_spec tracks deviceId touchId with ⟨h1, _, _⟩ | ⟨h1, h2, h3, h4⟩
  · simp only [h1, if_true]
    exact hs
  · simp only [h1, Bool.false_eq_true, if_false]
    exact descendingIds_insert tracks hs _ _ h2 h3 h4

theorem headD_set_zero {α : Type} (l : List (List α)) (x : List α) :
    (l.set 0 x).headD [] = if l.isEmpty then [] else x := by
  cases l <;> rfl

theorem descendingIds_getTrack {K : Type} [LinearOrderedField K]
    (id deviceId touchId ticks : Int) (hasPressure hasTilt : Bool) (m : TInputManager K)
    (hs : DescendingIds (m.tracks.headD [])) :
    DescendingIds ((getTrack id deviceId touchId ticks hasPressure hasTilt m).2.tracks.headD [])
    := by
  unfold getTrack
  simp only [headD_set_zero]
  split_ifs
  · exact List.Pairwise.nil
  · exact descendingIds_getTrackIn id deviceId touchId ticks hasPressure hasTilt _ hs

theorem descendingIds_trackEvent {K : Type} [LinearOrderedField K] (host : ToolHost K)
    (mt : Metrics K) (step : K) (id deviceId touchId : Int) (position : TPointD K)
    (pressure : Option K) (tilt : Option (TPointD K)) (final : Bool) (ticks : Int)
    (m : TInputManager K) (hs : DescendingIds (m.tracks.headD [])) :
    DescendingIds ((trackEvent host mt step id deviceId touchId position pressure tilt final
      ticks m).tracks.headD []) := by
  unfold trackEvent
  simp only
  split_ifs with h1 h2 h3 h4 h5 h6 h7 h8
  all_goals first
    | exact hs
    | exact descendingIds_getTrack id deviceId touchId ticks pressure.isSome tilt.isSome _ hs
    | (simp only [headD_set_zero]
       split_ifs
       · exact List.Pairwise.nil
       · exact descendingIds_set _ _ _
           (descendingIds_getTrack id deviceId touchId ticks pressure.isSome tilt.isSome _ hs)
           rfl rfl)

/-- C31: the raw track list is strictly descending in the key `(deviceId, touchId)`, the
direction the search of `getTrack` assumes.  The empty list is in that order; `getTrack`
(with the `createTrack` it calls), on the list and on the manager, `trackEvent` and
`reset` keep the order; in a list in that order no two tracks share the same
`(deviceId, touchId)`.  `trackCompare` returns 0 exactly when both ids are equal, and
comparing `t` with the ids of `u` gives the opposite of comparing `u` with the ids of
`t`. -/
theorem raw_tracks_descending {K : Type} [LinearOrderedField K] :
    DescendingIds ([] : List (TTrack K)) ∧
    DescendingIds ((TInputManager.create : TInputManager K).tracks.headD []) ∧
    (∀ (id deviceId touchId ticks : Int) (hasPressure hasTilt : Bool)
        (tracks : List (TTrack K)), DescendingIds tracks →
      DescendingIds (getTrackIn id deviceId touchId ticks hasPressure hasTilt tracks).2) ∧
    (∀ (id deviceId touchId ticks : Int) (hasPressure hasTilt : Bool) (m : TInputManager K),
      DescendingIds (m.tracks.headD []) →
      DescendingIds
        ((getTrack id deviceId touchId ticks hasPressure hasTilt m).2.tracks.headD [])) ∧
    (∀ (host : ToolHost K) (mt : Metrics K) (step : K) (id deviceId touchId : Int)
        (position : TPointD K) (pressure : Option K) (tilt : Option (TPointD K))
        (final : Bool) (ticks : Int) (m : TInputManager K),
      DescendingIds (m.tracks.headD []) →
      DescendingIds ((trackEvent host mt step id deviceId touchId position pressure tilt
        final ticks m).tracks.headD [])) ∧
    (∀ m : TInputManager K, DescendingIds ((reset m).tracks.headD [])) ∧
    (∀ tracks : List (TTrack K), DescendingIds tracks →
      ∀ i j : Nat, i < tracks.length → j < tracks.length → i ≠ j →
        ¬ ((tracks.getD i TTrack.blank).deviceId = (tracks.getD j TTrack.blank).deviceId ∧
           (tracks.getD i TTrack.blank).touchId = (tracks.getD j TTrack.blank).touchId)) ∧
    (∀ (t : TTrack K) (deviceId touchId : Int),
      trackCompare t deviceId touchId = 0 ↔ t.deviceId = deviceId ∧ t.touchId = touchId) ∧
    (∀ t u : TTrack K,
      trackCompare t u.deviceId u.touchId = - trackCompare u t.deviceId t.touchId) := by
  refine ⟨List.Pairwise.nil, List.Pairwise.nil, descendingIds_getTrackIn,
    descendingIds_getTrack, descendingIds_trackEvent, ?_, ?_, ?_, ?_⟩
  · intro m
    have h : (reset m).tracks.headD [] = [] := by
      unfold reset
      cases m.tracks <;> rfl
    rw [h]
    exact List.Pairwise.nil
  · intro tracks hs i j hi hj hij
    rcases Nat.lt_or_gt_of_ne hij with h | h
    · have := descendingIds_index tracks hs i j h hj
      omega
    · have := descendingIds_index tracks hs j i h hi
      omega
  · intro t deviceId touchId
    exact (trackCompare_sign t deviceId touchId).2.2
  · intro t u
    unfold trackCompare
    split_ifs <;> omega

/-- Witness of C31: the list `rawPair` with the ids (1,0), (0,0) is in descending order,
stays so when `getTrack` inserts the ids (0,5) between the two, and its two tracks
differ in their ids. -/
theorem raw_tracks_descending_witness :
    DescendingIds rawPair ∧
    DescendingIds (getTrackIn 3 0 5 7 false false rawPair).2 ∧
    (getTrackIn 3 0 5 7 false false rawPair).2.map (fun t => (t.deviceId, t.touchId))
      = [(1, 0), (0, 5), (0, 0)] ∧
    ¬ ((rawPair.getD 0 TTrack.blank).deviceId = (rawPair.getD 1 TTrack.blank).deviceId ∧
       (rawPair.getD 0 TTrack.blank).touchId = (rawPair.getD 1 TTrack.blank).touchId) :=
  ⟨descendingIds_rawPair,
   (raw_tracks_descending (K := ℚ)).2.2.1 3 0 5 7 false false rawPair descendingIds_rawPair,
   rfl,
   (raw_tracks_descending (K := ℚ)).2.2.2.2.2.2.1 rawPair descendingIds_rawPair 0 1
     (by decide) (by decide) (by decide)⟩

theorem back_eq_getLast {K : Type} [LinearOrderedField K] (t : TTrack K)
    (hne : t.points ≠ []) : t.points.getLast? = some t.back := by
  have hlen : 0 < t.points.length := List.length_pos.mpr hne
  have hemp : t.points.isEmpty = false := by
    cases hp : t.points with
    | nil => exact absurd hp hne
    | cons a rest => rfl
  have hc : (clampIndex t.points.length (t.size - 1)).toNat = t.points.length - 1 := by
    unfold clampIndex TTrack.size
    omega
  unfold TTrack.back TTrack.point pointAt
  simp only [hemp, Bool.false_eq_true, if_false, hc]
  rw [List.getLast?_eq_getElem?, List.getD_eq_getElem _ _ (by omega),
    List.getElem?_eq_getElem (by omega)]

theorem touchTrack_open {K : Type} [LinearOrderedField K] (mt : Metrics K) (finish : Bool)
    (t : TTrack K) (hne : t.points ≠ []) (hopen : t.finished = false) :
    (touchTrack mt finish t).points = t.points ++
      [{ position := t.back.position, pressure := t.back.pressure, tilt := t.back.tilt,
         originalIndex := ((t.size : Int) : K), time := t.back.time,
         length := t.back.length + mt.tdistance t.back.position t.back.position,
         final := finish }] := by
  have hsize : t.size > 0 := by
    have := List.length_pos.mpr hne
    unfold TTrack.size
    omega
  unfold touchTrack
  rw [if_pos ⟨hopen, hsize⟩]
  unfold addTrackPoint TTrack.push_back
  simp only [back_eq_getLast t hne]

theorem touchTrack_skip {K : Type} [LinearOrderedField K] (mt : Metrics K) (finish : Bool)
    (t : TTrack K) (h : t.points = [] ∨ t.finished = true) : touchTrack mt finish t = t := by
  unfold touchTrack
  rw [if_neg]
  rintro ⟨h1, h2⟩
  rcases h with h | h
  · unfold TTrack.size at h2
    rw [h] at h2
    simp at h2
  · rw [h] at h1
    cases h1

/-- C35: `touchTracks(finish)` maps the raw list through its loop body and leaves every
other list alone.  To a raw track that is non-empty and not finished it appends exactly
one point, which repeats the position, pressure, tilt and time of the last point, has
`originalIndex` equal to the previous size and `final = finish`; an empty track and a
finished track stay as they are.  After `touchTracks(true)`, the first step of
`finishTracks` on an active manager, every non-empty raw track is finished. -/
theorem touchTracks_spec {K : Type} [LinearOrderedField K] (mt : Metrics K) (finish : Bool)
    (m : TInputManager K) :
    ((touchTracks mt finish m).tracks.headD []
      = (m.tracks.headD []).map (touchTrack mt finish)) ∧
    (touchTracks mt finish m).tracks.tail = m.tracks.tail ∧
    (touchTracks mt finish m).tracks.length = m.tracks.length ∧
    (∀ t : TTrack K, t.points ≠ [] → t.finished = false →
      ∃ q : TTrackPoint K,
        (touchTrack mt finish t).points = t.points ++ [q] ∧
        q.position = t.back.position ∧ q.pressure = t.back.pressure ∧
        q.tilt = t.back.tilt ∧ q.time = t.back.time ∧
        q.originalIndex = ((t.size : Int) : K) ∧ q.final = finish ∧
        t.points.getLast? = some t.back) ∧
    (∀ t : TTrack K, t.points = [] ∨ t.finished = true → touchTrack mt finish t = t) ∧
    (∀ t ∈ (touchTracks mt true m).tracks.headD [], t.points ≠ [] → t.finished = true) ∧
    (∀ (host : ToolHost K) (tool : TTool K) (passes : List (ModifierPass K)),
      host.isActive m.calls = true →
      finishTracks host tool mt passes m = paintTracks tool passes (touchTracks mt true m)) := by
  have hhead : ∀ f : Bool, (touchTracks mt f m).tracks.headD []
      = (m.tracks.headD []).map (touchTrack mt f) := by
    intro f
    unfold touchTracks
    cases m.tracks <;> rfl
  refine ⟨hhead finish, ?_, ?_, ?_, touchTrack_skip mt finish, ?_, ?_⟩
  · unfold touchTracks
    cases m.tracks <;> rfl
  · unfold touchTracks
    simp
  · intro t hne hopen
    exact ⟨_, touchTrack_open mt finish t hne hopen, rfl, rfl, rfl, rfl, rfl, rfl,
      back_eq_getLast t hne⟩
  · intro t ht hne
    rw [hhead true, List.mem_map] at ht
    obtain ⟨t0, _, rfl⟩ := ht
    by_cases hfin : t0.finished = true
    · rw [touchTrack_skip mt true t0 (Or.inr hfin)]
      exact hfin
    · have hopen : t0.finished = false := by simpa using hfin
      by_cases he : t0.points = []
      · rw [touchTrack_skip mt true t0 (Or.inl he)] at hne
        exact absurd he hne
      · unfold TTrack.finished
        rw [touchTrack_open mt true t0 he hopen]
        simp
  · intro host tool passes hact
    have hcalls : (touchTracks mt true m).calls = m.calls := rfl
    unfold finishTracks processTracks
    rw [if_pos hact, hcalls, if_pos hact]

/-- Witness of C35: in a raw list holding an empty track, an open track of three points
and a finished track, `touchTracks(true)` leaves the first and the last as they are and
gives the open track a fourth point, final, at the position (2,0) and time 2 of its
third point, with `originalIndex = 3`. -/
theorem touchTracks_spec_witness :
    ((touchTracks gridMetrics true mixedManager).tracks.headD []).map
        (fun t => t.points.length) = [0, 4, 1] ∧
    ((touchTracks gridMetrics true mixedManager).tracks.headD []).map
        (fun t => (t.back.position, t.back.time, t.back.originalIndex, t.back.final))
      = [(⟨0, 0⟩, 0, 0, false), (⟨2, 0⟩, 2, 3, true), (⟨0, 0⟩, 0, 0, true)] ∧
    (∀ t ∈ (touchTracks gridMetrics true mixedManager).tracks.headD [],
      t.points ≠ [] → t.finished = true) :=
  ⟨by
    rw [(touchTracks_spec gridMetrics true mixedManager).1]
    rfl,
   by
    rw [(touchTracks_spec gridMetrics true mixedManager).1]
    decide,
   (touchTracks_spec gridMetrics true mixedManager).2.2.2.2.2.1⟩

theorem setSubTracks_shape {K : Type} (m : TInputManager K) (l : List (TTrack K)) :
    (m.setSubTracks l).modifiers = m.modifiers ∧ (m.setSubTracks l).hovers = m.hovers ∧
    (m.setSubTracks l).tracks.length = m.tracks.length := by
  unfold TInputManager.setSubTracks
  exact ⟨rfl, rfl, List.length_set _ _ _⟩

theorem runModifiers_shape {K : Type} (pass : ModifierPass K) (m : TInputManager K) :
    (runModifiers pass m).modifiers = m.modifiers ∧ (runModifiers pass m).hovers = m.hovers ∧
    (runModifiers pass m).tracks.length = m.tracks.length := by
  have hfold : ∀ (idx : List Nat) (ts : List (List (TTrack K))),
      (idx.foldl (fun ts i => ts.set (i + 1) (pass.levels.getD i [])) ts).length
        = ts.length := by
    intro idx
    induction idx with
    | nil => intro ts; rfl
    | cons i rest ih =>
      intro ts
      rw [List.foldl_cons, ih, List.length_set]
  unfold runModifiers
  exact ⟨rfl, rfl, hfold _ _⟩

theorem paintRollbackTo_shape {K : Type} (saveIndex : Int) (m : TInputManager K) :
    (paintRollbackTo saveIndex m).modifiers = m.modifiers ∧
    (paintRollbackTo saveIndex m).hovers = m.hovers ∧
    (paintRollbackTo saveIndex m).tracks.length = m.tracks.length := by
  unfold paintRollbackTo
  simp only [TInputManager.dropSavePoints, TInputManager.setSubTracks]
  split_ifs <;> exact ⟨rfl, rfl, by simp⟩

theorem paintApply_shape {K : Type} (tool : TTool K) (count : Int) (m : TInputManager K) :
    (paintApply tool count m).modifiers = m.modifiers ∧
    (paintApply tool count m).hovers = m.hovers ∧
    (paintApply tool count m).tracks.length = m.tracks.length := by
  unfold paintApply
  simp only [TInputManager.dropSavePoints, TInputManager.setSubTracks]
  split_ifs <;> exact ⟨rfl, rfl, by simp⟩

theorem paintTracksPass_shape {K : Type} (tool : TTool K) (allFinished : Bool)
    (pass : ModifierPass K) (m : TInputManager K) :
    (paintTracksPass tool allFinished pass m).1.modifiers = m.modifiers ∧
    (paintTracksPass tool allFinished pass m).1.hovers = m.hovers ∧
    (paintTracksPass tool allFinished pass m).1.tracks.length = m.tracks.length := by
  have h1 := runModifiers_shape pass { m with created := m.created + 1 }
  have h2 := setSubTracks_shape (runModifiers pass { m with created := m.created + 1 })
    ((runModifiers pass { m with created := m.created + 1 }).subTracks.map (fun track =>
      match track.handler with
      | TTrackHandlerP.null =>
        { track with
          handler := TTrackHandlerP.manager (TrackHandler.create
            (runModifiers pass { m with created := m.created + 1 }).savePoints.length) }
      | _ => track))
  have h3 : ∀ m0 : TInputManager K,
      (rollbackAndApply tool pass m0).modifiers = m0.modifiers ∧
      (rollbackAndApply tool pass m0).hovers = m0.hovers ∧
      (rollbackAndApply tool pass m0).tracks.length = m0.tracks.length := by
    intro m0
    unfold rollbackAndApply
    split_ifs
    · exact ⟨rfl, rfl, rfl⟩
    · obtain ⟨a1, a2, a3⟩ := paintRollbackTo_shape
        ((m0.subTracks.foldl (rollbackIndexStep m0.savePoints.length)
          m0.savePoints.length : Nat) : Int) m0
      obtain ⟨b1, b2, b3⟩ := paintApply_shape tool
        ((applyCount pass.stackFree (paintRollbackTo
          ((m0.subTracks.foldl (rollbackIndexStep m0.savePoints.length)
            m0.savePoints.length : Nat) : Int) m0).savePoints.length : Nat) : Int)
        (paintRollbackTo ((m0.subTracks.foldl (rollbackIndexStep m0.savePoints.length)
          m0.savePoints.length : Nat) : Int) m0)
      exact ⟨b1.trans a1, b2.trans a2, b3.trans a3⟩
  have h4 : ∀ m0 : TInputManager K,
      (sendToTool m0).modifiers = m0.modifiers ∧ (sendToTool m0).hovers = m0.hovers ∧
      (sendToTool m0).tracks.length = m0.tracks.length := by
    intro m0
    unfold sendToTool
    simp only [TInputManager.setSubTracks]
    split_ifs <;> exact ⟨rfl, rfl, by simp⟩
  have h5 : ∀ (sp : TInputSavePoint) (m0 : TInputManager K),
      (finishPaint tool allFinished sp m0).modifiers = m0.modifiers ∧
      (finishPaint tool allFinished sp m0).hovers = m0.hovers ∧
      (finishPaint tool allFinished sp m0).tracks.length = m0.tracks.length := by
    intro sp m0
    unfold finishPaint
    simp only
    split_ifs
    · obtain ⟨b1, b2, b3⟩ := paintApply_shape tool
        (({ m0 with discarded := m0.discarded ++ [{ sp with available := false }] } :
          TInputManager K).savePoints.length : Int)
        { m0 with discarded := m0.discarded ++ [{ sp with available := false }] }
      exact ⟨b1, b2, by simp only [List.length_map]; exact b3⟩
    · exact ⟨rfl, rfl, rfl⟩
  have h6 : ∀ (sp : TInputSavePoint) (m0 : TInputManager K),
      (pushSavePoint tool sp m0).modifiers = m0.modifiers ∧
      (pushSavePoint tool sp m0).hovers = m0.hovers ∧
      (pushSavePoint tool sp m0).tracks.length = m0.tracks.length := by
    intro sp m0
    unfold pushSavePoint
    exact setSubTracks_shape _ _
  have hbefore : (sendToTool (passAfterApply tool pass m)).modifiers = m.modifiers ∧
      (sendToTool (passAfterApply tool pass m)).hovers = m.hovers ∧
      (sendToTool (passAfterApply tool pass m)).tracks.length = m.tracks.length := by
    obtain ⟨d1, d2, d3⟩ := h4 (passAfterApply tool pass m)
    obtain ⟨c1, c2, c3⟩ := h3 (createHandlers (runModifiers pass
      { m with created := m.created + 1 }))
    have hc : createHandlers (runModifiers pass { m with created := m.created + 1 })
        = (runModifiers pass { m with created := m.created + 1 }).setSubTracks
            ((runModifiers pass { m with created := m.created + 1 }).subTracks.map
              (fun track =>
                match track.handler with
                | TTrackHandlerP.null =>
                  { track with
                    handler := TTrackHandlerP.manager (TrackHandler.create
                      (runModifiers pass
                        { m with created := m.created + 1 }).savePoints.length) }
                | _ => track)) := rfl
    unfold passAfterApply at d1 d2 d3 ⊢
    rw [hc] at c1 c2 c3 d1 d2 d3 ⊢
    exact ⟨d1.trans (c1.trans (h2.1.trans h1.1)), d2.trans (c2.trans (h2.2.1.trans h1.2.1)),
      d3.trans (c3.trans (h2.2.2.trans h1.2.2))⟩
  rw [paintTracksPass_eq]
  split_ifs
  · obtain ⟨e1, e2, e3⟩ := h5 ⟨m.created, true⟩ (sendToTool (passAfterApply tool pass m))
    exact ⟨e1.trans hbefore.1, e2.trans hbefore.2.1, e3.trans hbefore.2.2⟩
  · obtain ⟨e1, e2, e3⟩ := h6 ⟨m.created, true⟩ (sendToTool (passAfterApply tool pass m))
    exact ⟨e1.trans hbefore.1, e2.trans hbefore.2.1, e3.trans hbefore.2.2⟩

theorem paintTracksLoop_shape {K : Type} (tool : TTool K) (allFinished : Bool) :
    ∀ (passes : List (ModifierPass K)) (m m' : TInputManager K),
      paintTracksLoop tool allFinished passes m = some m' →
      m'.modifiers = m.modifiers ∧ m'.hovers = m.hovers ∧
      m'.tracks.length = m.tracks.length := by
  intro passes
  induction passes with
  | nil =>
    intro m m' h
    simp [paintTracksLoop] at h
  | cons pass rest ih =>
    intro m m' h
    obtain ⟨s1, s2, s3⟩ := paintTracksPass_shape tool allFinished pass m
    simp only [paintTracksLoop] at h
    split_ifs at h
    · cases h
      exact ⟨s1, s2, s3⟩
    · obtain ⟨r1, r2, r3⟩ := ih _ m' h
      exact ⟨r1.trans s1, r2.trans s2, r3.trans s3⟩

theorem finishTracks_shape {K : Type} [LinearOrderedField K] (host : ToolHost K)
    (tool : TTool K) (mt : Metrics K) (passes : List (ModifierPass K))
    (m m' : TInputManager K) (h : finishTracks host tool mt passes m = some m') :
    m'.modifiers = m.modifiers ∧ m'.hovers = m.hovers ∧
    m'.tracks.length = m.tracks.length := by
  have htouch : (touchTracks mt true m).modifiers = m.modifiers ∧
      (touchTracks mt true m).hovers = m.hovers ∧
      (touchTracks mt true m).tracks.length = m.tracks.length := by
    unfold touchTracks
    exact ⟨rfl, rfl, List.length_set _ _ _⟩
  unfold finishTracks processTracks at h
  split_ifs at h with h1 h2
  · obtain ⟨r1, r2, r3⟩ := paintTracksLoop_shape tool _ passes _ m' h
    exact ⟨r1.trans htouch.1, r2.trans htouch.2.1, r3.trans htouch.2.2⟩
  · cases h
    exact htouch
  · cases h
    unfold reset
    exact ⟨rfl, rfl, by simp⟩

theorem finishTracks_returns {K : Type} [LinearOrderedField K] (host : ToolHost K)
    (tool : TTool K) (mt : Metrics K) (passes : List (ModifierPass K)) (m : TInputManager K) :
    (finishTracks host tool mt passes m).isSome = true ↔
      (host.isActive m.calls = true → ∃ pass ∈ passes, pass.newFree = true) := by
  have hcalls : (touchTracks mt true m).calls = m.calls := rfl
  unfold finishTracks processTracks
  by_cases hact : host.isActive m.calls = true
  · rw [if_pos hact, hcalls, if_pos hact, paintTracks_returns_iff]
    exact ⟨fun h _ => h, fun h => h hact⟩
  · rw [if_neg hact]
    simp [hact]

theorem findModifierFrom_nonneg (modifier : Nat) :
    ∀ (l : List Nat) (i : Int), 0 ≤ i →
      (findModifierFrom modifier l i ≥ 0 ↔ modifier ∈ l) := by
  intro l
  induction l with
  | nil =>
    intro i _
    simp [findModifierFrom]
  | cons x rest ih =>
    intro i hi
    unfold findModifierFrom
    by_cases hx : x = modifier
    · rw [if_pos hx]
      simp [hx, hi]
    · rw [if_neg hx, ih (i + 1) (by omega)]
      simp [Ne.symm hx]

theorem insertAt_length {α : Type} (index : Nat) (x : α) (v : List α) :
    (insertAt index x v).length = v.length + 1 := by
  unfold insertAt
  simp only [List.length_append, List.length_cons, List.length_take, List.length_drop]
  omega

theorem insertAt_nodup (index : Nat) (x : Nat) (v : List Nat) (hx : x ∉ v)
    (hv : v.Nodup) : (insertAt index x v).Nodup ∧ x ∈ insertAt index x v := by
  unfold insertAt
  constructor
  · have hp : (v.take index ++ x :: v.drop index).Perm (x :: (v.take index ++ v.drop index)) :=
      List.perm_middle
    rw [List.Perm.nodup_iff hp, List.take_append_drop]
    exact List.nodup_cons.mpr ⟨hx, hv⟩
  · simp

theorem insertModifier_present {K : Type} [LinearOrderedField K] (host : ToolHost K)
    (tool : TTool K) (mt : Metrics K) (passes : List (ModifierPass K)) (index : Int)
    (modifier : Nat) (m : TInputManager K) (h : modifier ∈ m.modifiers) :
    insertModifier host tool mt passes index modifier m = some m := by
  unfold insertModifier findModifier
  rw [if_pos ((findModifierFrom_nonneg modifier m.modifiers 0 (le_refl _)).mpr h)]

theorem insertModifier_absent {K : Type} [LinearOrderedField K] (host : ToolHost K)
    (tool : TTool K) (mt : Metrics K) (passes : List (ModifierPass K)) (index : Int)
    (modifier : Nat) (m m' : TInputManager K) (h : modifier ∉ m.modifiers)
    (hres : insertModifier host tool mt passes index modifier m = some m') :
    m'.modifiers = insertAt index.toNat modifier m.modifiers ∧
    m'.tracks.length = m.tracks.length + 1 ∧ m'.hovers.length = m.hovers.length + 1 := by
  unfold insertModifier findModifier at hres
  rw [if_neg (fun hc => h ((findModifierFrom_nonneg modifier m.modifiers 0
    (le_refl _)).mp hc))] at hres
  cases hf : finishTracks host tool mt passes m with
  | none =>
    rw [hf] at hres
    cases hres
  | some m1 =>
    rw [hf] at hres
    obtain ⟨s1, s2, s3⟩ := finishTracks_shape host tool mt passes m m1 hf
    simp only [Option.map_some', Option.some.injEq] at hres
    subst hres
    simp only [insertAt_length]
    exact ⟨by rw [s1], by rw [s3], by rw [s2]⟩

theorem removeModifier_inside {K : Type} [LinearOrderedField K] (host : ToolHost K)
    (tool : TTool K) (mt : Metrics K) (passes : List (ModifierPass K)) (index : Int)
    (m m' : TInputManager K) (h0 : 0 ≤ index) (h1 : index < (m.modifiers.length : Int))
    (hres : removeModifier host tool mt passes index m = some m') :
    m'.modifiers = m.modifiers.eraseIdx index.toNat ∧
    (∃ m1, finishTracks host tool mt passes m = some m1 ∧
      m'.tracks = m1.tracks.eraseIdx (index.toNat + 1) ∧
      m'.hovers = m1.hovers.eraseIdx (index.toNat + 1) ∧
      m1.tracks.length = m.tracks.length ∧ m1.hovers = m.hovers) := by
  unfold removeModifier at hres
  rw [if_pos ⟨h0, h1⟩] at hres
  cases hf : finishTracks host tool mt passes m with
  | none =>
    rw [hf] at hres
    cases hres
  | some m1 =>
    rw [hf] at hres
    obtain ⟨s1, s2, s3⟩ := finishTracks_shape host tool mt passes m m1 hf
    simp only [Option.map_some', Option.some.injEq] at hres
    subst hres
    have hn : (index + 1).toNat = index.toNat + 1 := by omega
    simp only [hn]
    exact ⟨by rw [s1], m1, rfl, rfl, rfl, s3, s2⟩

theorem removeModifier_lists {K : Type} [LinearOrderedField K] (host : ToolHost K)
    (tool : TTool K) (mt : Metrics K) (passes : List (ModifierPass K)) (index : Int)
    (m m' : TInputManager K) (h : ListsMatchModifiers m)
    (hres : removeModifier host tool mt passes index m = some m') :
    ListsMatchModifiers m' ∧ m'.modifiers.length ≤ m.modifiers.length ∧
    (0 ≤ index → index < (m.modifiers.length : Int) →
      m'.modifiers.length + 1 = m.modifiers.length) ∧
    (m.modifiers.Nodup → m'.modifiers.Nodup) := by
  by_cases hin : 0 ≤ index ∧ index < (m.modifiers.length : Int)
  · obtain ⟨e1, m1, _, e2, e3, e4, e5⟩ :=
      removeModifier_inside host tool mt passes index m m' hin.1 hin.2 hres
    have hi : index.toNat < m.modifiers.length := by omega
    have hlen : m'.modifiers.length + 1 = m.modifiers.length := by
      rw [e1, List.length_eraseIdx]
      simp only [hi, if_true]
      omega
    unfold ListsMatchModifiers at h ⊢
    refine ⟨⟨?_, ?_⟩, by omega, fun _ _ => hlen, ?_⟩
    · rw [e2, List.length_eraseIdx, e4]
      have : index.toNat + 1 < m.tracks.length := by omega
      simp only [this, if_true]
      omega
    · rw [e3, List.length_eraseIdx, e5]
      have : index.toNat + 1 < m.hovers.length := by omega
      simp only [this, if_true]
      omega
    · intro hnd
      rw [e1]
      exact List.Nodup.sublist (List.eraseIdx_sublist _ _) hnd
  · unfold removeModifier at hres
    rw [if_neg hin] at hres
    cases hres
    exact ⟨h, le_refl _, fun h0 h1 => absurd ⟨h0, h1⟩ hin, fun hnd => hnd⟩

theorem clearModifiersLoop_result {K : Type} [LinearOrderedField K] (host : ToolHost K)
    (tool : TTool K) (mt : Metrics K) :
    ∀ (fuel : Nat) (scripts : List (List (ModifierPass K))) (m m' : TInputManager K),
      ListsMatchModifiers m → clearModifiersLoop host tool mt fuel scripts m = some m' →
      m'.modifiers = [] ∧ m'.tracks.length = 1 ∧ m'.hovers.length = 1 := by
  intro fuel
  induction fuel with
  | zero =>
    intro scripts m m' h hres
    unfold clearModifiersLoop at hres
    split_ifs at hres with hpos
    cases hres
    have hz : m.modifiers.length = 0 := by omega
    unfold ListsMatchModifiers at h
    exact ⟨List.length_eq_zero.mp hz, by omega, by omega⟩
  | succ fuel ih =>
    intro scripts m m' h hres
    unfold clearModifiersLoop at hres
    split_ifs at hres with hpos
    · cases hr : removeModifier host tool mt (scripts.headD [])
          ((m.modifiers.length : Int) - 1) m with
      | none =>
        rw [hr] at hres
        cases hres
      | some m1 =>
        rw [hr] at hres
        exact ih scripts.tail m1 m'
          (removeModifier_lists host tool mt _ _ m m1 h hr).1 hres
    · cases hres
      have hz : m.modifiers.length = 0 := by omega
      unfold ListsMatchModifiers at h
      exact ⟨List.length_eq_zero.mp hz, by omega, by omega⟩

theorem clearModifiersLoop_returns {K : Type} [LinearOrderedField K] (host : ToolHost K)
    (tool : TTool K) (mt : Metrics K) :
    ∀ (fuel : Nat) (scripts : List (List (ModifierPass K))) (m : TInputManager K),
      ListsMatchModifiers m → m.modifiers.length ≤ fuel →
      ((∀ calls, host.isActive calls = false) ∨
        (m.modifiers.length ≤ scripts.length ∧
          ∀ script ∈ scripts, ∃ pass ∈ script, pass.newFree = true)) →
      (clearModifiersLoop host tool mt fuel scripts m).isSome = true := by
  intro fuel
  induction fuel with
  | zero =>
    intro scripts m _ hle _
    unfold clearModifiersLoop
    rw [if_neg (by omega)]
    rfl
  | succ fuel ih =>
    intro scripts m h hle hgood
    unfold clearModifiersLoop
    by_cases hpos : m.modifiers.length > 0
    · rw [if_pos hpos]
      have hfin : (finishTracks host tool mt (scripts.headD []) m).isSome = true := by
        rw [finishTracks_returns]
        intro hact
        rcases hgood with hidle | ⟨hlen, hfree⟩
        · rw [hidle] at hact
          cases hact
        · cases hs : scripts with
          | nil =>
            rw [hs] at hlen
            have hl0 : m.modifiers.length ≤ 0 := hlen
            omega
          | cons s rest =>
            rw [hs] at hfree
            exact hfree s (by simp)
      have hrem : (removeModifier host tool mt (scripts.headD [])
          ((m.modifiers.length : Int) - 1) m).isSome = true := by
        unfold removeModifier
        rw [if_pos ⟨by omega, by omega⟩]
        simpa using hfin
      cases hr : removeModifier host tool mt (scripts.headD [])
          ((m.modifiers.length : Int) - 1) m with
      | none =>
        rw [hr] at hrem
        cases hrem
      | some m1 =>
        simp only
        obtain ⟨l1, _, l3, _⟩ := removeModifier_lists host tool mt _ _ m m1 h hr
        have hdec := l3 (by omega) (by omega)
        apply ih scripts.tail m1 l1 (by omega)
        rcases hgood with hidle | ⟨hlen, hfree⟩
        · exact Or.inl hidle
        · right
          refine ⟨?_, fun s hs => hfree s (List.mem_of_mem_tail hs)⟩
          rw [List.length_tail]
          omega
    · rw [if_neg hpos]
      rfl

/-- C36: the manager holds `n + 1` track lists and `n + 1` hover lists for `n`
modifiers.  This holds after construction (`n = 0`) and is kept by `insertModifier`
(for `0 ≤ index ≤ n`), `removeModifier` and `clearModifiers`, each of which returns as
soon as the `paintTracks` loop of its `finishTracks` is left.  `insertModifier` of a
modifier that is in the chain changes nothing, so a chain without repetition stays
without repetition; `removeModifier` with an index outside `[0, n)` changes nothing;
`clearModifiers` ends with an empty chain, one track list and one hover list. -/
theorem lists_match_modifiers {K : Type} [LinearOrderedField K] (host : ToolHost K)
    (tool : TTool K) (mt : Metrics K) (m : TInputManager K) (h : ListsMatchModifiers m) :
    (ListsMatchModifiers (TInputManager.create : TInputManager K) ∧
      (TInputManager.create : TInputManager K).modifiers = []) ∧
    (∀ (passes : List (ModifierPass K)) (index : Int) (modifier : Nat) (m' : TInputManager K),
      0 ≤ index → index ≤ (m.modifiers.length : Int) →
      insertModifier host tool mt passes index modifier m = some m' →
      ListsMatchModifiers m' ∧
      (modifier ∉ m.modifiers →
        m'.modifiers = insertAt index.toNat modifier m.modifiers ∧
        m'.modifiers.length = m.modifiers.length + 1) ∧
      (m.modifiers.Nodup → m'.modifiers.Nodup)) ∧
    (∀ (passes : List (ModifierPass K)) (index : Int) (modifier : Nat),
      modifier ∈ m.modifiers →
      insertModifier host tool mt passes index modifier m = some m) ∧
    (∀ (passes : List (ModifierPass K)) (index : Int) (modifier : Nat),
      (insertModifier host tool mt passes index modifier m).isSome = true ↔
        (modifier ∈ m.modifiers ∨
          (host.isActive m.calls = true → ∃ pass ∈ passes, pass.newFree = true))) ∧
    (∀ (passes : List (ModifierPass K)) (index : Int) (m' : TInputManager K),
      removeModifier host tool mt passes index m = some m' →
      ListsMatchModifiers m' ∧
      (0 ≤ index → index < (m.modifiers.length : Int) →
        m'.modifiers = m.modifiers.eraseIdx index.toNat ∧
        m'.modifiers.length + 1 = m.modifiers.length) ∧
      (m.modifiers.Nodup → m'.modifiers.Nodup)) ∧
    (∀ (passes : List (ModifierPass K)) (index : Int),
      index < 0 ∨ index ≥ (m.modifiers.length : Int) →
      removeModifier host tool mt passes index m = some m) ∧
    (∀ (scripts : List (List (ModifierPass K))) (m' : TInputManager K),
      clearModifiers host tool mt scripts m = some m' →
      m'.modifiers = [] ∧ m'.tracks.length = 1 ∧ m'.hovers.length = 1) ∧
    (∀ scripts : List (List (ModifierPass K)),
      ((∀ calls, host.isActive calls = false) ∨
        (m.modifiers.length ≤ scripts.length ∧
          ∀ script ∈ scripts, ∃ pass ∈ script, pass.newFree = true)) →
      (clearModifiers host tool mt scripts m).isSome = true) := by
  refine ⟨⟨⟨rfl, rfl⟩, rfl⟩, ?_, ?_, ?_, ?_, ?_, ?_, ?_⟩
  · intro passes index modifier m' h0 h1 hres
    by_cases hin : modifier ∈ m.modifiers
    · rw [insertModifier_present host tool mt passes index modifier m hin] at hres
      cases hres
      exact ⟨h, fun hn => absurd hin hn, fun hnd => hnd⟩
    · obtain ⟨e1, e2, e3⟩ :=
        insertModifier_absent host tool mt passes index modifier m m' hin hres
      unfold ListsMatchModifiers at h ⊢
      have hlen : m'.modifiers.length = m.modifiers.length + 1 := by
        rw [e1, insertAt_length]
      refine ⟨⟨by omega, by omega⟩, fun _ => ⟨e1, hlen⟩, ?_⟩
      intro hnd
      rw [e1]
      exact (insertAt_nodup _ _ _ hin hnd).1
  · intro passes index modifier hin
    exact insertModifier_present host tool mt passes index modifier m hin
  · intro passes index modifier
    by_cases hin : modifier ∈ m.modifiers
    · rw [insertModifier_present host tool mt passes index modifier m hin]
      simp [hin]
    · have hnf : ¬ findModifier modifier m ≥ 0 := fun hc =>
        hin ((findModifierFrom_nonneg modifier m.modifiers 0 (le_refl _)).mp hc)
      unfold insertModifier
      rw [if_neg hnf, Option.isSome_map', finishTracks_returns]
      simp [hin]
  · intro passes index m' hres
    obtain ⟨l1, _, l3, l4⟩ := removeModifier_lists host tool mt passes index m m' h hres
    refine ⟨l1, ?_, l4⟩
    intro h0 h1
    exact ⟨(removeModifier_inside host tool mt passes index m m' h0 h1 hres).1, l3 h0 h1⟩
  · intro passes index hout
    unfold removeModifier
    rw [if_neg (by omega)]
  · intro scripts m' hres
    exact clearModifiersLoop_result host tool mt _ scripts m m' h hres
  · intro scripts hgood
    exact clearModifiersLoop_returns host tool mt _ scripts m h (le_refl _) hgood

/-- Witness of C36: on the manager the constructor leaves, `insertModifier(0, 7)` with
an active host returns a manager with the chain `[7]`, two track lists and two hover
lists; `clearModifiers` on that manager returns one with an empty chain and one list of
each kind. -/
theorem lists_match_modifiers_witness :
    ListsMatchModifiers freshManager ∧
    ∃ m1 m2 : TInputManager ℚ,
      insertModifier activeHost obligingTool gridMetrics [freePass] 0 7 freshManager
        = some m1 ∧
      m1.modifiers = [7] ∧ ListsMatchModifiers m1 ∧ m1.tracks.length = 2 ∧
      clearModifiers activeHost obligingTool gridMetrics [[freePass]] m1 = some m2 ∧
      m2.modifiers = [] ∧ m2.tracks.length = 1 ∧ m2.hovers.length = 1 :=
  have h0 : ListsMatchModifiers freshManager := ⟨rfl, rfl⟩
  have h1 := ((lists_match_modifiers activeHost obligingTool gridMetrics freshManager h0).2.1
    [freePass] 0 7 _ (by decide) (by decide) rfl).1
  ⟨h0, _, _, rfl, rfl, h1, rfl, rfl, rfl, rfl, rfl⟩

/-- C32 (as stated, fails): one save point on the stack, created when the track had five
points (`saves = [5]`); the modifiers then cut the track to two points and added one
(`size = 3`, `pointsRemoved = 3`, `pointsAdded = 1`).  No save index suits, the rollback
index is 0, and the rollback step sets `pointsAdded = 3 − 5 = −2`. -/
theorem rollback_delta_negative :
    rollbackIndex shrunkManager = 0 ∧
    (rollbackAndApply obligingTool keepPass shrunkManager).subTracks.map
        (fun t => (t.size, t.pointsAdded)) = [(3, -2)] ∧
    ¬ (∀ t ∈ (rollbackAndApply obligingTool keepPass shrunkManager).subTracks,
        0 ≤ t.pointsAdded ∧ t.pointsAdded ≤ t.size) := by
  refine ⟨rfl, rfl, ?_⟩
  intro h
  have h1 := h ((rollbackAndApply obligingTool keepPass shrunkManager).subTracks.headD
    (rawTrack [] 0 0)) (List.mem_singleton.mpr rfl)
  revert h1
  decide

theorem paintApply_subTracks_resend {K : Type} (tool : TTool K) (count : Int)
    (m : TInputManager K) (hc : 0 < count) :
    ∃ (resend : Bool) (sent : Int),
      (paintApply tool count m).subTracks
        = m.subTracks.map (applyTrack resend sent ((m.savePoints.length : Int) - count)) ∧
      (resend = true → sent = min m.savePointsSent ((m.savePoints.length : Int) - count)) := by
  have hn : ¬ count ≤ 0 := by omega
  by_cases hl : (m.savePoints.length : Int) - count < m.savePointsSent
  · by_cases h2 : (m.savePoints.length : Int) - count
        < m.savePointsSent
          - max 0 (min (m.savePointsSent - ((m.savePoints.length : Int) - count))
              (tool.paintApply m.calls
                (m.savePointsSent - ((m.savePoints.length : Int) - count))))
    · refine ⟨true, (m.savePoints.length : Int) - count, ?_, fun _ => by omega⟩
      unfold paintApply
      simp only [if_neg hn, if_pos hl, if_pos h2]
      have hr : (if (m.savePoints.length : Int) - count < m.savePointsSent ∧
          m.savePointsSent
            - max 0 (min (m.savePointsSent - ((m.savePoints.length : Int) - count))
                (tool.paintApply m.calls
                  (m.savePointsSent - ((m.savePoints.length : Int) - count))))
            = (m.savePoints.length : Int) - count then false else true) = true := by
        rw [if_neg]
        intro hcon
        omega
      rw [hr]
      exact subTracks_setSubTracks_map
        { m with
          calls := m.calls
            ++ [ToolCall.paintApply (m.savePointsSent - ((m.savePoints.length : Int) - count))]
            ++ [ToolCall.paintPop (m.savePointsSent
                - max 0 (min (m.savePointsSent - ((m.savePoints.length : Int) - count))
                    (tool.paintApply m.calls
                      (m.savePointsSent - ((m.savePoints.length : Int) - count))))
                - ((m.savePoints.length : Int) - count))]
          savePointsSent := (m.savePoints.length : Int) - count } _
    · have hfalse : (paintApply tool count m).subTracks
          = m.subTracks.map (applyTrack false (m.savePointsSent
              - max 0 (min (m.savePointsSent - ((m.savePoints.length : Int) - count))
                  (tool.paintApply m.calls
                    (m.savePointsSent - ((m.savePoints.length : Int) - count)))))
              ((m.savePoints.length : Int) - count)) := by
        unfold paintApply
        simp only [if_neg hn, if_pos hl, if_neg h2]
        have hr : (if (m.savePoints.length : Int) - count < m.savePointsSent ∧
            m.savePointsSent
              - max 0 (min (m.savePointsSent - ((m.savePoints.length : Int) - count))
                  (tool.paintApply m.calls
                    (m.savePointsSent - ((m.savePoints.length : Int) - count))))
              = (m.savePoints.length : Int) - count then false else true) = false := by
          rw [if_pos]
          constructor
          · exact hl
          · omega
        rw [hr]
        exact subTracks_setSubTracks_map
          { m with
            calls := m.calls
              ++ [ToolCall.paintApply
                    (m.savePointsSent - ((m.savePoints.length : Int) - count))]
            savePointsSent := m.savePointsSent
              - max 0 (min (m.savePointsSent - ((m.savePoints.length : Int) - count))
                  (tool.paintApply m.calls
                    (m.savePointsSent - ((m.savePoints.length : Int) - count)))) } _
      exact ⟨false, _, hfalse, fun hcon => by cases hcon⟩
  · refine ⟨true, m.savePointsSent, ?_, fun _ => by omega⟩
    unfold paintApply
    simp only [if_neg hn, if_neg hl]
    have hr : (if (m.savePoints.length : Int) - count < m.savePointsSent ∧
        m.savePointsSent = (m.savePoints.length : Int) - count then false else true)
        = true := by
      rw [if_neg]
      intro hcon
      exact hl hcon.1
    rw [hr]
    exact subTracks_setSubTracks_map m _

theorem rollbackIndex_suits {K : Type} (m : TInputManager K) (hS : 1 ≤ m.savePoints.length)
    (hmatch : SavesMatchStack m) (hmono : SavesMonotone m) (hwithin : SavesWithinTracks m) :
    rollbackIndex m ≤ m.savePoints.length ∧
    ((∃ t ∈ m.subTracks, t.pointsRemoved > 0 ∧ ∃ h, t.handler = TTrackHandlerP.manager h) →
      rollbackIndex m < m.savePoints.length ∧
      SuitsRollback (rollbackIndex m) m.subTracks) ∧
    ((∀ t ∈ m.subTracks,
        ¬ (t.pointsRemoved > 0 ∧ ∃ h, t.handler = TTrackHandlerP.manager h)) →
      rollbackIndex m = m.savePoints.length) := by
  have hfold := rollbackFold_spec m.savePoints.length hS m.subTracks
    (fun t ht h hh => ⟨hmatch t ht h hh, hmono t ht h hh⟩) m.subTracks [] m.savePoints.length
    (List.nil_append _)
    ⟨le_refl _, fun _ => rfl, fun ⟨t, ht, _⟩ => absurd ht (List.not_mem_nil t),
      fun k hk _ => le_of_lt hk⟩
  obtain ⟨hf1, hf2, hf3, _⟩ := hfold
  refine ⟨hf1, ?_, hf2⟩
  intro hex
  obtain ⟨hlt, hzero⟩ := hf3 hex
  refine ⟨hlt, ?_⟩
  rcases hzero with h0 | hfit
  · have hri : rollbackIndex m = 0 := h0
    rw [hri]
    intro t ht h hpr hh
    exact ((hwithin t ht h hh).2.1 hpr).2
  · exact hfit

theorem savesWithin_afterRollback {K : Type} (m : TInputManager K)
    (hS : 1 ≤ m.savePoints.length) (hmatch : SavesMatchStack m) (hmono : SavesMonotone m)
    (hwithin : SavesWithinTracks m) :
    (rollbackIndex m < m.savePoints.length →
      ∀ t ∈ m.subTracks, ∀ h, t.handler = TTrackHandlerP.manager h →
        rollbackIndex m < h.saves.length ∧
        0 ≤ h.saves.getD (rollbackIndex m) 0 ∧ h.saves.getD (rollbackIndex m) 0 ≤ t.size) ∧
    (∀ t ∈ (paintRollbackTo (rollbackIndex m : Int) m).subTracks, ∀ h,
      t.handler = TTrackHandlerP.manager h → ∀ x ∈ h.saves, 0 ≤ x ∧ x ≤ t.size) := by
  obtain ⟨hle, hsome, hnone⟩ := rollbackIndex_suits m hS hmatch hmono hwithin
  have hbound : ∀ t ∈ m.subTracks, ∀ h, t.handler = TTrackHandlerP.manager h →
      ∀ j, j ≤ rollbackIndex m → j < h.saves.length →
        0 ≤ h.saves.getD j 0 ∧ h.saves.getD j 0 ≤ t.size := by
    intro t ht h hh j hj hjl
    obtain ⟨w1, w2, w3⟩ := hwithin t ht h hh
    have hmem : h.saves.getD j 0 ∈ h.saves := by
      rw [List.getD_eq_getElem _ _ hjl]
      exact List.getElem_mem _
    refine ⟨w1 _ hmem, ?_⟩
    by_cases hpr : t.pointsRemoved > 0
    · obtain ⟨hlt, hsuit⟩ := hsome ⟨t, ht, hpr, h, hh⟩
      have hlen := hmatch t ht h hh
      have h1 := pairwise_getD_le h.saves (hmono t ht h hh) j (rollbackIndex m) hj
        (by omega)
      have h2 := hsuit t ht h hpr hh
      have h3 := (w2 hpr).1
      omega
    · exact w3 hpr _ hmem
  constructor
  · intro hlt t ht h hh
    have hlen := hmatch t ht h hh
    have hb := hbound t ht h hh (rollbackIndex m) (le_refl _) (by omega)
    exact ⟨by omega, hb.1, hb.2⟩
  · by_cases hlt : rollbackIndex m < m.savePoints.length
    · intro t1 ht1 h1 hh1 x hx
      rw [paintRollbackTo_subTracks _ m (by omega), List.mem_map] at ht1
      obtain ⟨t, ht, rfl⟩ := ht1
      unfold rollbackTrack at hh1 ⊢
      cases hh : t.handler with
      | null =>
        simp only [hh] at hh1
        cases hh1
      | foreign =>
        simp only [hh] at hh1
        cases hh1
      | manager h =>
        simp only [hh, TTrackHandlerP.manager.injEq] at hh1 ⊢
        subst hh1
        have hnat : ((rollbackIndex m : Int) + 1).toNat = rollbackIndex m + 1 := by omega
        simp only [hnat] at hx
        obtain ⟨j, hj1, hj2, rfl⟩ := mem_take_index (0 : Int) h.saves _ x hx
        exact hbound t ht h hh j (by omega) hj2
    · have he : paintRollbackTo (rollbackIndex m : Int) m = m := by
        unfold paintRollbackTo
        rw [if_pos (by omega)]
      rw [he]
      intro t ht h hh x hx
      obtain ⟨w1, _, w3⟩ := hwithin t ht h hh
      refine ⟨w1 x hx, ?_⟩
      by_cases hpr : t.pointsRemoved > 0
      · have := (hsome ⟨t, ht, hpr, h, hh⟩).1
        omega
      · exact w3 hpr x hx

/-- C32 (as amended): at the rollback and apply steps of `paintTracks`, with a stack of
at least one save point, suppose that every manager handler holds one non-negative
`saves` entry per save point in non-decreasing order, that `0 ≤ savePointsSent ≤
|stack|`, that every track from which points were removed has `pointsAdded ≥ 0` and
`saves[0] ≤ size − pointsAdded` (the modifiers removed no point of the earliest save
point), and that every other track is at least as long as each of its `saves` entries.
Then whenever `paintRollbackTo` sets `pointsAdded := size − saves[k]`, and whenever
`paintApply` sets `pointsAdded := size − saves[savePointsSent]`, the index is inside
`saves` and `0 ≤ pointsAdded ≤ size`. -/
theorem recomputed_delta_within {K : Type} (tool : TTool K) (m : TInputManager K)
    (hS : 1 ≤ m.savePoints.length) (hmatch : SavesMatchStack m) (hmono : SavesMonotone m)
    (hwithin : SavesWithinTracks m) (hsent : SentWithinStack m) :
    (rollbackIndex m < m.savePoints.length →
      (paintRollbackTo (rollbackIndex m : Int) m).subTracks
        = m.subTracks.map (rollbackTrack (rollbackIndex m : Int)) ∧
      ∀ t ∈ m.subTracks, ∀ h, t.handler = TTrackHandlerP.manager h →
        rollbackIndex m < h.saves.length ∧
        (rollbackTrack (rollbackIndex m : Int) t).pointsAdded
          = t.size - h.saves.getD (rollbackIndex m) 0 ∧
        0 ≤ (rollbackTrack (rollbackIndex m : Int) t).pointsAdded ∧
        (rollbackTrack (rollbackIndex m : Int) t).pointsAdded
          ≤ (rollbackTrack (rollbackIndex m : Int) t).size) ∧
    (∀ count : Int, 0 < count →
      count ≤ ((paintRollbackTo (rollbackIndex m : Int) m).savePoints.length : Int) →
      ∃ (resend : Bool) (sent : Int),
        (paintApply tool count (paintRollbackTo (rollbackIndex m : Int) m)).subTracks
          = (paintRollbackTo (rollbackIndex m : Int) m).subTracks.map
              (applyTrack resend sent
                (((paintRollbackTo (rollbackIndex m : Int) m).savePoints.length : Int)
                  - count)) ∧
        (resend = true →
          ∀ t ∈ (paintRollbackTo (rollbackIndex m : Int) m).subTracks, ∀ h,
            t.handler = TTrackHandlerP.manager h →
            0 ≤ sent ∧ sent < (h.saves.length : Int) ∧
            (applyTrack true sent
              (((paintRollbackTo (rollbackIndex m : Int) m).savePoints.length : Int)
                - count) t).pointsAdded = t.size - h.saves.getD sent.toNat 0 ∧
            0 ≤ (applyTrack true sent
              (((paintRollbackTo (rollbackIndex m : Int) m).savePoints.length : Int)
                - count) t).pointsAdded ∧
            (applyTrack true sent
              (((paintRollbackTo (rollbackIndex m : Int) m).savePoints.length : Int)
                - count) t).pointsAdded
              ≤ (applyTrack true sent
                  (((paintRollbackTo (rollbackIndex m : Int) m).savePoints.length : Int)
                    - count) t).size)) ∧
    (∀ pass : ModifierPass K,
      rollbackAndApply tool pass m
        = paintApply tool
            (applyCount pass.stackFree
              (paintRollbackTo (rollbackIndex m : Int) m).savePoints.length : Nat)
            (paintRollbackTo (rollbackIndex m : Int) m) ∧
      applyCount pass.stackFree
          (paintRollbackTo (rollbackIndex m : Int) m).savePoints.length
        ≤ (paintRollbackTo (rollbackIndex m : Int) m).savePoints.length) := by
  obtain ⟨hroll, hafter⟩ := savesWithin_afterRollback m hS hmatch hmono hwithin
  refine ⟨?_, ?_, ?_⟩
  · intro hlt
    refine ⟨paintRollbackTo_subTracks _ m (by omega), ?_⟩
    intro t ht h hh
    obtain ⟨b1, b2, b3⟩ := hroll hlt t ht h hh
    have hnat : ((rollbackIndex m : Int) + 1).toNat = rollbackIndex m + 1 := by omega
    have hadd : (rollbackTrack (rollbackIndex m : Int) t).pointsAdded
        = t.size - h.saves.getD (rollbackIndex m) 0 := by
      unfold rollbackTrack
      simp only [hh, hnat, Int.toNat_ofNat, getD_take_succ]
    have hsize : (rollbackTrack (rollbackIndex m : Int) t).size = t.size := by
      unfold rollbackTrack
      simp only [hh]
      rfl
    rw [hadd, hsize]
    exact ⟨b1, rfl, by omega, by omega⟩
  · intro count hc hle
    have hmatch1 := savesMatch_paintRollbackTo (rollbackIndex m : Int) m hmatch
    have hsent1 := sentWithin_paintRollbackTo (rollbackIndex m) m hsent
    obtain ⟨resend, sent, hsub, hres⟩ := paintApply_subTracks_resend tool count
      (paintRollbackTo (rollbackIndex m : Int) m) hc
    refine ⟨resend, sent, hsub, ?_⟩
    intro hr t ht h hh
    have hs := hres hr
    have hlen := hmatch1 t ht h hh
    unfold SentWithinStack at hsent1
    have h0 : 0 ≤ sent := by omega
    have h1 : sent < (h.saves.length : Int) := by omega
    have hmem : h.saves.getD sent.toNat 0 ∈ h.saves := by
      rw [List.getD_eq_getElem _ _ (by omega)]
      exact List.getElem_mem _
    obtain ⟨c1, c2⟩ := hafter t ht h hh _ hmem
    have hadd : (applyTrack true sent
        (((paintRollbackTo (rollbackIndex m : Int) m).savePoints.length : Int) - count)
          t).pointsAdded = t.size - h.saves.getD sent.toNat 0 := by
      unfold applyTrack
      simp only [hh, if_true]
    have hsize : (applyTrack true sent
        (((paintRollbackTo (rollbackIndex m : Int) m).savePoints.length : Int) - count)
          t).size = t.size := by
      unfold applyTrack
      simp only [hh, if_true]
      rfl
    rw [hadd, hsize]
    exact ⟨h0, h1, rfl, by omega, by omega⟩
  · intro pass
    have hne : m.savePoints.isEmpty = false := by
      cases hsp : m.savePoints with
      | nil => rw [hsp] at hS; simp at hS
      | cons a rest => rfl
    refine ⟨?_, applyCount_le _ _⟩
    unfold rollbackAndApply
    simp only [hne, Bool.false_eq_true, if_false]
    rfl

/-- Witness of C32 (as amended): two save points, one track of five points with saves
`[2, 4]`, one point removed and two added.  The earliest save point still suits
(`2 ≤ 5 − 2`), the rollback index is 0 and the rollback sets `pointsAdded = 5 − 2 = 3`,
within `[0, 5]`. -/
theorem recomputed_delta_within_witness :
    1 ≤ rolledManager.savePoints.length ∧ SavesMatchStack rolledManager ∧
    SavesMonotone rolledManager ∧ SavesWithinTracks rolledManager ∧
    SentWithinStack rolledManager ∧
    (paintRollbackTo (rollbackIndex rolledManager : Int) rolledManager).subTracks.map
        (fun t => (t.size, t.pointsAdded)) = [(5, 3)] ∧
    ∀ t ∈ rolledManager.subTracks, ∀ h, t.handler = TTrackHandlerP.manager h →
      0 ≤ (rollbackTrack (rollbackIndex rolledManager : Int) t).pointsAdded ∧
      (rollbackTrack (rollbackIndex rolledManager : Int) t).pointsAdded
        ≤ (rollbackTrack (rollbackIndex rolledManager : Int) t).size := by
  have hmatch : SavesMatchStack rolledManager := by
    intro t ht h hh
    rw [(rolledManager_subTracks t ht).1] at hh
    cases hh
    rfl
  have hmono : SavesMonotone rolledManager := by
    intro t ht h hh
    rw [(rolledManager_subTracks t ht).1] at hh
    cases hh
    decide
  have hwithin : SavesWithinTracks rolledManager := by
    intro t ht h hh
    have ht2 : t ∈ [(rolledManager.subTracks).headD (rawTrack [] 0 0)] := ht
    rw [List.mem_singleton] at ht2
    subst ht2
    have hh2 : h = ⟨[2, 4]⟩ := by
      cases hh
      rfl
    subst hh2
    refine ⟨by decide, fun _ => by decide, fun hn => absurd (by decide) hn⟩
  have hsent : SentWithinStack rolledManager := by
    unfold SentWithinStack rolledManager
    decide
  have h := (recomputed_delta_within obligingTool rolledManager (by decide) hmatch hmono
    hwithin hsent).1 (by decide)
  refine ⟨by decide, hmatch, hmono, hwithin, hsent, rfl, ?_⟩
  intro t ht hd hh
  exact ⟨(h.2 t ht hd hh).2.2.1, (h.2 t ht hd hh).2.2.2⟩

theorem gridTrack_sums :
    weightSum gridMetrics (contributingSteps TConsts.epsilon
      (trackWeightSteps gridMetrics axisGuideline TAffine.identity gridTrack)) = 51 ∧
    deviationSum gridMetrics (contributingSteps TConsts.epsilon
      (trackWeightSteps gridMetrics axisGuideline TAffine.identity gridTrack)) = 72 := by
  have hsteps : trackWeightSteps gridMetrics axisGuideline TAffine.identity gridTrack
      = [⟨0, 0, 1⟩, ⟨30, 30, 1⟩, ⟨21, 51, 2⟩] := by
    norm_num [trackWeightSteps, weightSteps, gridTrack, samplePoint, pointAt, clampIndex,
      axisGuideline, TAffine.identity, TAffine.apply, gridMetrics]
  have heps : (TConsts.epsilon : ℚ) = 1 / 100000000 := rfl
  have hmax : (maxLength : ℚ) = 40 := by norm_num [maxLength, snapLenght, snapScale]
  have hvisited : visitedSteps [(⟨0, 0, 1⟩ : WeightStep ℚ), ⟨30, 30, 1⟩, ⟨21, 51, 2⟩]
      = [⟨0, 0, 1⟩, ⟨30, 30, 1⟩, ⟨21, 51, 2⟩] := by
    unfold visitedSteps visitedSteps visitedSteps
    rw [if_neg (by rw [hmax]; norm_num), if_neg (by rw [hmax]; norm_num),
      if_pos (by rw [hmax]; norm_num)]
  rw [hsteps]
  unfold contributingSteps
  rw [hvisited, List.filter_cons_of_neg (by rw [heps]; norm_num),
    List.filter_cons_of_pos (by rw [heps]; norm_num),
    List.filter_cons_of_pos (by rw [heps]; norm_num), List.filter_nil]
  constructor
  · norm_num [weightSum, WeightStep.weight, gridMetrics]
  · norm_num [deviationSum, WeightStep.weight, gridMetrics]

/-- C8: `calcTrackWeight` is a total function.  For a track with fewer than two points
it returns `+infinity` and `outLongEnough = false`.  For a longer track the loop leaves
in `sumWeight` the sum `Σw` of the weights `w = ℓ·f(L − ℓ/2)` and in `sumDeviation` the
sum `Σ(w·d)` of the products of weight and deviation, both over the steps that
contribute (midpoint arc length above epsilon, up to the step that reaches
`maxLength`); the result is `+infinity` exactly when `Σw ≤ eps`, and otherwise the
finite quotient `Σ(w·d)/Σw`, so it is `+infinity` or that quotient in every case. -/
theorem calcTrackWeight_cases {K : Type} [LinearOrderedField K] (m : Metrics K)
    (eps : K) (g : TGuideline K) (points : List (TTrackPoint K)) (toScreen : TAffine K) :
    (points.length < 2 → calcTrackWeight m eps g points toScreen = (⊤, false)) ∧
    (2 ≤ points.length →
      (calcTrackWeightSums m eps g points toScreen).sumWeight
        = weightSum m (contributingSteps eps (trackWeightSteps m g toScreen points)) ∧
      (calcTrackWeightSums m eps g points toScreen).sumDeviation
        = deviationSum m (contributingSteps eps (trackWeightSteps m g toScreen points)) ∧
      ((calcTrackWeight m eps g points toScreen).1 = ⊤ ↔
        weightSum m (contributingSteps eps (trackWeightSteps m g toScreen points)) ≤ eps) ∧
      (eps < weightSum m (contributingSteps eps (trackWeightSteps m g toScreen points)) →
        (calcTrackWeight m eps g points toScreen).1 =
          ((deviationSum m (contributingSteps eps (trackWeightSteps m g toScreen points))
            / weightSum m (contributingSteps eps (trackWeightSteps m g toScreen points))
              : K) : WithTop K) ∧
        (calcTrackWeight m eps g points toScreen).1 ≠ ⊤)) ∧
    ((calcTrackWeight m eps g points toScreen).1 = ⊤ ∨
      (calcTrackWeight m eps g points toScreen).1 =
        ((deviationSum m (contributingSteps eps (trackWeightSteps m g toScreen points))
          / weightSum m (contributingSteps eps (trackWeightSteps m g toScreen points))
            : K) : WithTop K)) := by
  have hshort : points.length < 2 → calcTrackWeight m eps g points toScreen = (⊤, false) := by
    intro h
    simp [calcTrackWeight, h]
  have hlong : 2 ≤ points.length →
      (calcTrackWeight m eps g points toScreen).1 =
        if eps < weightSum m
            (contributingSteps eps (trackWeightSteps m g toScreen points)) then
          ((deviationSum m (contributingSteps eps (trackWeightSteps m g toScreen points))
            / weightSum m (contributingSteps eps (trackWeightSteps m g toScreen points))
              : K) : WithTop K)
        else ⊤ :=
    calcTrackWeight_eq_sums m eps g points toScreen
  refine ⟨hshort, ?_, ?_⟩
  · intro h
    obtain ⟨h1, h3⟩ := calcTrackWeightLoop_sums m eps g toScreen points
      { sumWeight := 0, sumLength := 0, sumDeviation := 0,
        prev := toScreen.apply (pointAt points 0).position, longEnough := false }
    simp only [zero_add] at h1 h3
    refine ⟨h1, h3, ?_, ?_⟩
    · rw [hlong h]
      by_cases hw : eps < weightSum m
          (contributingSteps eps (trackWeightSteps m g toScreen points))
      · rw [if_pos hw]
        constructor
        · intro habs
          exact absurd habs WithTop.coe_ne_top
        · intro hle
          exact absurd hw (not_lt.mpr hle)
      · rw [if_neg hw]
        exact ⟨fun _ => not_lt.mp hw, fun _ => rfl⟩
    · intro hw
      rw [hlong h, if_pos hw]
      exact ⟨rfl, WithTop.coe_ne_top⟩
  · by_cases h : points.length < 2
    · left
      rw [hshort h]
    · rw [hlong (by omega)]
      by_cases hw : eps < weightSum m
          (contributingSteps eps (trackWeightSteps m g toScreen points))
      · right
        rw [if_pos hw]
      · left
        rw [if_neg hw]

/-- Witness of C8: on the track (0,1), (30,1), (50,2) with the taxicab distance, the
constant weighting function 1 and the projection on the x axis the loop accumulates
`Σw = 30 + 21 = 51` and `Σ(w·d) = 30·1 + 21·2 = 72`, above epsilon, and the result is
the quotient `72/51`; a track of one point scores `+infinity` with `outLongEnough`
false. -/
theorem calcTrackWeight_cases_witness :
    2 ≤ gridTrack.length ∧
    (calcTrackWeightSums gridMetrics TConsts.epsilon axisGuideline gridTrack
      TAffine.identity).sumWeight = 51 ∧
    (calcTrackWeightSums gridMetrics TConsts.epsilon axisGuideline gridTrack
      TAffine.identity).sumDeviation = 72 ∧
    (calcTrackWeight gridMetrics TConsts.epsilon axisGuideline gridTrack
      TAffine.identity).1 = ((72 / 51 : ℚ) : WithTop ℚ) ∧
    calcTrackWeight gridMetrics TConsts.epsilon axisGuideline [samplePoint 0 1 0 0 0]
      TAffine.identity = (⊤, false) := by
  have h2 : 2 ≤ gridTrack.length := by decide
  have h := calcTrackWeight_cases gridMetrics TConsts.epsilon axisGuideline gridTrack
    TAffine.identity
  obtain ⟨hw, hd, -, hq⟩ := h.2.1 h2
  have heps : (TConsts.epsilon : ℚ) = 1 / 100000000 := rfl
  have hlt : (TConsts.epsilon : ℚ) < weightSum gridMetrics (contributingSteps TConsts.epsilon
      (trackWeightSteps gridMetrics axisGuideline TAffine.identity gridTrack)) := by
    rw [gridTrack_sums.1, heps]
    norm_num
  have hres := (hq hlt).1
  rw [gridTrack_sums.1, gridTrack_sums.2] at hres
  rw [gridTrack_sums.1] at hw
  rw [gridTrack_sums.2] at hd
  exact ⟨h2, hw, hd, hres,
    (calcTrackWeight_cases gridMetrics TConsts.epsilon axisGuideline
      [samplePoint 0 1 0 0 0] TAffine.identity).1 (by decide)⟩

end OpenToonz
